import Mathlib

/-!
# TelnetSpy: the buffering engine and the NVT interpreter

A shallow embedding of `src/TelnetSpy.cpp` in the `RLJ_SPY_MODS` build: the
output ring buffer with its line eviction and its resize, the block sender,
the input ring buffer, the tick function `handle()` and the inbound Telnet
interpreter `checkReceive()`, with theorems about them.

Conventions of the embedding.

* Bytes are natural numbers. `char` is the unsigned 8-bit type of the ESP
  tool chains, so that `255 == c` can hold, as the source expects.
* The cursor and counter fields are declared in `TelnetSpy.h`; they are
  16-bit unsigned like the locals `tmp`, `len` and `oldBufLen` they are
  copied to and from. Arithmetic that can leave the range is reduced
  modulo `2^16` (`u16`); `unsigned long` is 32 bits (`u32`).
* Heap blocks are lists of bytes, a null pointer is `none`. A read outside a
  block gives 0 and a store outside it is dropped; the theorems assume the
  cursors inside the storage wherever a store matters.
* `memcpy` reads its source bytes as they were before the call.
* The socket is a record: a connected flag, the bytes the peer has made
  available, and the log of `write` calls, each tagged with the place in the
  source that issued it. A connected socket accepts every write; a write to
  a socket that is not connected sends nothing.
* `millis()` is a field of the state; it does not advance during one call.
* Callbacks are user code; an invocation is recorded in an event log.
-/

namespace TelnetSpy

/-- One `client.write` call, tagged with the statement that issued it. -/
inductive Wr where
  | welcome (bs : List Nat)
  | reject (bs : List Nat)
  | filterEcho (bs : List Nat)
  | oob (b : Nat)
  | block (bs : List Nat)
  | direct (b : Nat)
  deriving DecidableEq, Repr

/-- A callback invocation (or a built-in default action). -/
inductive Ev where
  | onConnect
  | onDisconnect
  | onFilter
  | brk
  | ip
  | ao
  | ayt
  | ec
  | el
  | ga
  | wwdd (command option : Nat)
  | restart
  deriving DecidableEq, Repr

/-- A callback slot of `setCallbackOnNvtIP` / `setCallbackOnNvtAO`: the null
pointer, the sentinel `(void (*)())1` selecting the built-in action, or a
function of the host. -/
inductive Slot where
  | null
  | builtin
  | custom
  deriving DecidableEq, Repr

/-- The `WiFiClient` as the engine sees it. -/
structure Client where
  connected : Bool
  rx : List Nat
  tx : List Wr
  deriving DecidableEq, Repr

/-- The fields of the `TelnetSpy` object, the clock and the event log. -/
structure Spy where
  telnetBuf : Option (List Nat)
  bufLen : Nat
  bufUsed : Nat
  bufRdIdx : Nat
  bufWrIdx : Nat
  bufRdIdxStart : Nat
  bufLeftToSend : Nat
  minBlockSize : Nat
  maxBlockSize : Nat
  collectingTime : Nat
  pingTime : Nat
  storeOffline : Bool
  NVT0 : Nat
  NVT1 : Nat
  NVTidx : Nat
  pingHoldoff : Nat
  waitHoldoff : Nat
  nvtDetected : Bool
  recBuf : Option (List Nat)
  recLen : Nat
  recUsed : Nat
  recRdIdx : Nat
  recWrIdx : Nat
  started : Bool
  listening : Bool
  connected : Bool
  welcomeMsg : List Nat
  rejectMsg : List Nat
  filterChar : Nat
  filterMsg : List Nat
  filterCallback : Bool
  callbackConnect : Bool
  callbackDisconnect : Bool
  callbackNvtBRK : Bool
  callbackNvtIP : Slot
  callbackNvtAO : Slot
  callbackNvtAYT : Bool
  callbackNvtEC : Bool
  callbackNvtEL : Bool
  callbackNvtGA : Bool
  callbackNvtWWDD : Bool
  client : Client
  millis : Nat
  events : List Ev
  deriving DecidableEq, Repr

/-- Conversion to `uint16_t`. -/
def u16 (i : Int) : Nat := (i % 65536).toNat

/-- Conversion to a 32-bit `unsigned long`. -/
def u32 (i : Int) : Nat := (i % 4294967296).toNat

/-- Read of `p[i]`. -/
def peekByte (p : Option (List Nat)) (i : Nat) : Nat :=
  match p with
  | some m => m.getD i 0
  | none => 0

/-- Store `p[i] = c`. -/
def pokeByte (p : Option (List Nat)) (i c : Nat) : Option (List Nat) :=
  match p with
  | some m => some (m.set i c)
  | none => none

/-- The `n` bytes `p[i], ..., p[i+n-1]` handed to `client.write(&p[i], n)`. -/
def readRun (p : Option (List Nat)) (i n : Nat) : List Nat :=
  (List.range n).map (fun k => peekByte p (i + k))

/-- Model of `client.write`: logged when the socket is connected. -/
def Client.send (c : Client) (w : Wr) : Client :=
  if c.connected then { c with tx := c.tx ++ [w] } else c

/-- The bytes of the buffer blocks in a write log, in the order written. -/
def blockBytes : List Wr → List Nat
  | [] => []
  | Wr.block bs :: ws => bs ++ blockBytes ws
  | _ :: ws => blockBytes ws

/-- `setHoldoff(holdoff, period)`: the new deadline. -/
def setHoldoff (now period : Nat) : Nat :=
  let h := u32 (now + period)
  if h = 0 then 1 else h

/-- `isHoldoff(holdoff)`: the deadline after the call; the call returns true
when it is not zero. -/
def isHoldoff (now holdoff : Nat) : Nat :=
  if holdoff ≠ 0 then
    if u32 ((now : Int) - holdoff) < 2147483648 then 0 else holdoff
  else holdoff

/-- `pullTelnetBuf()`: the byte returned and the state after. -/
def pullTelnetBuf (s : Spy) : Nat × Spy :=
  if s.bufUsed = 0 then (0, s)
  else
    let c := peekByte s.telnetBuf s.bufRdIdxStart
    let i := u16 (s.bufRdIdxStart + 1)
    let i := if i ≥ s.bufLen then 0 else i
    (c, { s with bufRdIdxStart := i, bufUsed := u16 ((s.bufUsed : Int) - 1) })

/-- `peekTelnetBuf()`. -/
def peekTelnetBuf (s : Spy) : Nat :=
  if s.bufUsed = 0 then 0 else peekByte s.telnetBuf s.bufRdIdxStart

/-- The `while (bufUsed > 0)` loop of `removeOldestLine`, at most `fuel`
iterations. Each iteration lowers `bufUsed`, so `bufUsed` iterations always
reach the exit. -/
def removeLoop : Nat → Spy → Spy
  | 0, s => s
  | fuel + 1, s =>
    if s.bufUsed > 0 then
      let r := pullTelnetBuf s
      if r.1 = 10 then r.2 else removeLoop fuel r.2
    else s

/-- `removeOldestLine()`. -/
def removeOldestLine (s : Spy) : Spy :=
  let s1 := removeLoop s.bufUsed s
  if peekTelnetBuf s1 = 13 then (pullTelnetBuf s1).2 else s1

/-- `addTelnetBuf(c)`. -/
def addTelnetBuf (s : Spy) (c : Nat) : Spy :=
  let s : Spy := if s.bufUsed = s.bufLen then removeOldestLine s else s
  let buf := pokeByte s.telnetBuf s.bufWrIdx c
  let w := u16 (s.bufWrIdx + 1)
  let w := if w ≥ s.bufLen then 0 else w
  { s with telnetBuf := buf, bufWrIdx := w,
           bufUsed := u16 (s.bufUsed + 1),
           bufLeftToSend := u16 (s.bufLeftToSend + 1) }

/-- The staged keep-alive bytes written by `sendBlock`: `NVTcpy[--idx]`,
then once more while `idx` is not zero. -/
def oobWrites (s : Spy) : List Wr :=
  if s.NVTidx = 0 then []
  else
    let i1 := u16 ((s.NVTidx : Int) - 1)
    let w1 := Wr.oob ([s.NVT0, s.NVT1].getD i1 0)
    if i1 = 0 then [w1]
    else [w1, Wr.oob ([s.NVT0, s.NVT1].getD (u16 ((i1 : Int) - 1)) 0)]

/-- The length of the block `sendBlock` takes from the ring. -/
def blockLen (s : Spy) : Nat :=
  let len := s.bufLeftToSend
  let len := if len > s.maxBlockSize then s.maxBlockSize else len
  min len (u16 ((s.bufLen : Int) - s.bufRdIdx))

/-- First part of `sendBlock()`: the staged keep-alive bytes are taken and
written, `NVTidx` is cleared. -/
def sendOob (s : Spy) : Spy :=
  { s with NVTidx := 0, client := (oobWrites s).foldl Client.send s.client }

/-- Second part of `sendBlock()`: `if (len)`, one block of the ring is
written and the send cursor moves. -/
def sendRing (s : Spy) : Spy :=
  let len := blockLen s
  if len ≠ 0 then
    let cl := s.client.send (Wr.block (readRun s.telnetBuf s.bufRdIdx len))
    let r := u16 (s.bufRdIdx + len)
    let r := if r ≥ s.bufLen then u16 ((r : Int) - s.bufLen) else r
    { s with client := cl, bufRdIdx := r,
             bufLeftToSend := u16 ((s.bufLeftToSend : Int) - len) }
  else s

/-- Last part of `sendBlock()`: `if (action)`, the holdoffs are armed. -/
def sendRearm (s : Spy) : Spy :=
  let s : Spy := { s with waitHoldoff := setHoldoff s.millis s.collectingTime }
  if s.pingTime ≠ 0 then
    let p := isHoldoff s.millis s.pingHoldoff
    if p = 0 then { s with pingHoldoff := setHoldoff s.millis s.pingTime }
    else { s with pingHoldoff := p }
  else s

/-- `sendBlock()`. -/
def sendBlock (s : Spy) : Spy :=
  let action := decide (s.NVTidx ≠ 0) || decide (blockLen s ≠ 0)
  let s : Spy := sendRing (sendOob s)
  if action then sendRearm s else s

/-- `write(data)`; the copy to the serial port and the return value are left
out. -/
def write (s : Spy) (data : Nat) : Spy :=
  if s.telnetBuf.isSome then
    if s.storeOffline || s.client.connected then
      let s : Spy :=
        if s.bufUsed = s.bufLen then
          let s : Spy := if s.client.connected then sendBlock s else s
          if s.bufUsed = s.bufLen then removeOldestLine s else s
        else s
      addTelnetBuf s data
    else s
  else
    if s.client.connected then
      { s with client := s.client.send (Wr.direct data) }
    else s

/-- `debugWrite(data)`; the copy to the UART is left out. -/
def debugWrite (s : Spy) (data : Nat) : Spy :=
  if s.telnetBuf.isSome then
    if s.storeOffline || s.client.connected then
      let s : Spy := if s.bufUsed = s.bufLen then removeOldestLine s else s
      addTelnetBuf s data
    else s
  else s

/-- Model of `memcpy(&m[dst], &m[src], n)` inside one block: the `n` source
bytes are read as they were before the call. -/
def memcpy (m : List Nat) (dst src n : Nat) : List Nat :=
  (List.range m.length).map (fun i =>
    if dst ≤ i ∧ i < dst + n then m.getD (src + (i - dst)) 0 else m.getD i 0)

/-- Model of a successful `realloc(p, n)`: the old bytes up to the smaller of
the two sizes are kept, the other bytes of the new block are whatever the
allocator hands out (`fresh`). -/
def realloc (p : Option (List Nat)) (n : Nat) (fresh : Nat → Nat) : List Nat :=
  (List.range n).map (fun i =>
    match p with
    | some m => if i < m.length then m.getD i 0 else fresh i
    | none => fresh i)

/-- The branch `bufLen < oldBufLen` of `setBufferSize`, entered with
`bufLen` already set to the new size. -/
def shrinkMove (s : Spy) (oldBufLen : Nat) : Spy :=
  if s.bufRdIdx < s.bufWrIdx then
    if s.bufWrIdx > s.bufLen then
      let tmp := min s.bufLen (u16 ((s.bufWrIdx : Int) - max s.bufLen s.bufRdIdx))
      let buf := s.telnetBuf.map (fun m => memcpy m 0 (s.bufWrIdx - tmp) tmp)
      let w := tmp
      let r := if w > s.bufRdIdx then w
               else if s.bufRdIdx > s.bufLen then 0 else s.bufRdIdx
      let u := if r = w then s.bufLen else u16 ((w : Int) - r)
      { s with telnetBuf := buf, bufWrIdx := w, bufRdIdx := r, bufUsed := u }
    else s
  else
    if s.bufWrIdx > s.bufLen then
      let buf := s.telnetBuf.map
        (fun m => memcpy m 0 (s.bufWrIdx - s.bufLen) s.bufLen)
      { s with telnetBuf := buf, bufRdIdx := 0, bufWrIdx := 0,
               bufUsed := s.bufLen }
    else
      let tmp := u16 (min ((s.bufLen : Int) - s.bufWrIdx)
                          ((oldBufLen : Int) - s.bufRdIdx))
      let buf := s.telnetBuf.map
        (fun m => memcpy m (s.bufLen - tmp) (oldBufLen - tmp) tmp)
      { s with telnetBuf := buf, bufRdIdx := u16 ((s.bufLen : Int) - tmp),
               bufUsed := u16 (s.bufWrIdx + tmp) }

/-- `setBufferSize(newSize)`. The argument `alloc` is the outcome of the
`realloc` call, if it is reached: `none` when no memory can be obtained,
`some fresh` when it succeeds. The calls to `telnetServer->setNoDelay` are
left out. -/
def setBufferSize (s : Spy) (newSize : Nat) (alloc : Option (Nat → Nat)) :
    Bool × Spy :=
  if s.telnetBuf.isSome ∧ s.bufLen = newSize then (true, s)
  else if newSize = 0 then (true, { s with bufLen := 0, telnetBuf := none })
  else
    let newSize := max newSize s.minBlockSize
    let oldBufLen := s.bufLen
    let hadBuf := s.telnetBuf.isSome
    let s : Spy := { s with bufLen := newSize }
    let s : Spy :=
      if !hadBuf || s.bufUsed = 0 then
        { s with bufRdIdx := 0, bufWrIdx := 0, bufUsed := 0 }
      else if s.bufLen < oldBufLen then shrinkMove s oldBufLen
      else s
    let s : Spy := { s with bufLeftToSend := s.bufUsed }
    match alloc with
    | none => (false, s)
    | some fresh =>
      let s : Spy := { s with telnetBuf := some (realloc s.telnetBuf s.bufLen fresh) }
      let s : Spy :=
        if s.bufLen > oldBufLen ∧ s.bufRdIdx > s.bufWrIdx then
          let tmp := u16 ((s.bufLen : Int) - ((oldBufLen : Int) - s.bufRdIdx))
          { s with
            telnetBuf := s.telnetBuf.map
              (fun m => memcpy m tmp s.bufRdIdx (oldBufLen - s.bufRdIdx)),
            bufRdIdx := tmp }
        else s
      (true, s)

/-- `client.stop()`. -/
def Client.stop (c : Client) : Client :=
  { c with connected := false, rx := [] }

/-- `client.read()` converted to `char`: the next byte, or `(char)-1` when
nothing is there. -/
def clientRead (s : Spy) : Nat × Spy :=
  (s.client.rx.headD 255, { s with client := { s.client with rx := s.client.rx.tail } })

/-- `disconnectClient()`. -/
def disconnectClient (s : Spy) : Spy :=
  let s : Spy :=
    if s.client.connected then
      let s := sendBlock s
      { s with client := s.client.stop }
    else s
  let s : Spy :=
    if s.connected ∧ s.callbackDisconnect then
      { s with events := s.events ++ [Ev.onDisconnect] }
    else s
  { s with connected := false }

/-- `writeRecBuf(c)`. -/
def writeRecBuf (s : Spy) (c : Nat) : Spy :=
  if s.recLen = s.recUsed then s
  else
    let buf := pokeByte s.recBuf s.recWrIdx c
    let w := u16 (s.recWrIdx + 1)
    let w := if w ≥ s.recLen then 0 else w
    { s with recBuf := buf, recWrIdx := w, recUsed := u16 (s.recUsed + 1) }

/-- The loop of `case 250` in `checkReceive`, at most `fuel` iterations;
`n` is the local counter of the caller. -/
def sbLoop : Nat → Int → Spy → Int × Spy
  | 0, n, s => (n, s)
  | fuel + 1, n, s =>
    if n > 0 then
      let r := clientRead s
      let n := n - 1
      if r.1 ≠ 255 then sbLoop fuel n r.2
      else
        let r2 := clientRead r.2
        sbLoop fuel (n - 1) r2.2
    else (n, s)

/-- The `switch (c)` of `checkReceive` after IAC and the command byte `c`
have been read. The result is `none` when the device restarts and the
function never returns. -/
def nvtCommand (fuel : Nat) (c : Nat) (n : Int) (s : Spy) : Option (Int × Spy) :=
  if c = 241 then
    if s.pingTime ≠ 0 then
      some (n, { s with pingHoldoff := setHoldoff s.millis s.pingTime })
    else some (n, s)
  else if c = 242 then some (n, s)
  else if c = 243 then
    some (n, if s.callbackNvtBRK then { s with events := s.events ++ [Ev.brk] } else s)
  else if c = 244 then
    match s.callbackNvtIP with
    | Slot.null => some (n, s)
    | Slot.builtin => none
    | Slot.custom => some (n, { s with events := s.events ++ [Ev.ip] })
  else if c = 245 then
    match s.callbackNvtAO with
    | Slot.null => some (n, s)
    | Slot.builtin => some (n, disconnectClient s)
    | Slot.custom => some (n, { s with events := s.events ++ [Ev.ao] })
  else if c = 246 then
    some (n, if s.callbackNvtAYT then { s with events := s.events ++ [Ev.ayt] } else s)
  else if c = 247 then
    some (n, if s.callbackNvtEC then { s with events := s.events ++ [Ev.ec] } else s)
  else if c = 248 then
    some (n, if s.callbackNvtEL then { s with events := s.events ++ [Ev.el] } else s)
  else if c = 249 then
    some (n, if s.callbackNvtGA then { s with events := s.events ++ [Ev.ga] } else s)
  else if c = 250 then some (sbLoop fuel n s)
  else if c = 251 ∨ c = 252 ∨ c = 253 ∨ c = 254 then
    let s : Spy := { s with nvtDetected := true }
    let r := clientRead s
    let s2 : Spy :=
      if r.2.callbackNvtWWDD then
        { r.2 with events := r.2.events ++ [Ev.wwdd c r.1] }
      else r.2
    some (n - 1, s2)
  else if c = 255 then
    some (n, if s.recBuf.isSome then writeRecBuf s c else s)
  else some (n, s)

/-- The `while (n > 0)` loop of `checkReceive`, at most `fuel` iterations.
Every iteration that does not return lowers `n`. -/
def rxLoop : Nat → Int → Spy → Spy
  | 0, _, s => s
  | fuel + 1, n, s =>
    if n > 0 then
      let c := s.client.rx.headD 255
      if s.filterChar ≠ 0 ∧ s.filterChar = c then
        let s : Spy :=
          if s.filterMsg.length > 0 then
            { s with client := s.client.send (Wr.filterEcho s.filterMsg) }
          else s
        let s : Spy := (clientRead s).2
        let s : Spy :=
          if s.filterCallback then { s with events := s.events ++ [Ev.onFilter] }
          else s
        rxLoop fuel (n - 1) s
      else if c = 255 then
        if n = 1 then s
        else
          let s : Spy := (clientRead s).2
          let r := clientRead s
          match nvtCommand fuel r.1 (n - 2) r.2 with
          | none => { r.2 with events := r.2.events ++ [Ev.restart] }
          | some (n2, s2) => rxLoop fuel n2 s2
      else if s.recBuf.isSome then
        let s : Spy := (clientRead s).2
        rxLoop fuel (n - 1) (writeRecBuf s c)
      else s
    else s

/-- `checkReceive()`: `n = client.available()`, then the loop. -/
def checkReceive (s : Spy) : Spy :=
  rxLoop s.client.rx.length s.client.rx.length s

/-- The accept step of `handle()`, `if (telnetServer->hasClient())`, for a
pending client `p`. The second component is the rejected client after the
reject message, `flush` and `stop`, if the pending client was rejected. -/
def handleAccept (s : Spy) (p : Client) : Spy × Option Client :=
  if s.client.connected then
    let r := if s.rejectMsg.length > 0 then p.send (Wr.reject s.rejectMsg) else p
    (s, some r.stop)
  else
    let cl := if s.welcomeMsg.length > 0 then p.send (Wr.welcome s.welcomeMsg) else p
    ({ s with client := cl, bufRdIdx := s.bufRdIdxStart,
              bufLeftToSend := s.bufUsed }, none)

/-- The connect and disconnect detection of `handle()`. -/
def handleLifecycle (s : Spy) : Spy :=
  if s.client.connected then
    if !s.connected then
      let s : Spy := { s with connected := true }
      let s : Spy :=
        if s.pingTime ≠ 0 then
          { s with pingHoldoff := setHoldoff s.millis s.pingTime }
        else s
      if s.callbackConnect then { s with events := s.events ++ [Ev.onConnect] }
      else s
    else s
  else
    if s.connected then
      let s : Spy := { s with connected := false }
      let s : Spy := sendBlock s
      let s : Spy := { s with client := s.client.stop }
      let s : Spy := { s with pingHoldoff := 0,
                              waitHoldoff := setHoldoff s.millis s.collectingTime }
      if s.callbackDisconnect then
        { s with events := s.events ++ [Ev.onDisconnect] }
      else s
    else s

/-- The flush scheduler of `handle()`. -/
def handleFlush (s : Spy) : Spy :=
  if s.client.connected ∧ s.bufLeftToSend > 0 then
    if s.bufLeftToSend ≥ s.minBlockSize then sendBlock s
    else
      let w := isHoldoff s.millis s.waitHoldoff
      let s : Spy := { s with waitHoldoff := w }
      if w = 0 then
        let s : Spy := sendBlock s
        { s with waitHoldoff := setHoldoff s.millis s.collectingTime }
      else s
  else s

/-- The keep-alive step of `handle()`. -/
def handlePing (s : Spy) : Spy :=
  if s.client.connected ∧ s.pingTime ≠ 0 then
    let p := isHoldoff s.millis s.pingHoldoff
    let s : Spy := { s with pingHoldoff := p }
    if p = 0 then
      let s : Spy :=
        if s.nvtDetected then { s with NVT0 := 241, NVT1 := 255, NVTidx := 2 }
        else { s with NVT0 := 0, NVTidx := 1 }
      sendBlock s
    else s
  else s

/-- `handle()` once the engine is started: `ready` is what the WiFi mode and
status checks give while not yet listening, `pending` is the client the
server has waiting, if any. The re-installation of the debug hook on the
first call is left out. -/
def handle (s : Spy) (ready : Bool) (pending : Option Client) :
    Spy × Option Client :=
  if !s.started then (s, none)
  else if !s.listening ∧ !ready then (s, none)
  else
    let s : Spy := { s with listening := true }
    let a : Spy × Option Client :=
      match pending with
      | some p => handleAccept s p
      | none => (s, none)
    let s : Spy := handlePing (handleFlush (handleLifecycle a.1))
    (if s.client.connected then checkReceive s else s, a.2)

/-! ## Vocabulary of the statements -/

/-- The `cnt` bytes of a ring of capacity `n` read from cursor `start`,
wrapping at the physical end. -/
def ringRead (p : Option (List Nat)) (n start cnt : Nat) : List Nat :=
  (List.range cnt).map (fun k => peekByte p ((start + k) % n))

/-- Logical content of the output ring, oldest byte first: `bufUsed` bytes
from the oldest-byte cursor `bufRdIdxStart`. -/
def content (s : Spy) : List Nat :=
  ringRead s.telnetBuf s.bufLen s.bufRdIdxStart s.bufUsed

/-- Logical content of the output ring as `setBufferSize` sees it: `bufUsed`
bytes from `bufRdIdx`. -/
def contentRd (s : Spy) : List Nat :=
  ringRead s.telnetBuf s.bufLen s.bufRdIdx s.bufUsed

/-- Logical content of the input ring, oldest byte first. -/
def recContent (s : Spy) : List Nat :=
  ringRead s.recBuf s.recLen s.recRdIdx s.recUsed

/-- The line eviction as the specification words it: the bytes through the
first line feed go (all bytes when there is none), then one more byte if it
is a carriage return. -/
def dropLine (xs : List Nat) : List Nat :=
  match (xs.dropWhile (fun x => x ≠ 10)).drop 1 with
  | 13 :: r => r
  | r => r

/-- Telnet escaping of data: every `0xFF` byte is doubled. -/
def escape : List Nat → List Nat
  | [] => []
  | x :: xs => if x = 255 then 255 :: 255 :: escape xs else x :: escape xs

/-- A call made by the host on the output side. -/
inductive Op where
  | write (b : Nat)
  | debugWrite (b : Nat)
  | sendBlock
  deriving DecidableEq, Repr

/-- One call. -/
def step (s : Spy) : Op → Spy
  | Op.write b => write s b
  | Op.debugWrite b => debugWrite s b
  | Op.sendBlock => sendBlock s

/-- A sequence of calls, first to last. -/
def run (s : Spy) (ops : List Op) : Spy := ops.foldl step s

/-- The bytes pushed by a sequence of calls, in order. -/
def pushed : List Op → List Nat
  | [] => []
  | Op.write b :: ops => b :: pushed ops
  | Op.debugWrite b :: ops => b :: pushed ops
  | Op.sendBlock :: ops => pushed ops

/-- `k` calls of `sendBlock()`. -/
def drain : Nat → Spy → Spy
  | 0, s => s
  | k + 1, s => drain k (sendBlock s)

/-- The ring is well formed for capacity `n`: the storage has `n` bytes, the
used count is at most `n` and the three cursors index inside the storage. -/
def RingOK (s : Spy) (n : Nat) : Prop :=
  s.bufLen = n ∧ s.bufUsed ≤ n ∧ s.bufRdIdx < n ∧ s.bufWrIdx < n ∧
    s.bufRdIdxStart < n

instance (s : Spy) (n : Nat) : Decidable (RingOK s n) := by
  unfold RingOK; infer_instance

/-- A state with no buffers, no client and every setting cleared, from which
the example states are built. -/
def blank : Spy :=
  { telnetBuf := none, bufLen := 0, bufUsed := 0, bufRdIdx := 0, bufWrIdx := 0,
    bufRdIdxStart := 0, bufLeftToSend := 0, minBlockSize := 1,
    maxBlockSize := 1, collectingTime := 0, pingTime := 0,
    storeOffline := true, NVT0 := 0, NVT1 := 0, NVTidx := 0, pingHoldoff := 0,
    waitHoldoff := 0, nvtDetected := false, recBuf := none, recLen := 0,
    recUsed := 0, recRdIdx := 0, recWrIdx := 0, started := true,
    listening := true, connected := false, welcomeMsg := [], rejectMsg := [],
    filterChar := 0, filterMsg := [], filterCallback := false,
    callbackConnect := false, callbackDisconnect := false,
    callbackNvtBRK := false, callbackNvtIP := Slot.builtin,
    callbackNvtAO := Slot.builtin, callbackNvtAYT := false,
    callbackNvtEC := false, callbackNvtEL := false, callbackNvtGA := false,
    callbackNvtWWDD := false,
    client := { connected := false, rx := [], tx := [] },
    millis := 0, events := [] }

/-- An empty enabled output ring of capacity `n` with a connected client. -/
def emptyRing (n maxBlock : Nat) : Spy :=
  { blank with telnetBuf := some (List.replicate n 0), bufLen := n,
               maxBlockSize := maxBlock,
               client := { connected := true, rx := [], tx := [] } }

/-- The bytes left when the oldest bytes through the first line feed go. -/
def dropToLF (xs : List Nat) : List Nat :=
  (xs.dropWhile (fun x => x ≠ 10)).drop 1

/-- The state after the `d` oldest bytes of the ring have been pulled. -/
def evict (s : Spy) (n d : Nat) : Spy :=
  { s with bufRdIdxStart := (s.bufRdIdxStart + d) % n, bufUsed := s.bufUsed - d }

/-- The fields of the output ring that the block sender never writes. -/
def ringCore (s : Spy) :
    Option (List Nat) × Nat × Nat × Nat × Nat × Nat × Nat × Bool :=
  (s.telnetBuf, s.bufLen, s.bufUsed, s.bufWrIdx, s.bufRdIdxStart,
    s.maxBlockSize, s.minBlockSize, s.storeOffline)

/-- The send cursor is `j` bytes into the logical content, the `j` bytes
before it are exactly the block bytes written to the connected socket since
the log held `base`, and the bytes after it are the unsent ones. -/
def Sending (s : Spy) (n j : Nat) (base : List Nat) : Prop :=
  s.bufLen = n ∧ n < 65536 ∧ s.bufRdIdxStart < n ∧ s.bufUsed ≤ n ∧
    j ≤ s.bufUsed ∧ s.bufLeftToSend = s.bufUsed - j ∧
    s.bufRdIdx = (s.bufRdIdxStart + j) % n ∧ s.client.connected = true ∧
    blockBytes s.client.tx = base ++ (content s).take j

/-- The state after byte `c` has been stored behind the newest byte of a ring
of capacity `n` that has room. -/
def push (s : Spy) (n c : Nat) : Spy :=
  { s with telnetBuf := pokeByte s.telnetBuf s.bufWrIdx c,
           bufWrIdx := (s.bufWrIdx + 1) % n,
           bufUsed := s.bufUsed + 1,
           bufLeftToSend := u16 ((s.bufLeftToSend : Int) + 1) }

/-- A full ring of capacity 4 holding `A LF CR B`, storing while offline. -/
def fullRing : Spy :=
  { blank with telnetBuf := some [65, 10, 13, 66], bufLen := 4, bufUsed := 4 }

/-- A full ring of capacity 2 with no client and `storeOffline` cleared. -/
def gatedRing : Spy :=
  { blank with telnetBuf := some [1, 10], bufLen := 2, bufUsed := 2,
               storeOffline := false }

/-- The ring mirrors the bytes `w` pushed so far: it is being sent from (`Sending`),
its logical content is `w`, the write cursor is just behind the newest byte
and the storage has `n` bytes. -/
def Mirror (s : Spy) (n j : Nat) (base w : List Nat) (mb : Nat) : Prop :=
  Sending s n j base ∧ content s = w ∧
    s.bufWrIdx = (s.bufRdIdxStart + s.bufUsed) % n ∧
    (∃ m, s.telnetBuf = some m ∧ m.length = n) ∧ s.maxBlockSize = mb

/-- State `t` is replaying the content of `s0`: it is being sent from, holds
what `s0` held, and no inbound bytes are waiting. -/
def Replaying (s0 t : Spy) (n : Nat) (base : List Nat) : Prop :=
  ∃ j, Sending t n j base ∧ ringCore t = ringCore s0 ∧ t.client.rx = []

/-- A disconnected engine holding `A B C` in a ring of capacity 4, oldest byte
at index 2, with the send cursor left at index 1. -/
def heldRing : Spy :=
  { blank with telnetBuf := some [67, 0, 65, 66], bufLen := 4, bufUsed := 3,
               bufRdIdx := 1, bufWrIdx := 1, bufRdIdxStart := 2,
               bufLeftToSend := 0, maxBlockSize := 8, minBlockSize := 1 }

/-- A freshly connected client with nothing sent or received yet. -/
def freshClient : Client := { connected := true, rx := [], tx := [] }

/-- A well-formed ring of capacity 8 holding `[7, 8]` at indices 3 and 4:
`bufRdIdx = 3`, `bufWrIdx = 5`, `bufUsed = 2`. -/
def shrinkCase : Spy :=
  { blank with telnetBuf := some [0, 0, 0, 7, 8, 0, 0, 0], bufLen := 8,
               bufUsed := 2, bufRdIdx := 3, bufWrIdx := 5, bufRdIdxStart := 3,
               bufLeftToSend := 2 }

/-- A full ring of capacity 2 in the wrapped layout: content `[1, 2]` with the
oldest byte at index 1, `bufRdIdx = bufWrIdx = 1`. -/
def growCaseWrapped : Spy :=
  { blank with telnetBuf := some [2, 1], bufLen := 2, bufUsed := 2,
               bufRdIdx := 1, bufWrIdx := 1, bufRdIdxStart := 1 }

/-- A full ring of capacity 2 with content `[1, 2]` from index 0,
`bufRdIdx = bufWrIdx = 0`. -/
def growCaseFull : Spy :=
  { blank with telnetBuf := some [1, 2], bufLen := 2, bufUsed := 2 }

/-- The input ring is well formed for capacity `cap`: it has storage of `cap`
bytes, the read cursor is inside, the used count is at most `cap` and the
write cursor is just behind the newest byte. -/
def RecOK (s : Spy) (cap : Nat) : Prop :=
  s.recBuf.map List.length = some cap ∧ s.recLen = cap ∧ cap < 65536 ∧
    s.recRdIdx < cap ∧ s.recUsed ≤ cap ∧
    s.recWrIdx = (s.recRdIdx + s.recUsed) % cap

instance (s : Spy) (cap : Nat) : Decidable (RecOK s cap) := by
  unfold RecOK; infer_instance

/-- The state after byte `c` has been stored in an input ring of capacity
`cap` that has room. -/
def recPush (s : Spy) (cap c : Nat) : Spy :=
  { s with recBuf := pokeByte s.recBuf s.recWrIdx c,
           recWrIdx := (s.recWrIdx + 1) % cap,
           recUsed := s.recUsed + 1 }

/-- The state after `k` calls of `client.read()`. -/
def skipRx (s : Spy) (k : Nat) : Spy :=
  { s with client := { s.client with rx := s.client.rx.drop k } }

/-- An engine with an input ring of capacity 4 whose client has made
`A IAC IAC B` available. -/
def escapedCase : Spy :=
  { blank with recBuf := some [0, 0, 0, 0], recLen := 4,
               callbackNvtBRK := true,
               client := { connected := true, rx := [65, 255, 255, 66], tx := [] } }

/-- A host function is registered for the two-byte command `cmd`. -/
def customFor (s : Spy) (cmd : Nat) : Prop :=
  (cmd = 243 ∧ s.callbackNvtBRK = true) ∨
  (cmd = 244 ∧ s.callbackNvtIP = Slot.custom) ∨
  (cmd = 245 ∧ s.callbackNvtAO = Slot.custom) ∨
  (cmd = 246 ∧ s.callbackNvtAYT = true) ∨
  (cmd = 247 ∧ s.callbackNvtEC = true) ∨
  (cmd = 248 ∧ s.callbackNvtEL = true) ∨
  (cmd = 249 ∧ s.callbackNvtGA = true)

instance (s : Spy) (cmd : Nat) : Decidable (customFor s cmd) := by
  unfold customFor; infer_instance

/-- The callback that belongs to the two-byte command `cmd`. -/
def eventOf (cmd : Nat) : Ev :=
  if cmd = 243 then Ev.brk
  else if cmd = 244 then Ev.ip
  else if cmd = 245 then Ev.ao
  else if cmd = 246 then Ev.ayt
  else if cmd = 247 then Ev.ec
  else if cmd = 248 then Ev.el
  else Ev.ga

/-- An engine with a Break callback and an input ring of capacity 4 whose
client has made `IAC BRK` available. -/
def breakCase : Spy :=
  { blank with recBuf := some [0, 0, 0, 0], recLen := 4,
               callbackNvtBRK := true,
               client := { connected := true, rx := [255, 243], tx := [] } }

/-- The engine of `breakCase` with the filter byte set to `0xFF` and a filter
callback. -/
def filterIacCase : Spy :=
  { breakCase with filterChar := 255, filterCallback := true }

/-- `flush()`; the calls `usedSer->flush()` and `client.flush()` have no
effect on the state of the engine and are left out. -/
def flush (s : Spy) : Spy :=
  if s.client.connected then sendBlock s else s

/-- `telnetAvailable()`: the value returned and the state after. -/
def telnetAvailable (s : Spy) : Nat × Spy :=
  let s : Spy := checkReceive s
  if s.recBuf.isSome then (s.recUsed, s) else (s.client.rx.length, s)

/-- `read()`: the value returned (`none` for -1) and the state after. The
argument `ser` is what `usedSer->read()` gives, `none` when the serial port
has nothing or there is no serial port. -/
def read (s : Spy) (ser : Option Nat) : Option Nat × Spy :=
  match ser with
  | some v => (some v, s)
  | none =>
    if s.client.connected then
      let a := telnetAvailable s
      let s : Spy := a.2
      if a.1 ≠ 0 then
        if s.recBuf.isSome then
          if s.recUsed = 0 then (none, s)
          else
            let val := peekByte s.recBuf s.recRdIdx
            let r := u16 (s.recRdIdx + 1)
            let r := if r ≥ s.recLen then 0 else r
            (some val, { s with recRdIdx := r,
                                recUsed := u16 ((s.recUsed : Int) - 1) })
        else
          match s.client.rx with
          | [] => (none, s)
          | v :: _ => (some v, (clientRead s).2)
      else (none, s)
    else (none, s)

/-- `k` calls of `read()` while the serial port has nothing: the values
returned, in order, and the state after. -/
def readN : Nat → Spy → List (Option Nat) × Spy
  | 0, s => ([], s)
  | k + 1, s =>
    let r := read s none
    let rest := readN k r.2
    (r.1 :: rest.1, rest.2)

/-- The unsent bytes of the output ring, next to send first:
`bufLeftToSend` bytes from the send cursor `bufRdIdx`. -/
def pending (s : Spy) : List Nat :=
  ringRead s.telnetBuf s.bufLen s.bufRdIdx s.bufLeftToSend

/-- The fields of the input ring, and the filter byte. -/
def recCore (s : Spy) : Option (List Nat) × Nat × Nat × Nat × Nat × Nat :=
  (s.recBuf, s.recLen, s.recUsed, s.recRdIdx, s.recWrIdx, s.filterChar)

/-- The peer of the active client closes the connection. -/
def peerCloses (s : Spy) : Spy :=
  { s with client := { s.client with connected := false } }

/-- An engine with an active client `A` (nothing sent yet) and a reject
message `N O`. -/
def busyCase : Spy :=
  { blank with connected := true, rejectMsg := [78, 79],
               callbackConnect := true, callbackDisconnect := true,
               client := { connected := true, rx := [], tx := [] } }

/-- The block written by `sendBlock`, as a list of `write` calls. -/
def blockWrite (s : Spy) : List Wr :=
  if blockLen s ≠ 0 then [Wr.block (readRun s.telnetBuf s.bufRdIdx (blockLen s))]
  else []

/-- A connected engine with three unsent bytes `A B C` at the start of a ring
of capacity 4 and blocks of at most 2 bytes. -/
def backlogRing : Spy :=
  { blank with telnetBuf := some [65, 66, 67, 0], bufLen := 4, bufUsed := 3,
               bufWrIdx := 3, bufLeftToSend := 3, maxBlockSize := 2,
               client := { connected := true, rx := [], tx := [] } }

/-- A connected engine with three unsent bytes `A B C` that wrap past the end
of a ring of capacity 4 (oldest byte at index 2), blocks of at most 8 bytes. -/
def wrappedBacklog : Spy :=
  { blank with telnetBuf := some [67, 0, 65, 66], bufLen := 4, bufUsed := 3,
               bufRdIdx := 2, bufWrIdx := 1, bufRdIdxStart := 2,
               bufLeftToSend := 3, maxBlockSize := 8,
               client := { connected := true, rx := [], tx := [] } }

/-- A connected engine whose peer has negotiated, with a ping interval of
1000 ms, the ping holdoff elapsed and two unsent bytes `A B`. -/
def pingCase : Spy :=
  { blank with telnetBuf := some [65, 66, 0, 0], bufLen := 4, bufUsed := 2,
               bufWrIdx := 2, bufLeftToSend := 2, maxBlockSize := 8,
               pingTime := 1000, collectingTime := 100, nvtDetected := true,
               connected := true, millis := 5000, pingHoldoff := 4000,
               client := { connected := true, rx := [], tx := [] } }

/-- A connected engine with keep-alive disabled, one unsent byte `A`, a
minimum block size of 4, a collecting time of 100 ms and no collecting
holdoff running, at clock value 5000. -/
def idleSmall : Spy :=
  { blank with telnetBuf := some [65, 0, 0, 0], bufLen := 4, bufUsed := 1,
               bufWrIdx := 1, bufLeftToSend := 1, minBlockSize := 4,
               maxBlockSize := 8, collectingTime := 100, connected := true,
               millis := 5000,
               client := { connected := true, rx := [], tx := [] } }

/-- The engine of `idleSmall` with the collecting holdoff running until
clock value 5050. -/
def heldSmall : Spy := { idleSmall with waitHoldoff := 5050 }

/-- New bytes from the peer become available. -/
def arrive (s : Spy) (bs : List Nat) : Spy :=
  { s with client := { s.client with rx := s.client.rx ++ bs } }

/-- An engine with an input ring of capacity 4 and a callback for every
command, the active client connected. -/
def listenerCase : Spy :=
  { blank with recBuf := some [0, 0, 0, 0], recLen := 4, connected := true,
               callbackNvtBRK := true, callbackNvtIP := Slot.custom,
               callbackNvtAO := Slot.custom, callbackNvtAYT := true,
               callbackNvtEC := true, callbackNvtEL := true,
               callbackNvtGA := true, callbackNvtWWDD := true,
               client := { connected := true, rx := [], tx := [] } }

/-- An engine with connect and disconnect callbacks, a welcome message `H i`
and no client yet. -/
def lobbyCase : Spy :=
  { blank with welcomeMsg := [72, 105], callbackConnect := true,
               callbackDisconnect := true }

/-- An engine with an empty input ring of capacity 2 and a connected client
with no inbound bytes waiting. -/
def emptyRec : Spy :=
  { blank with recBuf := some [0, 0], recLen := 2, connected := true,
               client := { connected := true, rx := [], tx := [] } }

/-- An engine with the filter byte `!` (33) and an input ring of capacity 8
whose client has made available `A ! IAC IAC ! B IAC BRK !`. -/
def filterCase : Spy :=
  { blank with recBuf := some [0, 0, 0, 0, 0, 0, 0, 0], recLen := 8,
               filterChar := 33, filterMsg := [63], filterCallback := true,
               connected := true,
               client := { connected := true,
                           rx := [65, 33, 255, 255, 33, 66, 255, 243, 33],
                           tx := [] } }

/-- Five `write` calls in a burst, no tick in between: `A LF B C D`. -/
def burstOps : List Op :=
  [Op.write 65, Op.write 10, Op.write 66, Op.write 67, Op.write 68]

/-- An empty enabled output ring of capacity 2 with no client, storing while
offline. -/
def offlineRing : Spy :=
  { blank with telnetBuf := some [0, 0], bufLen := 2 }

/-- A well-formed ring of capacity 8 holding `[7, 8]` at indices 2 and 3, the
write cursor at index 4: `bufRdIdx = bufRdIdxStart = 2`, `bufUsed = 2`. -/
def shrinkEdge : Spy :=
  { blank with telnetBuf := some [0, 0, 7, 8, 0, 0, 0, 0], bufLen := 8,
               bufUsed := 2, bufRdIdx := 2, bufWrIdx := 4, bufRdIdxStart := 2,
               bufLeftToSend := 2 }

/-- A well-formed ring of capacity 8 holding `[7, 8]` at indices 6 and 7, the
write cursor wrapped to index 0: `bufRdIdx = bufRdIdxStart = 6`,
`bufUsed = 2`. -/
def shrinkTail : Spy :=
  { blank with telnetBuf := some [0, 0, 0, 0, 0, 0, 7, 8], bufLen := 8,
               bufUsed := 2, bufRdIdx := 6, bufWrIdx := 0, bufRdIdxStart := 6,
               bufLeftToSend := 2 }

/-- What the environment does before one call of `handle()` and what the
call finds: the value of `millis()`, the bytes that have arrived from the
active client, whether its peer has closed, the WiFi readiness and the client
the server has waiting. -/
structure Tick where
  clock : Nat
  bytes : List Nat
  closes : Bool
  ready : Bool
  waiting : Option Client
  deriving DecidableEq, Repr

/-- One tick: the environment acts, then `handle()` runs. -/
def tick (s : Spy) (i : Tick) : Spy :=
  let s : Spy := arrive { s with millis := i.clock } i.bytes
  let s : Spy := if i.closes then peerCloses s else s
  (handle s i.ready i.waiting).1

/-- A sequence of ticks, first to last. -/
def runTicks (s : Spy) (is : List Tick) : Spy := is.foldl tick s

/-- State `t` follows state `s` without a change of the negotiation-observed
flag, and the inbound bytes still waiting in `t` are a tail of those waiting
in `s`. -/
def Quiet (s t : Spy) : Prop :=
  t.nvtDetected = s.nvtDetected ∧ t.client.rx <:+ s.client.rx

instance (s t : Spy) : Decidable (Quiet s t) := by
  unfold Quiet; infer_instance

/-- The bytes contain IAC immediately followed by WILL, WON'T, DO or DON'T
(251..254). -/
def Negotiates (rx : List Nat) : Prop :=
  ∃ c, 251 ≤ c ∧ c ≤ 254 ∧ [255, c] <:+: rx

instance (rx : List Nat) : Decidable (Negotiates rx) :=
  decidable_of_iff (∃ c ∈ ([251, 252, 253, 254] : List Nat), [255, c] <:+: rx) (by
    unfold Negotiates
    constructor
    · rintro ⟨c, hc, h⟩
      simp only [List.mem_cons, List.mem_singleton, List.not_mem_nil, or_false] at hc
      exact ⟨c, by omega, by omega, h⟩
    · rintro ⟨c, h1, h2, h⟩
      refine ⟨c, ?_, h⟩
      simp only [List.mem_cons, List.mem_singleton, List.not_mem_nil, or_false]
      omega)

/-- State `t` follows state `s` with the negotiation-observed flag kept when
it was set, and set only if the inbound bytes waiting in `s` contain a
negotiation command; the bytes still waiting in `t` are a tail of those
waiting in `s`. -/
def Heard (s t : Spy) : Prop :=
  t.client.rx <:+ s.client.rx ∧
  (s.nvtDetected = true → t.nvtDetected = true) ∧
  (t.nvtDetected = true → s.nvtDetected = true ∨ Negotiates s.client.rx)

instance (s t : Spy) : Decidable (Heard s t) := by
  unfold Heard; infer_instance

/-- A client that has made `IAC WILL 1` available and has been sent nothing. -/
def negotiator : Client := { connected := true, rx := [255, 251, 1], tx := [] }

/-- An engine with no client yet, a ping interval of 1000 ms, a
WILL/WON'T/DO/DON'T callback and an input ring of capacity 4. -/
def probeCase : Spy :=
  { blank with pingTime := 1000, callbackNvtWWDD := true,
               recBuf := some [0, 0, 0, 0], recLen := 4 }

/-- Three ticks: client `A` is accepted with `IAC WILL 1` waiting; the peer
of `A` closes; client `B`, which has sent nothing, is accepted. -/
def twoClients : List Tick :=
  [{ clock := 0, bytes := [], closes := false, ready := true,
     waiting := some negotiator },
   { clock := 10, bytes := [], closes := true, ready := true, waiting := none },
   { clock := 20, bytes := [], closes := false, ready := true,
     waiting := some freshClient }]

/-- A later tick at which the ping holdoff of `B` has elapsed; nothing has
arrived from `B`. -/
def probeTick : Tick :=
  { clock := 2000, bytes := [], closes := false, ready := true, waiting := none }

/-- The engine of `listenerCase` whose client has made `IAC WILL 1`
available. -/
def willCase : Spy := { listenerCase with client := negotiator }

/-- The engine of `listenerCase` whose client has made available a complete
subnegotiation followed by `IAC WILL 1` in one batch. -/
def swallowCase : Spy :=
  { listenerCase with
    client := { connected := true, rx := [255, 250, 1, 255, 240, 255, 251, 1],
                tx := [] } }

/-! ## Arithmetic of the 16-bit fields and of wrapping cursors -/

theorem u16_nat (n : Nat) (h : n < 65536) : u16 (n : Int) = n := by
  unfold u16; omega

theorem u16_succ (n : Nat) (h : n + 1 < 65536) : u16 ((n : Int) + 1) = n + 1 := by
  unfold u16; omega

theorem u16_sub (a b : Nat) (h : b ≤ a) (ha : a < 65536) :
    u16 ((a : Int) - b) = a - b := by
  unfold u16; omega

theorem u16_add (a b : Nat) (h : a + b < 65536) : u16 ((a : Int) + b) = a + b := by
  unfold u16; omega

theorem mod_wrap (a b n : Nat) (ha : a < n) (hb : b ≤ n) :
    (a + b) % n = if a + b < n then a + b else a + b - n := by
  split
  · next h => exact Nat.mod_eq_of_lt h
  · next h =>
    rw [Nat.mod_eq_sub_mod (by omega)]
    exact Nat.mod_eq_of_lt (by omega)

theorem mod_succ_shift (s k n : Nat) :
    ((s + 1) % n + k) % n = (s + (k + 1)) % n := by
  rw [Nat.add_mod, Nat.mod_mod, ← Nat.add_mod]
  congr 1; omega

theorem mod_ne_of_lt (s k c n : Nat) (hk : k < c) (hc : c < n) :
    (s + k) % n ≠ (s + c) % n := by
  intro h
  have h1 : k % n = c % n := Nat.ModEq.add_left_cancel' s h
  rw [Nat.mod_eq_of_lt (by omega), Nat.mod_eq_of_lt hc] at h1
  omega

/-! ## Reading a ring -/

theorem ringRead_length (p : Option (List Nat)) (n s c : Nat) :
    (ringRead p n s c).length = c := by
  simp [ringRead]

theorem ringRead_zero (p : Option (List Nat)) (n s : Nat) :
    ringRead p n s 0 = [] := by
  simp [ringRead]

theorem ringRead_cons (p : Option (List Nat)) (n s c : Nat) :
    ringRead p n s (c + 1) = peekByte p (s % n) :: ringRead p n ((s + 1) % n) c := by
  unfold ringRead
  rw [List.range_succ_eq_map]
  simp only [List.map_cons, List.map_map, Nat.add_zero]
  congr 1
  apply List.map_congr_left
  intro k _
  simp only [Function.comp, Nat.succ_eq_add_one]
  rw [mod_succ_shift]

theorem ringRead_snoc (p : Option (List Nat)) (n s c : Nat) :
    ringRead p n s (c + 1) = ringRead p n s c ++ [peekByte p ((s + c) % n)] := by
  unfold ringRead
  rw [List.range_succ]
  simp

theorem peek_poke_ne (p : Option (List Nat)) (i j c : Nat) (h : i ≠ j) :
    peekByte (pokeByte p j c) i = peekByte p i := by
  cases p with
  | none => rfl
  | some m =>
    simp only [peekByte, pokeByte, List.getD_eq_getElem?_getD]
    rw [List.getElem?_set_ne (Ne.symm h)]

theorem peek_poke_eq (m : List Nat) (j c : Nat) (h : j < m.length) :
    peekByte (pokeByte (some m) j c) j = c := by
  simp [peekByte, pokeByte, List.getD_eq_getElem?_getD, h]

/-- Storing a byte just behind the newest byte of a ring that is not full
appends it to the logical content. -/
theorem ringRead_poke (m : List Nat) (n s c b : Nat) (hm : m.length = n)
    (hc : c < n) :
    ringRead (pokeByte (some m) ((s + c) % n) b) n s (c + 1)
      = ringRead (some m) n s c ++ [b] := by
  rw [ringRead_snoc]
  have hlt : (s + c) % n < m.length := by
    rw [hm]; exact Nat.mod_lt _ (by omega)
  rw [peek_poke_eq m _ b hlt]
  congr 1
  unfold ringRead
  apply List.map_congr_left
  intro k hk
  rw [List.mem_range] at hk
  exact peek_poke_ne _ _ _ _ (mod_ne_of_lt s k c n hk hc)

theorem ringRead_mod (p : Option (List Nat)) (n s c : Nat) :
    ringRead p n (s % n) c = ringRead p n s c := by
  unfold ringRead
  apply List.map_congr_left
  intro k _
  show peekByte p ((s % n + k) % n) = peekByte p ((s + k) % n)
  rw [Nat.add_mod, Nat.mod_mod, ← Nat.add_mod]

theorem ringRead_drop (p : Option (List Nat)) (n : Nat) :
    ∀ (d s c : Nat), d ≤ c →
      ringRead p n ((s + d) % n) (c - d) = (ringRead p n s c).drop d := by
  intro d
  induction d with
  | zero =>
    intro s c _
    simp [ringRead_mod]
  | succ d ih =>
    intro s c h
    obtain ⟨c', rfl⟩ : ∃ c', c = c' + 1 := ⟨c - 1, by omega⟩
    rw [ringRead_cons, List.drop_succ_cons, ← ih ((s + 1) % n) c' (by omega)]
    rw [mod_succ_shift]
    congr 1
    omega

theorem dropToLF_nil : dropToLF [] = [] := rfl

theorem dropToLF_lf (t : List Nat) : dropToLF (10 :: t) = t := by
  simp [dropToLF, List.dropWhile]

theorem dropToLF_other (c : Nat) (t : List Nat) (h : c ≠ 10) :
    dropToLF (c :: t) = dropToLF t := by
  simp [dropToLF, List.dropWhile, h]

theorem dropLine_eq (xs : List Nat) :
    dropLine xs = match dropToLF xs with
      | 13 :: r => r
      | r => r := rfl

theorem evict_zero (s : Spy) (n : Nat) (hS : s.bufRdIdxStart < n) :
    evict s n 0 = s := by
  unfold evict
  simp only [Nat.add_zero, Nat.mod_eq_of_lt hS, Nat.sub_zero]

theorem evict_add (s : Spy) (n a b : Nat) :
    evict (evict s n a) n b = evict s n (a + b) := by
  unfold evict
  have h : ((s.bufRdIdxStart + a) % n + b) % n = (s.bufRdIdxStart + (a + b)) % n := by
    rw [Nat.add_mod, Nat.mod_mod, ← Nat.add_mod]
    congr 1; omega
  simp only [h]
  congr 1
  omega

theorem evict_evict (s : Spy) (n d : Nat) :
    evict (evict s n 1) n d = evict s n (d + 1) := by
  rw [evict_add, Nat.add_comm]

theorem content_evict (s : Spy) (n d : Nat) (hlen : s.bufLen = n)
    (hd : d ≤ s.bufUsed) : content (evict s n d) = (content s).drop d := by
  unfold content evict
  simp only [hlen]
  exact ringRead_drop _ _ _ _ _ hd

theorem pull_eq (s : Spy) (n : Nat) (hlen : s.bufLen = n) (hn : n < 65536)
    (hS : s.bufRdIdxStart < n) (hU0 : s.bufUsed ≠ 0) (hU : s.bufUsed ≤ n) :
    pullTelnetBuf s = (peekByte s.telnetBuf s.bufRdIdxStart, evict s n 1) := by
  unfold pullTelnetBuf evict
  rw [if_neg hU0]
  have h1 : u16 ((s.bufUsed : Int) - 1) = s.bufUsed - 1 := by
    unfold u16; omega
  have h2 : (if u16 ((s.bufRdIdxStart : Int) + 1) ≥ s.bufLen then 0
      else u16 ((s.bufRdIdxStart : Int) + 1)) = (s.bufRdIdxStart + 1) % n := by
    rw [u16_succ _ (by omega), hlen]
    have := mod_wrap s.bufRdIdxStart 1 n hS (by omega)
    rw [this]
    split <;> split <;> omega
  simp only [h1, h2]

theorem content_cons (s : Spy) (n : Nat) (hlen : s.bufLen = n)
    (hS : s.bufRdIdxStart < n) (hU0 : s.bufUsed ≠ 0) :
    content s = peekByte s.telnetBuf s.bufRdIdxStart :: content (evict s n 1) := by
  unfold content evict
  obtain ⟨u, hu⟩ : ∃ u, s.bufUsed = u + 1 := ⟨s.bufUsed - 1, by omega⟩
  simp only [hu, hlen, ringRead_cons, Nat.mod_eq_of_lt hS]
  simp

theorem removeLoop_eq (n : Nat) (hn : n < 65536) :
    ∀ (fuel : Nat) (s : Spy), s.bufLen = n → s.bufRdIdxStart < n →
      s.bufUsed ≤ n → s.bufUsed ≤ fuel →
      ∃ d, d ≤ s.bufUsed ∧ (s.bufUsed ≠ 0 → 0 < d) ∧
        removeLoop fuel s = evict s n d ∧
        (content s).drop d = dropToLF (content s) := by
  intro fuel
  induction fuel with
  | zero =>
    intro s hlen hS hU hf
    refine ⟨0, by omega, by omega, ?_, ?_⟩
    · rw [evict_zero s n hS]; rfl
    · have : s.bufUsed = 0 := by omega
      simp [content, this, ringRead_zero, dropToLF_nil]
  | succ fuel ih =>
    intro s hlen hS hU hf
    by_cases hU0 : s.bufUsed = 0
    · refine ⟨0, by omega, by omega, ?_, ?_⟩
      · rw [evict_zero s n hS]; simp [removeLoop, hU0]
      · simp [content, hU0, ringRead_zero, dropToLF_nil]
    · have hpull := pull_eq s n hlen hn hS hU0 hU
      have hc := content_cons s n hlen hS hU0
      have hpos : s.bufUsed > 0 := Nat.pos_of_ne_zero hU0
      by_cases h10 : peekByte s.telnetBuf s.bufRdIdxStart = 10
      · refine ⟨1, by omega, by omega, ?_, ?_⟩
        · simp [removeLoop, hpos, hpull, h10]
        · rw [hc, h10, dropToLF_lf]; simp
      · have e1 : (evict s n 1).bufUsed = s.bufUsed - 1 := rfl
        have e2 : (evict s n 1).bufRdIdxStart < n := Nat.mod_lt _ (by omega)
        obtain ⟨d, hd, _, heq, hdrop⟩ :=
          ih (evict s n 1) hlen e2 (by rw [e1]; omega) (by rw [e1]; omega)
        refine ⟨d + 1, by omega, by omega, ?_, ?_⟩
        · simp only [removeLoop, hpos, hpull, h10, if_true, if_false]
          rw [heq, evict_evict]
        · rw [hc, dropToLF_other _ _ h10, List.drop_succ_cons]
          exact hdrop

theorem removeOldestLine_eq (s : Spy) (n : Nat) (hn : n < 65536)
    (hlen : s.bufLen = n) (hS : s.bufRdIdxStart < n) (hU : s.bufUsed ≤ n) :
    ∃ d, d ≤ s.bufUsed ∧ (s.bufUsed ≠ 0 → 0 < d) ∧
      removeOldestLine s = evict s n d ∧
      (content s).drop d = dropLine (content s) := by
  obtain ⟨d, hd, hpos, heq, hdrop⟩ :=
    removeLoop_eq n hn s.bufUsed s hlen hS hU (Nat.le_refl _)
  have e1 : (evict s n d).bufUsed = s.bufUsed - d := rfl
  have e2 : (evict s n d).bufRdIdxStart < n := Nat.mod_lt _ (by omega)
  have e3 : (evict s n d).bufLen = n := hlen
  have hce := content_evict s n d hlen hd
  unfold removeOldestLine
  simp only [heq]
  by_cases hU0 : (evict s n d).bufUsed = 0
  · refine ⟨d, hd, hpos, ?_, ?_⟩
    · simp [peekTelnetBuf, hU0]
    · have hnil : content (evict s n d) = [] := by
        simp [content, hU0, ringRead_zero]
      rw [dropLine_eq, ← hdrop, ← hce, hnil]
  · have hc := content_cons (evict s n d) n e3 e2 hU0
    have hpull := pull_eq (evict s n d) n e3 hn e2 hU0 (by rw [e1]; omega)
    have hpk : peekTelnetBuf (evict s n d)
        = peekByte (evict s n d).telnetBuf (evict s n d).bufRdIdxStart := by
      simp [peekTelnetBuf, hU0]
    rw [hpk]
    by_cases h13 : peekByte (evict s n d).telnetBuf (evict s n d).bufRdIdxStart = 13
    · refine ⟨d + 1, by omega, by omega, ?_, ?_⟩
      · rw [if_pos h13, hpull, evict_add]
      · rw [dropLine_eq, ← hdrop, ← hce, hc, h13]
        have := content_evict s n (d + 1) hlen (by omega)
        rw [← evict_add] at this
        simp only []
        rw [this]
    · refine ⟨d, hd, hpos, ?_, ?_⟩
      · rw [if_neg h13]
      · rw [dropLine_eq, ← hdrop, ← hce, hc]
        generalize peekByte (evict s n d).telnetBuf (evict s n d).bufRdIdxStart = c at h13
        split
        · next r heq =>
          have := (List.cons.inj heq).1
          exact absurd this h13
        · rfl

/-! ## The block sender -/

theorem blockBytes_append (a b : List Wr) :
    blockBytes (a ++ b) = blockBytes a ++ blockBytes b := by
  induction a with
  | nil => rfl
  | cons w ws ih => cases w <;> simp [blockBytes, ih]

theorem send_connected (c : Client) (w : Wr) :
    (c.send w).connected = c.connected := by
  unfold Client.send; split <;> rfl

theorem send_rx (c : Client) (w : Wr) : (c.send w).rx = c.rx := by
  unfold Client.send; split <;> rfl

theorem send_blocks (c : Client) (w : Wr) (h : c.connected = true) :
    blockBytes (c.send w).tx = blockBytes c.tx ++ blockBytes [w] := by
  unfold Client.send; simp [h, blockBytes_append]

theorem send_noblock (c : Client) (w : Wr) (hw : blockBytes [w] = []) :
    blockBytes (c.send w).tx = blockBytes c.tx := by
  unfold Client.send; split
  · simp [blockBytes_append, hw]
  · rfl

theorem foldl_send (ws : List Wr) :
    ∀ c : Client, (∀ w ∈ ws, blockBytes [w] = []) →
      (ws.foldl Client.send c).connected = c.connected ∧
      (ws.foldl Client.send c).rx = c.rx ∧
      blockBytes (ws.foldl Client.send c).tx = blockBytes c.tx := by
  induction ws with
  | nil => intro c _; simp
  | cons w ws ih =>
    intro c h
    obtain ⟨h1, h2, h3⟩ := ih (c.send w) (fun x hx => h x (List.mem_cons_of_mem _ hx))
    simp only [List.foldl_cons]
    rw [h1, h2, h3, send_connected, send_rx,
      send_noblock c w (h w (List.mem_cons_self _ _))]
    exact ⟨rfl, rfl, rfl⟩

theorem oobWrites_noblock (s : Spy) : ∀ w ∈ oobWrites s, blockBytes [w] = [] := by
  intro w hw
  unfold oobWrites at hw
  split at hw
  · simp at hw
  · simp only [] at hw
    split at hw
    · simp at hw; subst hw; rfl
    · simp at hw
      rcases hw with h | h <;> subst h <;> rfl

theorem sendRearm_eq (s : Spy) :
    ∃ a b, sendRearm s = { s with waitHoldoff := a, pingHoldoff := b } := by
  unfold sendRearm
  simp only []
  split
  · split
    · exact ⟨_, _, rfl⟩
    · exact ⟨_, _, rfl⟩
  · exact ⟨_, _, rfl⟩

/-- What `sendBlock()` leaves alone, and what it does to the socket and the
send cursor, for any state. -/
theorem sendBlock_eq (s : Spy) :
    ∃ a b cl, sendBlock s =
        { sendRing { s with NVTidx := 0, client := cl } with
          waitHoldoff := a, pingHoldoff := b } ∧
      cl.connected = s.client.connected ∧ cl.rx = s.client.rx ∧
      blockBytes cl.tx = blockBytes s.client.tx := by
  obtain ⟨h1, h2, h3⟩ := foldl_send (oobWrites s) s.client (oobWrites_noblock s)
  unfold sendBlock
  simp only []
  split
  · obtain ⟨a, b, h⟩ := sendRearm_eq (sendRing (sendOob s))
    exact ⟨a, b, _, h, h1, h2, h3⟩
  · exact ⟨_, _, _, rfl, h1, h2, h3⟩

theorem content_core (s t : Spy) (h : ringCore t = ringCore s) :
    content t = content s := by
  simp only [ringCore, Prod.mk.injEq] at h
  obtain ⟨h1, h2, h3, _, h5, _⟩ := h
  simp only [content, h1, h2, h3, h5]

theorem sendRing_core (s : Spy) : ringCore (sendRing s) = ringCore s := by
  unfold sendRing
  simp only []
  split <;> rfl

theorem sendBlock_core (s : Spy) : ringCore (sendBlock s) = ringCore s := by
  obtain ⟨a, b, cl, h, _⟩ := sendBlock_eq s
  rw [h]
  exact sendRing_core _

theorem ringRead_take (p : Option (List Nat)) (n s c l : Nat) (h : l ≤ c) :
    (ringRead p n s c).take l = ringRead p n s l := by
  unfold ringRead
  rw [← List.map_take, List.take_range, Nat.min_eq_left h]

theorem ringRead_run (p : Option (List Nat)) (n s l : Nat) (h : s + l ≤ n) :
    ringRead p n s l = readRun p s l := by
  unfold ringRead readRun
  apply List.map_congr_left
  intro k hk
  rw [List.mem_range] at hk
  rw [Nat.mod_eq_of_lt (by omega)]

theorem blockLen_bound (s : Spy) (n j : Nat) (base : List Nat)
    (h : Sending s n j base) :
    blockLen s ≤ s.bufUsed - j ∧ s.bufRdIdx + blockLen s ≤ n ∧
      (1 ≤ s.maxBlockSize → j < s.bufUsed → 0 < blockLen s) := by
  obtain ⟨hlen, hn, hS, hU, hj, hleft, hR, _, _⟩ := h
  have hRlt : s.bufRdIdx < n := by rw [hR]; exact Nat.mod_lt _ (by omega)
  unfold blockLen
  simp only [hlen, hleft]
  rw [u16_sub n s.bufRdIdx (by omega) hn]
  refine ⟨?_, ?_, ?_⟩
  · split <;> omega
  · omega
  · intro hm hjU
    split <;> omega

theorem sendRing_sending (s : Spy) (n j : Nat) (base : List Nat)
    (h : Sending s n j base) :
    Sending (sendRing s) n (j + blockLen s) base := by
  have hb := blockLen_bound s n j base h
  obtain ⟨hlen, hn, hS, hU, hj, hleft, hR, hconn, htx⟩ := h
  obtain ⟨hb1, hb2, _⟩ := hb
  have hcore := sendRing_core s
  have hcont := content_core s (sendRing s) hcore
  simp only [ringCore, Prod.mk.injEq] at hcore
  obtain ⟨c1, c2, c3, c4, c5, c6, c7, c8⟩ := hcore
  by_cases h0 : blockLen s = 0
  · have he : sendRing s = s := by unfold sendRing; simp [h0]
    rw [he, h0]
    exact ⟨hlen, hn, hS, hU, hj, hleft, hR, hconn, htx⟩
  · have hRlt : s.bufRdIdx < n := by rw [hR]; exact Nat.mod_lt _ (by omega)
    have hblock : readRun s.telnetBuf s.bufRdIdx (blockLen s)
        = ((content s).drop j).take (blockLen s) := by
      unfold content
      rw [hlen, ← ringRead_drop _ _ _ _ _ hj, ringRead_take _ _ _ _ _ hb1, ← hR,
        ringRead_run _ _ _ _ hb2]
    have hr : (sendRing s).bufRdIdx = (s.bufRdIdxStart + (j + blockLen s)) % n := by
      have e : (s.bufRdIdxStart + (j + blockLen s)) % n
          = (s.bufRdIdx + blockLen s) % n := by
        rw [hR, Nat.add_mod ((s.bufRdIdxStart + j) % n), Nat.mod_mod, ← Nat.add_mod]
        congr 1; omega
      rw [e]
      unfold sendRing
      simp only [h0, ne_eq, not_false_eq_true, if_true, hlen]
      rw [u16_add _ _ (by omega)]
      by_cases hw : s.bufRdIdx + blockLen s = n
      · rw [hw, Nat.mod_self]
        simp
        unfold u16; omega
      · rw [Nat.mod_eq_of_lt (by omega)]
        simp
        omega
    have hl : (sendRing s).bufLeftToSend = s.bufUsed - (j + blockLen s) := by
      unfold sendRing
      simp only [h0, ne_eq, not_false_eq_true, if_true, hleft]
      unfold u16; omega
    have hcl : (sendRing s).client
        = s.client.send (Wr.block (readRun s.telnetBuf s.bufRdIdx (blockLen s))) := by
      unfold sendRing
      simp only [h0, ne_eq, not_false_eq_true, if_true]
    refine ⟨c2.trans hlen, hn, by rw [c5]; exact hS, by rw [c3]; exact hU,
      by rw [c3]; omega, by rw [hl, c3], by rw [hr, c5], ?_, ?_⟩
    · rw [hcl, send_connected]; exact hconn
    · rw [hcl, send_blocks _ _ hconn, htx, hcont, hblock, List.take_add]
      simp [blockBytes]

theorem sendBlock_sending (s : Spy) (n j : Nat) (base : List Nat)
    (h : Sending s n j base) :
    ∃ j', j ≤ j' ∧ Sending (sendBlock s) n j' base ∧
      (1 ≤ s.maxBlockSize → j < s.bufUsed → j < j') := by
  obtain ⟨a, b, cl, he, h1, h2, h3⟩ := sendBlock_eq s
  have h' : Sending { s with NVTidx := 0, client := cl } n j base := by
    obtain ⟨hlen, hn, hS, hU, hj, hleft, hR, hconn, htx⟩ := h
    exact ⟨hlen, hn, hS, hU, hj, hleft, hR, h1.trans hconn, h3.trans htx⟩
  have hs := sendRing_sending _ n j base h'
  have hb := (blockLen_bound _ n j base h').2.2
  refine ⟨j + blockLen { s with NVTidx := 0, client := cl }, by omega, ?_, ?_⟩
  · rw [he]
    exact hs
  · intro hm hj
    have := hb hm hj
    omega

/-! ## Pushing a byte -/

theorem addTelnetBuf_eq (s : Spy) (n c : Nat) (hlen : s.bufLen = n)
    (hn : n < 65536) (hU : s.bufUsed < n) (hW : s.bufWrIdx < n) :
    addTelnetBuf s c = push s n c := by
  unfold addTelnetBuf push
  have hne : s.bufUsed ≠ s.bufLen := by omega
  simp only [if_neg hne]
  have h1 : u16 ((s.bufUsed : Int) + 1) = s.bufUsed + 1 := u16_succ _ (by omega)
  have h2 : (if u16 ((s.bufWrIdx : Int) + 1) ≥ s.bufLen then 0
      else u16 ((s.bufWrIdx : Int) + 1)) = (s.bufWrIdx + 1) % n := by
    rw [u16_succ _ (by omega), hlen]
    have := mod_wrap s.bufWrIdx 1 n hW (by omega)
    rw [this]
    split <;> split <;> omega
  simp only [h1, h2]

theorem sendRing_rd (s : Spy) (n : Nat) (hlen : s.bufLen = n) (hn : n < 65536)
    (hR : s.bufRdIdx < n) : (sendRing s).bufRdIdx < n := by
  unfold sendRing
  simp only []
  split
  · have hb : blockLen s ≤ n - s.bufRdIdx := by
      unfold blockLen
      simp only [hlen]
      rw [u16_sub n s.bufRdIdx (by omega) hn]
      omega
    simp only [hlen]
    rw [u16_add _ _ (by omega)]
    split
    · unfold u16; omega
    · omega
  · exact hR

theorem sendBlock_rd (s : Spy) (n : Nat) (hlen : s.bufLen = n) (hn : n < 65536)
    (hR : s.bufRdIdx < n) : (sendBlock s).bufRdIdx < n := by
  obtain ⟨a, b, cl, h, _⟩ := sendBlock_eq s
  rw [h]
  exact sendRing_rd { s with NVTidx := 0, client := cl } n hlen hn hR

theorem sendBlock_ringOK (s : Spy) (n : Nat) (hn : n < 65536) (h : RingOK s n) :
    RingOK (sendBlock s) n := by
  obtain ⟨hlen, hU, hR, hW, hS⟩ := h
  have hc := sendBlock_core s
  simp only [ringCore, Prod.mk.injEq] at hc
  obtain ⟨c1, c2, c3, c4, c5, c6, c7, c8⟩ := hc
  exact ⟨c2.trans hlen, by rw [c3]; exact hU, sendBlock_rd s n hlen hn hR,
    by rw [c4]; exact hW, by rw [c5]; exact hS⟩

theorem write_room (s : Spy) (n b : Nat) (hbuf : s.telnetBuf.isSome = true)
    (hst : (s.storeOffline || s.client.connected) = true)
    (hlen : s.bufLen = n) (hn : n < 65536) (hU : s.bufUsed < n)
    (hW : s.bufWrIdx < n) : write s b = push s n b := by
  unfold write
  have hne : s.bufUsed ≠ s.bufLen := by omega
  simp only [hbuf, hst, if_true, if_neg hne]
  exact addTelnetBuf_eq s n b hlen hn hU hW

theorem debugWrite_room (s : Spy) (n b : Nat) (hbuf : s.telnetBuf.isSome = true)
    (hst : (s.storeOffline || s.client.connected) = true)
    (hlen : s.bufLen = n) (hn : n < 65536) (hU : s.bufUsed < n)
    (hW : s.bufWrIdx < n) : debugWrite s b = push s n b := by
  unfold debugWrite
  have hne : s.bufUsed ≠ s.bufLen := by omega
  simp only [hbuf, hst, if_true, if_neg hne]
  exact addTelnetBuf_eq s n b hlen hn hU hW

/-- A push into a full ring: the eviction removes `d ≥ 1` of the oldest
bytes, then the byte is stored. -/
theorem debugWrite_full (s : Spy) (n b : Nat) (hbuf : s.telnetBuf.isSome = true)
    (hst : (s.storeOffline || s.client.connected) = true)
    (hn1 : 1 ≤ n) (hn : n < 65536) (h : RingOK s n) (hfull : s.bufUsed = n) :
    ∃ d, 0 < d ∧ d ≤ n ∧ debugWrite s b = push (evict s n d) n b ∧
      (content s).drop d = dropLine (content s) := by
  obtain ⟨hlen, hU, hR, hW, hS⟩ := h
  obtain ⟨d, hd, hpos, heq, hdrop⟩ := removeOldestLine_eq s n hn hlen hS hU
  refine ⟨d, hpos (by omega), by omega, ?_, hdrop⟩
  unfold debugWrite
  have hfl : s.bufUsed = s.bufLen := by omega
  simp only [hbuf, hst, if_true, hfl]
  rw [heq]
  exact addTelnetBuf_eq (evict s n d) n b hlen hn
    (by show s.bufUsed - d < n; have := hpos (by omega); omega) hW

theorem write_full (s : Spy) (n b : Nat) (hbuf : s.telnetBuf.isSome = true)
    (hst : (s.storeOffline || s.client.connected) = true)
    (hn1 : 1 ≤ n) (hn : n < 65536) (h : RingOK s n) (hfull : s.bufUsed = n) :
    ∃ t d, (t = s ∨ t = sendBlock s) ∧ 0 < d ∧ d ≤ n ∧
      write s b = push (evict t n d) n b ∧
      (content t).drop d = dropLine (content t) := by
  have key : ∀ t : Spy, (t = s ∨ t = sendBlock s) →
      (if t.bufUsed = t.bufLen then removeOldestLine t else t) = removeOldestLine t ∧
      RingOK t n ∧ t.bufUsed = n := by
    intro t ht
    rcases ht with rfl | rfl
    · have hfl : t.bufUsed = t.bufLen := by rw [hfull, h.1]
      exact ⟨by rw [if_pos hfl], h, hfull⟩
    · have hok := sendBlock_ringOK s n hn h
      have hc := sendBlock_core s
      simp only [ringCore, Prod.mk.injEq] at hc
      have hu : (sendBlock s).bufUsed = n := by rw [hc.2.2.1]; exact hfull
      have hfl : (sendBlock s).bufUsed = (sendBlock s).bufLen := by rw [hu, hok.1]
      exact ⟨by rw [if_pos hfl], hok, hu⟩
  have hfl : s.bufUsed = s.bufLen := by rw [hfull, h.1]
  have fin : ∀ t : Spy, (t = s ∨ t = sendBlock s) →
      write s b = addTelnetBuf (removeOldestLine t) b →
      ∃ t d, (t = s ∨ t = sendBlock s) ∧ 0 < d ∧ d ≤ n ∧
        write s b = push (evict t n d) n b ∧
        (content t).drop d = dropLine (content t) := by
    intro t ht hw
    obtain ⟨_, hok, hu⟩ := key t ht
    obtain ⟨hlen, hU, hR, hW, hS⟩ := hok
    obtain ⟨d, hd, hpos, heq, hdrop⟩ := removeOldestLine_eq t n hn hlen hS hU
    refine ⟨t, d, ht, hpos (by omega), by omega, ?_, hdrop⟩
    rw [hw, heq]
    exact addTelnetBuf_eq (evict t n d) n b hlen hn
      (by show t.bufUsed - d < n; have := hpos (by omega); omega) hW
  by_cases hc : s.client.connected = true
  · apply fin (sendBlock s) (Or.inr rfl)
    unfold write
    rw [if_pos hbuf, if_pos hst]
    simp only [hfl, hc, if_true]
    rw [(key (sendBlock s) (Or.inr rfl)).1]
  · apply fin s (Or.inl rfl)
    unfold write
    rw [if_pos hbuf, if_pos hst]
    simp only [hfl, hc, if_true]
    first | rfl | (rw [if_pos hfl]) | simp [hfl]

theorem push_evict_ringOK (t : Spy) (n d b : Nat) (hn1 : 1 ≤ n)
    (h : RingOK t n) (hd : t.bufUsed - d < n) :
    RingOK (push (evict t n d) n b) n := by
  obtain ⟨hlen, hU, hR, hW, hS⟩ := h
  refine ⟨hlen, ?_, hR, ?_, ?_⟩
  · show t.bufUsed - d + 1 ≤ n
    omega
  · exact Nat.mod_lt _ (by omega)
  · exact Nat.mod_lt _ (by omega)

theorem write_ringOK (s : Spy) (n b : Nat) (hn1 : 1 ≤ n) (hn : n < 65536)
    (h : RingOK s n) : RingOK (write s b) n := by
  by_cases hbuf : s.telnetBuf.isSome = true
  · by_cases hst : (s.storeOffline || s.client.connected) = true
    · by_cases hfull : s.bufUsed = n
      · obtain ⟨t, d, ht, hpos, hd, heq, _⟩ := write_full s n b hbuf hst hn1 hn h hfull
        rw [heq]
        have hok : RingOK t n := by
          rcases ht with rfl | rfl
          · exact h
          · exact sendBlock_ringOK s n hn h
        exact push_evict_ringOK t n d b hn1 hok (by have := hok.2.1; omega)
      · have hU : s.bufUsed < n := by have := h.2.1; omega
        rw [write_room s n b hbuf hst h.1 hn hU h.2.2.2.1, ← evict_zero s n h.2.2.2.2]
        exact push_evict_ringOK s n 0 b hn1 h (by omega)
    · have : write s b = s := by
        unfold write
        rw [if_pos hbuf, if_neg hst]
      rw [this]; exact h
  · unfold write
    rw [if_neg hbuf]
    split
    · exact h
    · exact h

theorem debugWrite_ringOK (s : Spy) (n b : Nat) (hn1 : 1 ≤ n) (hn : n < 65536)
    (h : RingOK s n) : RingOK (debugWrite s b) n := by
  by_cases hbuf : s.telnetBuf.isSome = true
  · by_cases hst : (s.storeOffline || s.client.connected) = true
    · by_cases hfull : s.bufUsed = n
      · obtain ⟨d, hpos, hd, heq, _⟩ := debugWrite_full s n b hbuf hst hn1 hn h hfull
        rw [heq]
        exact push_evict_ringOK s n d b hn1 h (by have := h.2.1; omega)
      · have hU : s.bufUsed < n := by have := h.2.1; omega
        rw [debugWrite_room s n b hbuf hst h.1 hn hU h.2.2.2.1, ← evict_zero s n h.2.2.2.2]
        exact push_evict_ringOK s n 0 b hn1 h (by omega)
    · have : debugWrite s b = s := by
        unfold debugWrite
        rw [if_pos hbuf, if_neg hst]
      rw [this]; exact h
  · have : debugWrite s b = s := by
      unfold debugWrite
      rw [if_neg hbuf]
    rw [this]; exact h

theorem run_ringOK (n : Nat) (hn1 : 1 ≤ n) (hn : n < 65536) :
    ∀ (ops : List Op) (s : Spy), RingOK s n → RingOK (run s ops) n := by
  intro ops
  induction ops with
  | nil => intro s h; exact h
  | cons op ops ih =>
    intro s h
    show RingOK (run (step s op) ops) n
    apply ih
    cases op with
    | write b => exact write_ringOK s n b hn1 hn h
    | debugWrite b => exact debugWrite_ringOK s n b hn1 hn h
    | sendBlock => exact sendBlock_ringOK s n hn h

/-- C2. Capacity bound under pushes: in a ring of capacity `n ≥ 1` whose used
count is at most `n` and whose cursors are below `n`, `write(b)` and
`debugWrite(b)` leave the capacity as it is, the used count at most `n` and the
cursors below `n`; hence after any sequence of calls of `write`, `debugWrite`
and `sendBlock` from such a state, the empty ring among them, the used count
is at most `n`. -/
theorem capacity_bound_under_pushes (n : Nat) (hn1 : 1 ≤ n) (hn : n < 65536) :
    (∀ (s : Spy) (b : Nat), RingOK s n →
      RingOK (write s b) n ∧ RingOK (debugWrite s b) n) ∧
    (∀ (s : Spy) (ops : List Op), RingOK s n →
      RingOK (run s ops) n ∧ (run s ops).bufUsed ≤ n) :=
  ⟨fun s b h => ⟨write_ringOK s n b hn1 hn h, debugWrite_ringOK s n b hn1 hn h⟩,
   fun s ops h => ⟨run_ringOK n hn1 hn ops s h, (run_ringOK n hn1 hn ops s h).2.1⟩⟩

/-- The capacity bound at the empty ring of capacity 2: one push of either kind, and three pushes in a row. -/
theorem capacity_bound_under_pushes_witness :
    RingOK (emptyRing 2 1) 2 ∧
    (RingOK (write (emptyRing 2 1) 7) 2 ∧ RingOK (debugWrite (emptyRing 2 1) 7) 2) ∧
    (run (emptyRing 2 1) [Op.write 1, Op.debugWrite 2, Op.write 3]).bufUsed ≤ 2 :=
  ⟨by decide,
   (capacity_bound_under_pushes 2 (by decide) (by decide)).1 (emptyRing 2 1) 7
     (by decide),
   ((capacity_bound_under_pushes 2 (by decide) (by decide)).2 (emptyRing 2 1)
     [Op.write 1, Op.debugWrite 2, Op.write 3] (by decide)).2⟩

/-! ## Whole-line eviction -/

theorem content_push (u : Spy) (m : List Nat) (n b : Nat)
    (hbuf : u.telnetBuf = some m) (hm : m.length = n) (hlen : u.bufLen = n)
    (hU : u.bufUsed < n)
    (hW : u.bufWrIdx = (u.bufRdIdxStart + u.bufUsed) % n) :
    content (push u n b) = content u ++ [b] := by
  unfold content push
  simp only [hbuf, hlen, hW]
  exact ringRead_poke m n _ _ b hm hU

theorem dropLine_other (x : Nat) (t : List Nat) (h : x ≠ 10) :
    dropLine (x :: t) = dropLine t := by
  rw [dropLine_eq, dropLine_eq, dropToLF_other x t h]

theorem dropLine_boundary (xs : List Nat) (h : 10 ∈ xs) :
    ∃ a, 10 ∉ a ∧ (xs = a ++ [10] ++ dropLine xs ∨
      xs = a ++ [10, 13] ++ dropLine xs) := by
  induction xs with
  | nil => simp at h
  | cons x t ih =>
    by_cases hx : x = 10
    · subst hx
      refine ⟨[], by simp, ?_⟩
      rw [dropLine_eq, dropToLF_lf]
      cases t with
      | nil => left; rfl
      | cons y r =>
        by_cases hy : y = 13
        · subst hy; right; rfl
        · left
          simp only [List.nil_append, List.singleton_append, List.cons.injEq, true_and]
          split
          · next r' heq => exact absurd (List.cons.inj heq).1 hy
          · rfl
    · have ht : 10 ∈ t := by
        rcases List.mem_cons.mp h with h1 | h1
        · exact absurd h1.symm hx
        · exact h1
      obtain ⟨a, ha, hor⟩ := ih ht
      refine ⟨x :: a, ?_, ?_⟩
      · intro hmem
        rcases List.mem_cons.mp hmem with h1 | h1
        · exact hx h1.symm
        · exact ha h1
      · rw [dropLine_other x t hx]
        rcases hor with h1 | h1
        · left; rw [List.cons_append, List.cons_append, ← h1]
        · right; rw [List.cons_append, List.cons_append, ← h1]

/-- C3 (amended). Whole-line eviction on overflow: when output is being
stored (`storeOffline` set or a client connected), `write(b)` on a full
well-formed ring (the write cursor has come round to the oldest byte) whose
logical content is `xs` leaves the logical content `dropLine xs ++ [b]`;
and when `xs` contains a line feed, what was evicted ends with that line feed,
or with it and the carriage return after it, so the new oldest byte starts a
line. -/
theorem write_full_evicts_line (s : Spy) (m : List Nat) (n b : Nat)
    (hn1 : 1 ≤ n) (hn : n < 65536) (hbuf : s.telnetBuf = some m)
    (hm : m.length = n) (hok : RingOK s n) (hfull : s.bufUsed = n)
    (hW : s.bufWrIdx = s.bufRdIdxStart)
    (hst : (s.storeOffline || s.client.connected) = true) :
    content (write s b) = dropLine (content s) ++ [b] ∧
    (10 ∈ content s → ∃ a, 10 ∉ a ∧
      (content s = a ++ [10] ++ dropLine (content s) ∨
       content s = a ++ [10, 13] ++ dropLine (content s))) := by
  refine ⟨?_, dropLine_boundary (content s)⟩
  have hsome : s.telnetBuf.isSome = true := by rw [hbuf]; rfl
  obtain ⟨t, d, ht, hpos, hd, heq, hdrop⟩ := write_full s n b hsome hst hn1 hn hok hfull
  have hcore : ringCore t = ringCore s := by
    rcases ht with rfl | rfl
    · rfl
    · exact sendBlock_core s
  have hct := content_core s t hcore
  simp only [ringCore, Prod.mk.injEq] at hcore
  obtain ⟨c1, c2, c3, c4, c5, _⟩ := hcore
  have hS : t.bufRdIdxStart < n := by rw [c5]; exact hok.2.2.2.2
  have hlen : t.bufLen = n := c2.trans hok.1
  have hUt : t.bufUsed = n := c3.trans hfull
  rw [heq, content_push (evict t n d) m n b (c1.trans hbuf) hm hlen
    (by show t.bufUsed - d < n; omega) ?_,
    content_evict t n d hlen (by omega), hdrop, hct]
  show t.bufWrIdx = ((t.bufRdIdxStart + d) % n + (t.bufUsed - d)) % n
  rw [c4, hW, ← c5, Nat.add_mod, Nat.mod_mod, ← Nat.add_mod, hUt]
  have : t.bufRdIdxStart + d + (n - d) = t.bufRdIdxStart + n := by omega
  rw [this, Nat.add_mod_right, Nat.mod_eq_of_lt hS]

/-- The eviction at the full ring `A LF CR B`: `write(C)` leaves `B C`. -/
theorem write_full_evicts_line_witness :
    content (write fullRing 67) = dropLine (content fullRing) ++ [67] ∧
    content (write fullRing 67) = [66, 67] :=
  ⟨(write_full_evicts_line fullRing [65, 10, 13, 66] 4 67 (by decide) (by decide)
      rfl rfl (by decide) rfl rfl rfl).1,
   by decide⟩

/-- C3, as stated, fails when nothing is being stored: with `storeOffline`
cleared and no client connected, `write(7)` on the full ring `[1, 10]` leaves
the content `[1, 10]`, not `dropLine [1, 10] ++ [7] = [7]`. -/
theorem write_full_gate_counterexample :
    gatedRing.bufUsed = gatedRing.bufLen ∧
    content (write gatedRing 7) = [1, 10] ∧
    dropLine (content gatedRing) ++ [7] = [7] ∧
    content (write gatedRing 7) ≠ dropLine (content gatedRing) ++ [7] := by
  decide

/-! ## Round trip of output -/

theorem content_length (s : Spy) : (content s).length = s.bufUsed := by
  unfold content; exact ringRead_length _ _ _ _

theorem sendBlock_mirror (s : Spy) (n j : Nat) (base w : List Nat) (mb : Nat)
    (h : Mirror s n j base w mb) :
    ∃ j', j ≤ j' ∧ Mirror (sendBlock s) n j' base w mb ∧
      (1 ≤ mb → j < s.bufUsed → j < j') := by
  obtain ⟨hs, hc, hW, ⟨m, hbuf, hm⟩, hmb⟩ := h
  obtain ⟨j', hj, hs', hprog⟩ := sendBlock_sending s n j base hs
  have hcore := sendBlock_core s
  have hct := content_core s (sendBlock s) hcore
  simp only [ringCore, Prod.mk.injEq] at hcore
  obtain ⟨c1, c2, c3, c4, c5, c6, _⟩ := hcore
  refine ⟨j', hj, ⟨hs', hct.trans hc, by rw [c4, c5, c3]; exact hW,
    ⟨m, c1.trans hbuf, hm⟩, c6.trans hmb⟩, ?_⟩
  intro h1 h2
  exact hprog (by rw [hmb]; exact h1) h2

theorem push_mirror (s : Spy) (n j : Nat) (base w : List Nat) (mb b : Nat)
    (hn1 : 1 ≤ n) (h : Mirror s n j base w mb) (hroom : s.bufUsed < n) :
    Mirror (push s n b) n j base (w ++ [b]) mb := by
  obtain ⟨hs, hc, hW, ⟨m, hbuf, hm⟩, hmb⟩ := h
  obtain ⟨hlen, hn, hS, hU, hj, hleft, hR, hconn, htx⟩ := hs
  have hcp := content_push s m n b hbuf hm hlen hroom hW
  refine ⟨⟨hlen, hn, hS, ?_, ?_, ?_, hR, hconn, ?_⟩, ?_, ?_, ?_, hmb⟩
  · show s.bufUsed + 1 ≤ n
    omega
  · show j ≤ s.bufUsed + 1
    omega
  · show u16 ((s.bufLeftToSend : Int) + 1) = s.bufUsed + 1 - j
    rw [hleft, u16_succ _ (by omega)]
    omega
  · show blockBytes s.client.tx = base ++ (content (push s n b)).take j
    rw [hcp, List.take_append_of_le_length (by rw [content_length]; exact hj)]
    exact htx
  · rw [hcp, hc]
  · show (s.bufWrIdx + 1) % n = (s.bufRdIdxStart + (s.bufUsed + 1)) % n
    rw [hW, Nat.add_mod ((s.bufRdIdxStart + s.bufUsed) % n), Nat.mod_mod, ← Nat.add_mod]
    congr 1
  · refine ⟨m.set s.bufWrIdx b, ?_, by rw [List.length_set]; exact hm⟩
    show pokeByte s.telnetBuf s.bufWrIdx b = _
    rw [hbuf]; rfl

theorem step_mirror (s : Spy) (n j : Nat) (base w : List Nat) (mb : Nat)
    (op : Op) (hn1 : 1 ≤ n) (h : Mirror s n j base w mb)
    (hroom : w.length + (pushed [op]).length ≤ n) :
    ∃ j', j ≤ j' ∧ Mirror (step s op) n j' base (w ++ pushed [op]) mb := by
  have hwl : w.length = s.bufUsed := by rw [← h.2.1, content_length]
  have hsome : s.telnetBuf.isSome = true := by
    obtain ⟨m, hbuf, _⟩ := h.2.2.2.1
    rw [hbuf]; rfl
  have hst : (s.storeOffline || s.client.connected) = true := by
    rw [h.1.2.2.2.2.2.2.2.1]; simp
  have hWlt : s.bufWrIdx < n := by rw [h.2.2.1]; exact Nat.mod_lt _ (by omega)
  cases op with
  | write b =>
    have hU : s.bufUsed < n := by simp [pushed] at hroom; omega
    refine ⟨j, Nat.le_refl _, ?_⟩
    show Mirror (write s b) n j base (w ++ [b]) mb
    rw [write_room s n b hsome hst h.1.1 h.1.2.1 hU hWlt]
    exact push_mirror s n j base w mb b hn1 h hU
  | debugWrite b =>
    have hU : s.bufUsed < n := by simp [pushed] at hroom; omega
    refine ⟨j, Nat.le_refl _, ?_⟩
    show Mirror (debugWrite s b) n j base (w ++ [b]) mb
    rw [debugWrite_room s n b hsome hst h.1.1 h.1.2.1 hU hWlt]
    exact push_mirror s n j base w mb b hn1 h hU
  | sendBlock =>
    obtain ⟨j', hj, hm, _⟩ := sendBlock_mirror s n j base w mb h
    refine ⟨j', hj, ?_⟩
    show Mirror (sendBlock s) n j' base (w ++ []) mb
    rw [List.append_nil]
    exact hm

theorem pushed_cons (op : Op) (ops : List Op) :
    pushed (op :: ops) = pushed [op] ++ pushed ops := by
  cases op <;> rfl

theorem run_mirror (n : Nat) (base : List Nat) (mb : Nat) (hn1 : 1 ≤ n) :
    ∀ (ops : List Op) (s : Spy) (j : Nat) (w : List Nat),
      Mirror s n j base w mb → w.length + (pushed ops).length ≤ n →
      ∃ j', Mirror (run s ops) n j' base (w ++ pushed ops) mb := by
  intro ops
  induction ops with
  | nil =>
    intro s j w h _
    exact ⟨j, by simpa [run, pushed] using h⟩
  | cons op ops ih =>
    intro s j w h hroom
    rw [pushed_cons, List.length_append] at hroom
    obtain ⟨j1, _, h1⟩ := step_mirror s n j base w mb op hn1 h (by omega)
    obtain ⟨j2, h2⟩ := ih (step s op) j1 (w ++ pushed [op]) h1
      (by rw [List.length_append]; omega)
    refine ⟨j2, ?_⟩
    rw [pushed_cons, ← List.append_assoc]
    exact h2

theorem drain_mirror (n : Nat) (base w : List Nat) (mb : Nat) :
    ∀ (k : Nat) (s : Spy) (j : Nat), Mirror s n j base w mb →
      ∃ j', j ≤ j' ∧ Mirror (drain k s) n j' base w mb ∧
        (1 ≤ mb → s.bufUsed - j ≤ k → j' = s.bufUsed) := by
  intro k
  induction k with
  | zero =>
    intro s j h
    refine ⟨j, Nat.le_refl _, h, ?_⟩
    intro _ hk
    have := h.1.2.2.2.2.1
    omega
  | succ k ih =>
    intro s j h
    obtain ⟨j1, hj1, h1, hprog⟩ := sendBlock_mirror s n j base w mb h
    obtain ⟨j2, hj2, h2, hfin⟩ := ih (sendBlock s) j1 h1
    have hu : (sendBlock s).bufUsed = s.bufUsed := by
      have hcore := sendBlock_core s
      simp only [ringCore, Prod.mk.injEq] at hcore
      exact hcore.2.2.1
    refine ⟨j2, by omega, h2, ?_⟩
    intro hmb hk
    rw [← hu]
    apply hfin hmb
    rw [hu]
    have hjU := h.1.2.2.2.2.1
    by_cases hlt : j < s.bufUsed
    · have := hprog hmb hlt
      omega
    · omega

theorem mirror_done (s : Spy) (n j : Nat) (base w : List Nat) (mb : Nat)
    (h : Mirror s n j base w mb) :
    (s.bufLeftToSend = 0 → blockBytes s.client.tx = base ++ w) ∧
    (j = s.bufUsed → s.bufLeftToSend = 0) ∧
    blockBytes s.client.tx = base ++ w.take j := by
  obtain ⟨hs, hc, _⟩ := h
  obtain ⟨hlen, hn, hS, hU, hj, hleft, hR, hconn, htx⟩ := hs
  rw [hc] at htx
  refine ⟨?_, ?_, htx⟩
  · intro h0
    have hjU : j = s.bufUsed := by omega
    rw [htx, List.take_of_length_le (by rw [← hc, content_length]; omega)]
  · intro hjU
    rw [hleft, hjU]; omega

/-- C1. Round trip of output: from an empty enabled ring of capacity `n` with
a connected client, after any interleaving `ops` of pushes and `sendBlock()`
calls that pushes at most `n` bytes, followed by `k` further `sendBlock()`
calls, the block bytes written to the socket are a leading part of the bytes
pushed, in order; they are all of them as soon as `bufLeftToSend` is 0; and
when `maxBlockSize ≥ 1` that is reached after at most as many calls as bytes
were pushed. -/
theorem output_round_trip (s : Spy) (m : List Nat) (n : Nat) (ops : List Op)
    (hn1 : 1 ≤ n) (hn : n < 65536) (hbuf : s.telnetBuf = some m)
    (hm : m.length = n) (hlen : s.bufLen = n) (hU : s.bufUsed = 0)
    (hR : s.bufRdIdx = 0) (hW : s.bufWrIdx = 0) (hS : s.bufRdIdxStart = 0)
    (hL : s.bufLeftToSend = 0) (hc : s.client.connected = true)
    (hxs : (pushed ops).length ≤ n) :
    (∀ k, ∃ j, blockBytes (drain k (run s ops)).client.tx
        = blockBytes s.client.tx ++ (pushed ops).take j) ∧
    (∀ k, (drain k (run s ops)).bufLeftToSend = 0 →
      blockBytes (drain k (run s ops)).client.tx
        = blockBytes s.client.tx ++ pushed ops) ∧
    (1 ≤ s.maxBlockSize → ∀ k, (pushed ops).length ≤ k →
      (drain k (run s ops)).bufLeftToSend = 0) := by
  have h0 : Mirror s n 0 (blockBytes s.client.tx) [] s.maxBlockSize := by
    refine ⟨⟨hlen, hn, by omega, by omega, by omega, by omega, ?_, hc, by simp⟩,
      ?_, ?_, ⟨m, hbuf, hm⟩, rfl⟩
    · rw [hR, hS]; simp
    · simp [content, hU, ringRead_zero]
    · rw [hW, hS, hU]; simp
  obtain ⟨j1, h1⟩ := run_mirror n _ _ hn1 ops s 0 [] h0 (by simpa using hxs)
  rw [List.nil_append] at h1
  have hlenU : (run s ops).bufUsed = (pushed ops).length := by
    rw [← content_length, h1.2.1]
  refine ⟨?_, ?_, ?_⟩
  · intro k
    obtain ⟨j2, _, h2, _⟩ := drain_mirror n _ _ _ k (run s ops) j1 h1
    exact ⟨j2, (mirror_done _ n j2 _ _ _ h2).2.2⟩
  · intro k hk
    obtain ⟨j2, _, h2, _⟩ := drain_mirror n _ _ _ k (run s ops) j1 h1
    exact (mirror_done _ n j2 _ _ _ h2).1 hk
  · intro hmb k hk
    obtain ⟨j2, _, h2, hfin⟩ := drain_mirror n _ _ _ k (run s ops) j1 h1
    have hj2 := hfin hmb (by omega)
    apply (mirror_done _ n j2 _ _ _ h2).2.1
    rw [hj2]
    have hcore : ∀ (k : Nat) (t : Spy), (drain k t).bufUsed = t.bufUsed := by
      intro k
      induction k with
      | zero => intro t; rfl
      | succ k ih =>
        intro t
        show (drain k (sendBlock t)).bufUsed = t.bufUsed
        rw [ih]
        have hcore := sendBlock_core t
        simp only [ringCore, Prod.mk.injEq] at hcore
        exact hcore.2.2.1
    rw [hcore]

/-- The round trip at capacity 4 with blocks of at most 3 bytes: four pushes with a `sendBlock()` in between arrive as `1 2 3 4`. -/
theorem output_round_trip_witness :
    blockBytes (drain 2 (run (emptyRing 4 3)
        [Op.write 1, Op.write 2, Op.sendBlock, Op.write 3, Op.write 4])).client.tx
      = [1, 2, 3, 4] ∧
    (drain 4 (run (emptyRing 4 3)
        [Op.write 1, Op.write 2, Op.sendBlock, Op.write 3, Op.write 4])).bufLeftToSend
      = 0 :=
  ⟨(output_round_trip (emptyRing 4 3) [0, 0, 0, 0] 4
      [Op.write 1, Op.write 2, Op.sendBlock, Op.write 3, Op.write 4]
      (by decide) (by decide) rfl rfl rfl rfl rfl rfl rfl rfl rfl (by decide)).2.1 2
      (by decide),
   (output_round_trip (emptyRing 4 3) [0, 0, 0, 0] 4
      [Op.write 1, Op.write 2, Op.sendBlock, Op.write 3, Op.write 4]
      (by decide) (by decide) rfl rfl rfl rfl rfl rfl rfl rfl rfl (by decide)).2.2
      (by decide) 4 (by decide)⟩

/-! ## Reconnect replay -/

theorem sending_congr (s t : Spy) (n j : Nat) (base : List Nat)
    (hc : ringCore t = ringCore s) (hl : t.bufLeftToSend = s.bufLeftToSend)
    (hr : t.bufRdIdx = s.bufRdIdx) (hcl : t.client = s.client)
    (h : Sending s n j base) : Sending t n j base := by
  have hct := content_core s t hc
  simp only [ringCore, Prod.mk.injEq] at hc
  obtain ⟨c1, c2, c3, c4, c5, c6, _⟩ := hc
  obtain ⟨hlen, hn, hS, hU, hj, hleft, hR, hconn, htx⟩ := h
  exact ⟨c2.trans hlen, hn, by rw [c5]; exact hS, by rw [c3]; exact hU,
    by rw [c3]; exact hj, by rw [hl, c3]; exact hleft, by rw [hr, c5]; exact hR,
    by rw [hcl]; exact hconn, by rw [hcl, hct]; exact htx⟩

theorem sendRing_rx (s : Spy) : (sendRing s).client.rx = s.client.rx := by
  unfold sendRing
  simp only []
  split
  · exact send_rx _ _
  · rfl

theorem sendBlock_rx (s : Spy) : (sendBlock s).client.rx = s.client.rx := by
  obtain ⟨a, b, cl, h, _, h2, _⟩ := sendBlock_eq s
  rw [h]
  exact (sendRing_rx _).trans h2

theorem sendBlock_replaying (s0 s : Spy) (n : Nat) (base : List Nat)
    (h : Replaying s0 s n base) : Replaying s0 (sendBlock s) n base := by
  obtain ⟨j, hs, hc, hrx⟩ := h
  obtain ⟨j', _, hs', _⟩ := sendBlock_sending s n j base hs
  exact ⟨j', hs', (sendBlock_core s).trans hc, (sendBlock_rx s).trans hrx⟩

theorem replaying_congr (s0 s t : Spy) (n : Nat) (base : List Nat)
    (hc : ringCore t = ringCore s) (hl : t.bufLeftToSend = s.bufLeftToSend)
    (hr : t.bufRdIdx = s.bufRdIdx) (hcl : t.client = s.client)
    (h : Replaying s0 s n base) : Replaying s0 t n base := by
  obtain ⟨j, hs, hcs, hrx⟩ := h
  exact ⟨j, sending_congr s t n j base hc hl hr hcl hs, hc.trans hcs,
    by rw [hcl]; exact hrx⟩

theorem handleLifecycle_replaying (s0 s : Spy) (n : Nat) (base : List Nat)
    (h : Replaying s0 s n base) : Replaying s0 (handleLifecycle s) n base := by
  have hconn : s.client.connected = true := by
    obtain ⟨j, hs, _⟩ := h
    exact hs.2.2.2.2.2.2.2.1
  unfold handleLifecycle
  simp only [hconn, if_true]
  split
  · split
    · split
      · exact replaying_congr s0 s _ n base rfl rfl rfl rfl h
      · exact replaying_congr s0 s _ n base rfl rfl rfl rfl h
    · split
      · exact replaying_congr s0 s _ n base rfl rfl rfl rfl h
      · exact replaying_congr s0 s _ n base rfl rfl rfl rfl h
  · exact h

theorem handleFlush_replaying (s0 s : Spy) (n : Nat) (base : List Nat)
    (h : Replaying s0 s n base) : Replaying s0 (handleFlush s) n base := by
  unfold handleFlush
  split
  · split
    · exact sendBlock_replaying s0 s n base h
    · simp only []
      split
      · apply replaying_congr s0 (sendBlock { s with waitHoldoff := isHoldoff s.millis s.waitHoldoff }) _ n base rfl rfl rfl rfl
        apply sendBlock_replaying
        exact replaying_congr s0 s _ n base rfl rfl rfl rfl h
      · exact replaying_congr s0 s _ n base rfl rfl rfl rfl h
  · exact h

theorem handlePing_replaying (s0 s : Spy) (n : Nat) (base : List Nat)
    (h : Replaying s0 s n base) : Replaying s0 (handlePing s) n base := by
  unfold handlePing
  split
  · simp only []
    split
    · apply sendBlock_replaying
      split
      · exact replaying_congr s0 s _ n base rfl rfl rfl rfl h
      · exact replaying_congr s0 s _ n base rfl rfl rfl rfl h
    · exact replaying_congr s0 s _ n base rfl rfl rfl rfl h
  · exact h

theorem checkReceive_idle (s : Spy) (h : s.client.rx = []) : checkReceive s = s := by
  unfold checkReceive
  rw [h]
  rfl

theorem drain_replaying (s0 : Spy) (n : Nat) (base : List Nat) :
    ∀ (k : Nat) (s : Spy), Replaying s0 s n base →
      Replaying s0 (drain k s) n base := by
  intro k
  induction k with
  | zero => intro s h; exact h
  | succ k ih => intro s h; exact ih _ (sendBlock_replaying s0 s n base h)

theorem drain_sending (n : Nat) (base : List Nat) :
    ∀ (k : Nat) (s : Spy) (j : Nat), Sending s n j base →
      ∃ j', j ≤ j' ∧ Sending (drain k s) n j' base ∧
        (1 ≤ s.maxBlockSize → s.bufUsed - j ≤ k → j' = s.bufUsed) := by
  intro k
  induction k with
  | zero =>
    intro s j h
    refine ⟨j, Nat.le_refl _, h, ?_⟩
    intro _ hk
    have := h.2.2.2.2.1
    omega
  | succ k ih =>
    intro s j h
    obtain ⟨j1, hj1, h1, hprog⟩ := sendBlock_sending s n j base h
    obtain ⟨j2, hj2, h2, hfin⟩ := ih (sendBlock s) j1 h1
    have hcore := sendBlock_core s
    simp only [ringCore, Prod.mk.injEq] at hcore
    obtain ⟨_, _, hu, _, _, hmb, _⟩ := hcore
    refine ⟨j2, by omega, h2, ?_⟩
    intro h1m hk
    rw [← hu]
    apply hfin (by rw [hmb]; exact h1m)
    rw [hu]
    have hjU := h.2.2.2.2.1
    by_cases hlt : j < s.bufUsed
    · have := hprog h1m hlt
      omega
    · omega

theorem drain_core : ∀ (k : Nat) (s : Spy), ringCore (drain k s) = ringCore s := by
  intro k
  induction k with
  | zero => intro s; rfl
  | succ k ih => intro s; exact (ih (sendBlock s)).trans (sendBlock_core s)

theorem sending_done (s : Spy) (n j : Nat) (base : List Nat)
    (h : Sending s n j base) :
    (s.bufLeftToSend = 0 → blockBytes s.client.tx = base ++ content s) ∧
    (j = s.bufUsed → s.bufLeftToSend = 0) := by
  obtain ⟨hlen, hn, hS, hU, hj, hleft, hR, hconn, htx⟩ := h
  refine ⟨?_, ?_⟩
  · intro h0
    rw [htx, List.take_of_length_le (by rw [content_length]; omega)]
  · intro hjU
    rw [hleft, hjU]; omega

theorem handleAccept_eq (s : Spy) (p : Client) (hnc : s.client.connected = false) :
    ∃ cl, handleAccept s p = ({ s with client := cl, bufRdIdx := s.bufRdIdxStart,
                                       bufLeftToSend := s.bufUsed }, none) ∧
      cl.connected = p.connected ∧ cl.rx = p.rx ∧
      blockBytes cl.tx = blockBytes p.tx := by
  unfold handleAccept
  simp only [hnc, Bool.false_eq_true, if_false]
  split
  · exact ⟨_, rfl, send_connected _ _, send_rx _ _, send_noblock _ _ rfl⟩
  · exact ⟨_, rfl, rfl, rfl, rfl⟩

theorem handleAccept_sending (s : Spy) (p : Client) (n : Nat) (hn : n < 65536)
    (hlen : s.bufLen = n) (hS : s.bufRdIdxStart < n) (hU : s.bufUsed ≤ n)
    (hnc : s.client.connected = false) (hp : p.connected = true) :
    Sending (handleAccept s p).1 n 0 (blockBytes p.tx) ∧
      ringCore (handleAccept s p).1 = ringCore s ∧
      (handleAccept s p).1.client.rx = p.rx := by
  obtain ⟨cl, he, h1, h2, h3⟩ := handleAccept_eq s p hnc
  rw [he]
  refine ⟨⟨hlen, hn, hS, hU, Nat.zero_le _, rfl, ?_, h1.trans hp, ?_⟩, rfl, h2⟩
  · show s.bufRdIdxStart = (s.bufRdIdxStart + 0) % n
    rw [Nat.add_zero, Nat.mod_eq_of_lt hS]
  · show blockBytes cl.tx = _
    rw [h3]; simp

theorem handle_accept_eq (s : Spy) (p : Client) (ready : Bool)
    (hst : s.started = true) (hl : s.listening = true ∨ ready = true) :
    (handle s ready (some p)).1 =
      (if (handlePing (handleFlush (handleLifecycle
            (handleAccept { s with listening := true } p).1))).client.connected
        then checkReceive (handlePing (handleFlush (handleLifecycle
            (handleAccept { s with listening := true } p).1)))
        else handlePing (handleFlush (handleLifecycle
            (handleAccept { s with listening := true } p).1))) := by
  unfold handle
  have h1 : ¬ ((!s.started) = true) := by rw [hst]; simp
  have h2 : ¬ ((!s.listening) = true ∧ (!ready) = true) := by
    rcases hl with h | h <;> rw [h] <;> simp
  rw [if_neg h1, if_neg h2]

theorem handle_replaying (s : Spy) (p : Client) (n : Nat) (ready : Bool)
    (hn : n < 65536) (hlen : s.bufLen = n) (hS : s.bufRdIdxStart < n)
    (hU : s.bufUsed ≤ n) (hnc : s.client.connected = false)
    (hp : p.connected = true) (hst : s.started = true)
    (hl : s.listening = true ∨ ready = true) (hrx : p.rx = []) :
    Replaying s (handle s ready (some p)).1 n (blockBytes p.tx) := by
  rw [handle_accept_eq s p ready hst hl]
  obtain ⟨h1, h2, h3⟩ :=
    handleAccept_sending { s with listening := true } p n hn hlen hS hU hnc hp
  have hr0 : Replaying s (handleAccept { s with listening := true } p).1 n
      (blockBytes p.tx) := ⟨0, h1, h2, h3.trans hrx⟩
  have hr := handlePing_replaying s _ n _
    (handleFlush_replaying s _ n _ (handleLifecycle_replaying s _ n _ hr0))
  have hidle := checkReceive_idle _ hr.choose_spec.2.2
  rw [hidle]
  simp only [ite_self]
  exact hr

/-- C8. Reconnect replay: when `handle()` accepts a pending client while no
client is connected, the accept step sets `bufRdIdx = bufRdIdxStart` and
`bufLeftToSend = bufUsed` whatever the send cursor was, and keeps the content;
the block bytes that `sendBlock()` then writes to the new client are a leading
part of the content held, all of it once `bufLeftToSend = 0`, which at most
`bufUsed` calls reach when `maxBlockSize ≥ 1`; the same holds for the blocks
written by the whole tick (no inbound bytes waiting) and the `sendBlock()`
calls after it. -/
theorem reconnect_replay (s : Spy) (p : Client) (n : Nat) (ready : Bool)
    (hn : n < 65536) (hlen : s.bufLen = n) (hS : s.bufRdIdxStart < n)
    (hU : s.bufUsed ≤ n) (hnc : s.client.connected = false)
    (hp : p.connected = true) :
    ((handleAccept s p).1.bufRdIdx = s.bufRdIdxStart ∧
      (handleAccept s p).1.bufLeftToSend = s.bufUsed ∧
      (handleAccept s p).1.bufRdIdxStart = s.bufRdIdxStart ∧
      content (handleAccept s p).1 = content s ∧
      (handleAccept s p).2 = none) ∧
    (∀ k, (∃ j, blockBytes (drain k (handleAccept s p).1).client.tx
          = blockBytes p.tx ++ (content s).take j) ∧
      ((drain k (handleAccept s p).1).bufLeftToSend = 0 →
        blockBytes (drain k (handleAccept s p).1).client.tx
          = blockBytes p.tx ++ content s)) ∧
    (1 ≤ s.maxBlockSize → ∀ k, s.bufUsed ≤ k →
      (drain k (handleAccept s p).1).bufLeftToSend = 0) ∧
    (s.started = true → (s.listening = true ∨ ready = true) → p.rx = [] →
      ∀ k, ((drain k (handle s ready (some p)).1).bufLeftToSend = 0 →
          blockBytes (drain k (handle s ready (some p)).1).client.tx
            = blockBytes p.tx ++ content s) ∧
        (1 ≤ s.maxBlockSize → s.bufUsed ≤ k →
          (drain k (handle s ready (some p)).1).bufLeftToSend = 0)) := by
  obtain ⟨h1, h2, _⟩ := handleAccept_sending s p n hn hlen hS hU hnc hp
  obtain ⟨cl, he, _⟩ := handleAccept_eq s p hnc
  have hct := content_core s _ h2
  have hcore0 := h2
  simp only [ringCore, Prod.mk.injEq] at h2
  obtain ⟨_, _, c3, _, c5, c6, _⟩ := h2
  have fin : ∀ (t : Spy), (∃ j, Sending t n j (blockBytes p.tx)) →
      ringCore t = ringCore s → ∀ k,
      (∃ j, blockBytes (drain k t).client.tx
          = blockBytes p.tx ++ (content s).take j) ∧
      ((drain k t).bufLeftToSend = 0 →
        blockBytes (drain k t).client.tx = blockBytes p.tx ++ content s) ∧
      (1 ≤ s.maxBlockSize → s.bufUsed ≤ k → (drain k t).bufLeftToSend = 0) := by
    intro t ⟨j, hs⟩ hc k
    obtain ⟨j', _, hs', hfin⟩ := drain_sending n _ k t j hs
    have hcd := (drain_core k t).trans hc
    have hctd := content_core s _ hcd
    simp only [ringCore, Prod.mk.injEq] at hcd hc
    refine ⟨⟨j', ?_⟩, ?_, ?_⟩
    · rw [← hctd]; exact hs'.2.2.2.2.2.2.2.2
    · intro h0
      rw [← hctd]
      exact (sending_done _ n j' _ hs').1 h0
    · intro hmb hk
      apply (sending_done _ n j' _ hs').2
      rw [hcd.2.2.1, ← hc.2.2.1]
      apply hfin
      · rw [hc.2.2.2.2.2.1]; exact hmb
      · rw [hc.2.2.1]; omega
  refine ⟨⟨?_, ?_, c5, hct, ?_⟩, ?_, ?_, ?_⟩
  · rw [he]
  · rw [he]
  · rw [he]
  · intro k
    have := fin _ ⟨0, h1⟩ hcore0 k
    exact ⟨this.1, this.2.1⟩
  · intro hmb k hk
    exact (fin _ ⟨0, h1⟩ hcore0 k).2.2 hmb hk
  · intro hst hl hrx k
    obtain ⟨j, hs, hc, _⟩ := handle_replaying s p n ready hn hlen hS hU hnc hp hst hl hrx
    have := fin _ ⟨j, hs⟩ hc k
    exact ⟨this.2.1, this.2.2⟩

/-- The replay at `heldRing`: the send cursor is rewound from index 1 to the oldest byte at index 2 and `A B C` is delivered across the wrap. -/
theorem reconnect_replay_witness :
    (handleAccept heldRing freshClient).1.bufRdIdx = 2 ∧
    (handleAccept heldRing freshClient).1.bufLeftToSend = 3 ∧
    blockBytes (drain 2 (handleAccept heldRing freshClient).1).client.tx
      = [65, 66, 67] ∧
    blockBytes (drain 1 (handle heldRing true (some freshClient)).1).client.tx
      = [65, 66, 67] :=
  ⟨(reconnect_replay heldRing freshClient 4 true (by decide) rfl (by decide)
      (by decide) rfl rfl).1.1,
   (reconnect_replay heldRing freshClient 4 true (by decide) rfl (by decide)
      (by decide) rfl rfl).1.2.1,
   ((reconnect_replay heldRing freshClient 4 true (by decide) rfl (by decide)
      (by decide) rfl rfl).2.1 2).2 (by decide),
   ((reconnect_replay heldRing freshClient 4 true (by decide) rfl (by decide)
      (by decide) rfl rfl).2.2.2 rfl (Or.inl rfl) rfl 1).1 (by decide)⟩

/-! ## Resizing the output ring -/

/-- C4, failing input. Shrinking the well-formed ring `shrinkCase` (capacity
8, content `[7, 8]`, `bufRdIdx = 3`, `bufWrIdx = 5`) to 4 succeeds and lays
the two bytes out correctly (`7` at index 3, `8` wrapped to index 0), but
stores `bufUsed = bufWrIdx - bufRdIdx = 1 - 3`, which wraps to 65534, where
`min(2, 4) = 2` is claimed. -/
theorem shrink_used_count_wraps :
    contentRd shrinkCase = [7, 8] ∧
    (setBufferSize shrinkCase 4 (some (fun _ => 0))).1 = true ∧
    (setBufferSize shrinkCase 4 (some (fun _ => 0))).2.telnetBuf = some [8, 0, 0, 7] ∧
    (setBufferSize shrinkCase 4 (some (fun _ => 0))).2.bufRdIdx = 3 ∧
    (setBufferSize shrinkCase 4 (some (fun _ => 0))).2.bufWrIdx = 1 ∧
    (setBufferSize shrinkCase 4 (some (fun _ => 0))).2.bufUsed = 65534 ∧
    (setBufferSize shrinkCase 4 (some (fun _ => 0))).2.bufUsed ≠ min 2 4 := by
  decide

/-- C5, failing inputs. Growing a full ring loses bytes. In the wrapped layout
(`growCaseWrapped`, content `[1, 2]`, `bufRdIdx = bufWrIdx = 1`) the tail is
not moved to the new end, because the guard is `bufRdIdx > bufWrIdx`: the
content read back is `[1, 0]`. With `bufRdIdx = bufWrIdx = 0`
(`growCaseFull`) the content survives the resize, but the write cursor stays
at 0, so that, whatever the new bytes hold, the next `write(3)` overwrites
the oldest byte: the content is `[3, 2, _]`, not `[1, 2, 3]`. -/
theorem grow_full_ring_loses_bytes :
    (contentRd growCaseWrapped = [1, 2] ∧
      (setBufferSize growCaseWrapped 4 (some (fun _ => 0))).1 = true ∧
      (setBufferSize growCaseWrapped 4 (some (fun _ => 0))).2.bufUsed = 2 ∧
      contentRd (setBufferSize growCaseWrapped 4 (some (fun _ => 0))).2 = [1, 0]) ∧
    (content growCaseFull = [1, 2] ∧
      ∀ fresh : Nat → Nat,
        content (setBufferSize growCaseFull 4 (some fresh)).2 = [1, 2] ∧
        content (write (setBufferSize growCaseFull 4 (some fresh)).2 3)
          = [3, 2, fresh 2]) :=
  ⟨by decide, by decide, fun _ => ⟨rfl, rfl⟩⟩

/-- Whenever `setBufferSize` reaches the `realloc` call and that call fails,
it returns false with `bufLen` already set to the requested capacity (clamped
to `minBlockSize`) and `bufLeftToSend` reset to `bufUsed`. -/
theorem setBufferSize_failure (s : Spy) (newSize : Nat)
    (h1 : ¬ (s.telnetBuf.isSome = true ∧ s.bufLen = newSize)) (h0 : newSize ≠ 0) :
    (setBufferSize s newSize none).1 = false ∧
    (setBufferSize s newSize none).2.bufLen = max newSize s.minBlockSize ∧
    (setBufferSize s newSize none).2.bufLeftToSend
      = (setBufferSize s newSize none).2.bufUsed := by
  unfold setBufferSize
  rw [if_neg h1, if_neg h0]
  refine ⟨rfl, ?_, rfl⟩
  simp only []
  split
  · rfl
  · split
    · unfold shrinkMove
      simp only []
      split
      · split <;> rfl
      · split <;> rfl
    · rfl

/-- C6, failing input. When `realloc` fails while growing `growCaseWrapped`
from 2 to 4 bytes, `setBufferSize` returns false but has already stored the
new capacity: `bufLen` is 4 while the storage still has 2 bytes. When it
fails while shrinking `shrinkCase`, the bytes have been moved and the cursors
and the used count rewritten as well. -/
theorem resize_failure_changes_state :
    ((setBufferSize growCaseWrapped 4 none).1 = false ∧
      growCaseWrapped.bufLen = 2 ∧
      (setBufferSize growCaseWrapped 4 none).2.bufLen = 4 ∧
      (setBufferSize growCaseWrapped 4 none).2.telnetBuf = some [2, 1] ∧
      (setBufferSize growCaseWrapped 4 none).2 ≠ growCaseWrapped) ∧
    ((setBufferSize shrinkCase 4 none).1 = false ∧
      (setBufferSize shrinkCase 4 none).2.bufLen = 4 ∧
      (setBufferSize shrinkCase 4 none).2.telnetBuf = some [8, 0, 0, 7, 8, 0, 0, 0] ∧
      (setBufferSize shrinkCase 4 none).2.bufWrIdx = 1 ∧
      (setBufferSize shrinkCase 4 none).2.bufUsed = 65534) := by
  decide

/-- C7, failing input. Shrinking `shrinkCase` (capacity 8, content `[7, 8]`)
to 4 and growing it back to 8 leaves `bufUsed = 65534`, not 2: the used count
written by the shrink is kept by the grow. -/
theorem shrink_then_grow_used_count :
    contentRd shrinkCase = [7, 8] ∧
    (setBufferSize (setBufferSize shrinkCase 4 (some (fun _ => 0))).2 8
        (some (fun _ => 0))).1 = true ∧
    (setBufferSize (setBufferSize shrinkCase 4 (some (fun _ => 0))).2 8
        (some (fun _ => 0))).2.bufLen = 8 ∧
    (setBufferSize (setBufferSize shrinkCase 4 (some (fun _ => 0))).2 8
        (some (fun _ => 0))).2.bufUsed = 65534 := by
  decide

/-! ## The inbound interpreter -/

theorem recOK_buf (s : Spy) (cap : Nat) (h : RecOK s cap) :
    ∃ m, s.recBuf = some m ∧ m.length = cap := by
  have h1 := h.1
  cases hb : s.recBuf with
  | none => rw [hb] at h1; simp at h1
  | some m =>
    rw [hb] at h1
    exact ⟨m, rfl, by simpa using h1⟩

theorem writeRecBuf_eq (s : Spy) (cap c : Nat) (h : RecOK s cap)
    (hroom : s.recUsed < cap) : writeRecBuf s c = recPush s cap c := by
  obtain ⟨_, hlen, hcap, hR, hU, hW⟩ := h
  have hWlt : s.recWrIdx < cap := by rw [hW]; exact Nat.mod_lt _ (by omega)
  unfold writeRecBuf recPush
  have hne : ¬ s.recLen = s.recUsed := by omega
  rw [if_neg hne]
  have h1 : u16 ((s.recUsed : Int) + 1) = s.recUsed + 1 := u16_succ _ (by omega)
  have h2 : (if u16 ((s.recWrIdx : Int) + 1) ≥ s.recLen then 0
      else u16 ((s.recWrIdx : Int) + 1)) = (s.recWrIdx + 1) % cap := by
    rw [u16_succ _ (by omega), hlen]
    have := mod_wrap s.recWrIdx 1 cap hWlt (by omega)
    rw [this]
    split <;> split <;> omega
  simp only [h1, h2]

theorem recPush_ok (s : Spy) (cap c : Nat) (h : RecOK s cap)
    (hroom : s.recUsed < cap) :
    RecOK (recPush s cap c) cap ∧
      recContent (recPush s cap c) = recContent s ++ [c] := by
  obtain ⟨m, hbuf, hm⟩ := recOK_buf s cap h
  obtain ⟨_, hlen, hcap, hR, hU, hW⟩ := h
  refine ⟨⟨?_, hlen, hcap, hR, ?_, ?_⟩, ?_⟩
  · show (pokeByte s.recBuf s.recWrIdx c).map List.length = some cap
    rw [hbuf]
    simp [pokeByte, hm]
  · show s.recUsed + 1 ≤ cap
    omega
  · show (s.recWrIdx + 1) % cap = (s.recRdIdx + (s.recUsed + 1)) % cap
    rw [hW, Nat.add_mod ((s.recRdIdx + s.recUsed) % cap), Nat.mod_mod, ← Nat.add_mod]
    congr 1
  · unfold recContent recPush
    simp only [hbuf, hlen, hW]
    exact ringRead_poke m cap _ _ c hm hroom

theorem clientRead_eq (s : Spy) :
    clientRead s = (s.client.rx.headD 255, skipRx s 1) := by
  unfold clientRead skipRx
  simp

theorem skipRx_skipRx (s : Spy) (a b : Nat) :
    skipRx (skipRx s a) b = skipRx s (a + b) := by
  unfold skipRx
  simp [List.drop_drop, Nat.add_comm]

/-- One turn of the loop of `checkReceive` on a plain data byte. -/
theorem rxLoop_plain (fuel : Nat) (n : Int) (s : Spy) (x : Nat) (rest : List Nat)
    (hrx : s.client.rx = x :: rest) (hn : 0 < n)
    (hf : ¬ (s.filterChar ≠ 0 ∧ s.filterChar = x)) (hx : x ≠ 255)
    (hbuf : s.recBuf.isSome = true) :
    rxLoop (fuel + 1) n s = rxLoop fuel (n - 1) (writeRecBuf (skipRx s 1) x) := by
  rw [rxLoop]
  have hh : s.client.rx.headD 255 = x := by rw [hrx]; rfl
  simp only [hn, if_true, hh, if_neg hf, if_neg hx, hbuf, clientRead_eq]

/-- One turn of the loop of `checkReceive` on IAC followed by a command
byte. -/
theorem rxLoop_iac (fuel : Nat) (n : Int) (s : Spy) (c : Nat) (rest : List Nat)
    (hrx : s.client.rx = 255 :: c :: rest) (hn : 1 < n)
    (hf : ¬ (s.filterChar ≠ 0 ∧ s.filterChar = 255)) :
    rxLoop (fuel + 1) n s =
      match nvtCommand fuel c (n - 2) (skipRx s 2) with
      | none => { skipRx s 2 with events := (skipRx s 2).events ++ [Ev.restart] }
      | some (n2, s2) => rxLoop fuel n2 s2 := by
  rw [rxLoop]
  have hh : s.client.rx.headD 255 = 255 := by rw [hrx]; rfl
  have hn0 : 0 < n := by omega
  have hn1 : ¬ n = 1 := by omega
  have h2 : (skipRx s 1).client.rx.headD 255 = c := by
    show (s.client.rx.drop 1).headD 255 = c
    rw [hrx]; rfl
  simp only [hn0, if_true, hh, if_neg hf, if_neg hn1, clientRead_eq, h2,
    skipRx_skipRx]

theorem rxLoop_done (fuel : Nat) (n : Int) (s : Spy) (hn : n ≤ 0) :
    rxLoop fuel n s = s := by
  cases fuel with
  | zero => rfl
  | succ f =>
    rw [rxLoop]
    have : ¬ (n > 0) := by omega
    simp only [this, if_false]

theorem nvtCommand_iac (fuel : Nat) (n : Int) (s : Spy) (h : s.recBuf.isSome = true) :
    nvtCommand fuel 255 n s = some (n, writeRecBuf s 255) := by
  unfold nvtCommand
  simp [h]

theorem escape_cons_iac (xs : List Nat) :
    escape (255 :: xs) = 255 :: 255 :: escape xs := by
  simp [escape]

theorem escape_cons_plain (x : Nat) (xs : List Nat) (h : x ≠ 255) :
    escape (x :: xs) = x :: escape xs := by
  simp [escape, h]

theorem rxLoop_escape (cap : Nat) :
    ∀ (xs : List Nat) (fuel : Nat) (s : Spy), RecOK s cap →
      s.recUsed + xs.length ≤ cap →
      (s.filterChar = 0 ∨ s.filterChar ∉ xs) →
      s.client.rx = escape xs → (escape xs).length ≤ fuel →
      (rxLoop fuel ((escape xs).length : Int) s).client.rx = [] ∧
      (rxLoop fuel ((escape xs).length : Int) s).events = s.events ∧
      (rxLoop fuel ((escape xs).length : Int) s).client.tx = s.client.tx ∧
      recContent (rxLoop fuel ((escape xs).length : Int) s) = recContent s ++ xs ∧
      RecOK (rxLoop fuel ((escape xs).length : Int) s) cap := by
  intro xs
  induction xs with
  | nil =>
    intro fuel s hok _ _ hrx _
    rw [rxLoop_done fuel _ s (by simp [escape])]
    exact ⟨by rw [hrx]; rfl, rfl, rfl, by simp, hok⟩
  | cons x xs ih =>
    intro fuel s hok hfree hf hrx hfuel
    have hroom : s.recUsed < cap := by simp at hfree; omega
    have hsome : s.recBuf.isSome = true := by
      obtain ⟨m, hbuf, _⟩ := recOK_buf s cap hok
      rw [hbuf]; rfl
    have hf' : s.filterChar = 0 ∨ s.filterChar ∉ xs := by
      rcases hf with h | h
      · exact Or.inl h
      · exact Or.inr (fun hm => h (List.mem_cons_of_mem _ hm))
    have hfx : ¬ (s.filterChar ≠ 0 ∧ s.filterChar = x) := by
      intro ⟨h1, h2⟩
      rcases hf with h | h
      · exact h1 h
      · exact h (by rw [h2]; exact List.mem_cons_self _ _)
    by_cases hx : x = 255
    · subst hx
      rw [escape_cons_iac] at hrx hfuel ⊢
      obtain ⟨f, rfl⟩ : ∃ f, fuel = f + 1 := ⟨fuel - 1, by simp at hfuel; omega⟩
      have hlen : (((255 :: 255 :: escape xs).length : Nat) : Int) - 2
          = ((escape xs).length : Int) := by
        simp only [List.length_cons]; push_cast; omega
      rw [rxLoop_iac f _ s 255 (escape xs) hrx
        (by simp only [List.length_cons]; push_cast; omega) hfx,
        nvtCommand_iac f _ (skipRx s 2) hsome, hlen,
        writeRecBuf_eq (skipRx s 2) cap 255 hok hroom]
      have hp := recPush_ok (skipRx s 2) cap 255 hok hroom
      obtain ⟨h1, h2, h3, h4, h5⟩ := ih f (recPush (skipRx s 2) cap 255) hp.1
        (by show s.recUsed + 1 + xs.length ≤ cap; simp at hfree; omega) hf'
        (by show s.client.rx.drop 2 = escape xs; rw [hrx]; rfl)
        (by simp at hfuel; omega)
      refine ⟨h1, h2, h3, ?_, h5⟩
      rw [h4, hp.2]
      show recContent s ++ [255] ++ xs = recContent s ++ 255 :: xs
      simp
    · rw [escape_cons_plain x xs hx] at hrx hfuel ⊢
      obtain ⟨f, rfl⟩ : ∃ f, fuel = f + 1 := ⟨fuel - 1, by simp at hfuel; omega⟩
      have hlen : (((x :: escape xs).length : Nat) : Int) - 1
          = ((escape xs).length : Int) := by
        simp only [List.length_cons]; push_cast; omega
      rw [rxLoop_plain f _ s x (escape xs) hrx
        (by simp only [List.length_cons]; push_cast; omega) hfx hx hsome, hlen,
        writeRecBuf_eq (skipRx s 1) cap x hok hroom]
      have hp := recPush_ok (skipRx s 1) cap x hok hroom
      obtain ⟨h1, h2, h3, h4, h5⟩ := ih f (recPush (skipRx s 1) cap x) hp.1
        (by show s.recUsed + 1 + xs.length ≤ cap; simp at hfree; omega) hf'
        (by show s.client.rx.drop 1 = escape xs; rw [hrx]; rfl)
        (by simp at hfuel; omega)
      refine ⟨h1, h2, h3, ?_, h5⟩
      rw [h4, hp.2]
      show recContent s ++ [x] ++ xs = recContent s ++ x :: xs
      simp

/-- C9. Escaped IAC decodes to one literal byte: when the input ring has
room for `xs`, `xs` does not contain the active filter byte and the client
has made available exactly `escape xs` (every `0xFF` doubled),
`checkReceive()` consumes all of it, invokes no callback, writes nothing to
the socket and appends exactly `xs` to the input ring. -/
theorem escaped_iac_decodes (s : Spy) (cap : Nat) (xs : List Nat)
    (hok : RecOK s cap) (hfree : s.recUsed + xs.length ≤ cap)
    (hf : s.filterChar = 0 ∨ s.filterChar ∉ xs)
    (hrx : s.client.rx = escape xs) :
    (checkReceive s).client.rx = [] ∧
    (checkReceive s).events = s.events ∧
    (checkReceive s).client.tx = s.client.tx ∧
    recContent (checkReceive s) = recContent s ++ xs := by
  have h := rxLoop_escape cap xs (escape xs).length s hok hfree hf hrx (Nat.le_refl _)
  unfold checkReceive
  rw [hrx]
  exact ⟨h.1, h.2.1, h.2.2.1, h.2.2.2.1⟩

/-- The decoding at `A IAC IAC B`: the input ring receives `A 0xFF B`. -/
theorem escaped_iac_decodes_witness :
    escape [65, 255, 66] = [65, 255, 255, 66] ∧
    (checkReceive escapedCase).client.rx = [] ∧
    (checkReceive escapedCase).events = [] ∧
    recContent (checkReceive escapedCase) = [65, 255, 66] :=
  ⟨by decide,
   (escaped_iac_decodes escapedCase 4 [65, 255, 66]
      (by decide)
      (by decide) (Or.inl rfl) rfl).1,
   (escaped_iac_decodes escapedCase 4 [65, 255, 66]
      (by decide)
      (by decide) (Or.inl rfl) rfl).2.1,
   (escaped_iac_decodes escapedCase 4 [65, 255, 66]
      (by decide)
      (by decide) (Or.inl rfl) rfl).2.2.2⟩

theorem nvtCommand_custom (fuel : Nat) (n : Int) (s : Spy) (cmd : Nat)
    (hc : customFor s cmd) :
    nvtCommand fuel cmd n s = some (n, { s with events := s.events ++ [eventOf cmd] }) := by
  unfold customFor at hc
  rcases hc with ⟨rfl, h⟩ | ⟨rfl, h⟩ | ⟨rfl, h⟩ | ⟨rfl, h⟩ | ⟨rfl, h⟩ | ⟨rfl, h⟩ | ⟨rfl, h⟩ <;>
    simp [nvtCommand, eventOf, h]

/-- C10 (amended). Two-byte command dispatch: when the filter byte is not
`0xFF`, a host callback is registered for `cmd ∈ {243, ..., 249}` and the
client has made available exactly `[0xFF, cmd]`, `checkReceive()` consumes
both bytes, invokes the callback of `cmd` once and no other, writes nothing
to the socket and leaves the input ring as it was. -/
theorem two_byte_command_dispatch (s : Spy) (cmd : Nat)
    (hc : customFor s cmd) (hrx : s.client.rx = [255, cmd])
    (hf : s.filterChar ≠ 255) :
    (checkReceive s).client.rx = [] ∧
    (checkReceive s).events = s.events ++ [eventOf cmd] ∧
    (checkReceive s).client.tx = s.client.tx ∧
    (checkReceive s).recBuf = s.recBuf ∧
    (checkReceive s).recUsed = s.recUsed ∧
    (checkReceive s).recRdIdx = s.recRdIdx ∧
    (checkReceive s).recWrIdx = s.recWrIdx ∧
    recContent (checkReceive s) = recContent s := by
  have he : checkReceive s
      = { skipRx s 2 with events := (skipRx s 2).events ++ [eventOf cmd] } := by
    unfold checkReceive
    rw [hrx]
    show rxLoop (1 + 1) 2 s = _
    rw [rxLoop_iac 1 2 s cmd [] hrx (by decide) (fun h => hf h.2)]
    rw [nvtCommand_custom 1 _ (skipRx s 2) cmd hc]
    exact rxLoop_done _ _ _ (by decide)
  rw [he]
  refine ⟨?_, rfl, rfl, rfl, rfl, rfl, rfl, rfl⟩
  show s.client.rx.drop 2 = []
  rw [hrx]; rfl

/-- The dispatch at `IAC BRK` with a Break callback: one Break event, nothing forwarded. -/
theorem two_byte_command_dispatch_witness :
    (checkReceive breakCase).client.rx = [] ∧
    (checkReceive breakCase).events = [Ev.brk] ∧
    recContent (checkReceive breakCase) = [] :=
  ⟨(two_byte_command_dispatch breakCase 243 (by decide) rfl (by decide)).1,
   (two_byte_command_dispatch breakCase 243 (by decide) rfl (by decide)).2.1,
   (two_byte_command_dispatch breakCase 243 (by decide) rfl
      (by decide)).2.2.2.2.2.2.2⟩

/-- C10, as stated, fails when the filter byte is `0xFF`: the filter test
comes before the IAC test, so on `[0xFF, 243]` with a Break callback the
`0xFF` is taken as the filter byte, the filter callback is invoked instead
of the Break callback and `243` is appended to the input ring. -/
theorem two_byte_command_filter_counterexample :
    filterIacCase.callbackNvtBRK = true ∧
    filterIacCase.client.rx = [255, 243] ∧
    (checkReceive filterIacCase).events = [Ev.onFilter] ∧
    recContent (checkReceive filterIacCase) = [243] ∧
    (checkReceive filterIacCase).events ≠ filterIacCase.events ++ [Ev.brk] ∧
    recContent (checkReceive filterIacCase) ≠ recContent filterIacCase := by
  decide

/-! ## Holdoff timers -/

/-- C18. Holdoff timers are rollover-safe: with 32-bit clock values `t0`,
`t1`, a period `p < 2^31` and `d = (t1 - t0) mod 2^32`, the deadline stored by
`setHoldoff` at `t0` is never 0; `isHoldoff` at `t1` keeps it (returns true)
when `d < p` and clears it to 0 (returns false) when `p < d < 2^31`, also
when `t0 + p` wraps past `2^32`. -/
theorem holdoff_rollover_safe (t0 t1 p : Nat) (h0 : t0 < 4294967296)
    (h1 : t1 < 4294967296) (hp : p < 2147483648) :
    setHoldoff t0 p ≠ 0 ∧
    ((t1 + 4294967296 - t0) % 4294967296 < p →
      isHoldoff t1 (setHoldoff t0 p) = setHoldoff t0 p ∧
      isHoldoff t1 (setHoldoff t0 p) ≠ 0) ∧
    (p < (t1 + 4294967296 - t0) % 4294967296 →
      (t1 + 4294967296 - t0) % 4294967296 < 2147483648 →
      isHoldoff t1 (setHoldoff t0 p) = 0) := by
  unfold isHoldoff setHoldoff u32
  simp only []
  refine ⟨?_, ?_, ?_⟩
  · split_ifs <;> omega
  · intro hd
    split_ifs <;> omega
  · intro hd1 hd2
    split_ifs <;> omega

/-- The holdoff armed 5 ms before the rollover with a period of 10 ms: the
deadline is 5; it is held 1 ms before the rollover and 3 ms after it, and
has elapsed 6 ms after it. -/
theorem holdoff_rollover_safe_witness :
    setHoldoff 4294967291 10 = 5 ∧
    isHoldoff 4294967295 (setHoldoff 4294967291 10) ≠ 0 ∧
    isHoldoff 3 (setHoldoff 4294967291 10) ≠ 0 ∧
    isHoldoff 6 (setHoldoff 4294967291 10) = 0 :=
  ⟨by decide,
   ((holdoff_rollover_safe 4294967291 4294967295 10 (by decide) (by decide)
      (by decide)).2.1 (by decide)).2,
   ((holdoff_rollover_safe 4294967291 3 10 (by decide) (by decide)
      (by decide)).2.1 (by decide)).2,
   (holdoff_rollover_safe 4294967291 6 10 (by decide) (by decide)
      (by decide)).2.2 (by decide) (by decide)⟩

/-! ## The accept step with a client already active -/

/-- C14. A second client is rejected without touching the first: when the
active client is connected, the accept step of `handle()` leaves the whole
state of the engine as it was (active client, connected flag, both rings,
event log), and the pending client gets exactly the reject message, or
nothing when the message is empty, and is closed. -/
theorem second_client_rejected (s : Spy) (p : Client)
    (hc : s.client.connected = true) (hp : p.connected = true) :
    (handleAccept s p).1 = s ∧
    (∃ r, (handleAccept s p).2 = some r ∧ r.connected = false ∧
      r.tx = p.tx ++ (if s.rejectMsg.length > 0 then [Wr.reject s.rejectMsg] else [])) := by
  unfold handleAccept
  simp only [hc, if_true]
  refine ⟨trivial, _, rfl, rfl, ?_⟩
  split
  · simp [Client.stop, Client.send, hp]
  · simp [Client.stop]

/-- The rejection at `busyCase`: the newcomer receives `N O` and is closed,
the engine is as it was. -/
theorem second_client_rejected_witness :
    (handleAccept busyCase freshClient).1 = busyCase ∧
    (handleAccept busyCase freshClient).2
      = some { connected := false, rx := [], tx := [Wr.reject [78, 79]] } :=
  ⟨(second_client_rejected busyCase freshClient rfl rfl).1, by decide⟩

/-! ## One call of the block sender, exactly -/

theorem setHoldoff_ne_zero (now period : Nat) : setHoldoff now period ≠ 0 := by
  unfold setHoldoff
  simp only []
  split <;> omega

theorem foldl_send_connected (ws : List Wr) :
    ∀ c : Client, c.connected = true →
      ws.foldl Client.send c = { c with tx := c.tx ++ ws } := by
  induction ws with
  | nil => intro c _; simp
  | cons w ws ih =>
    intro c h
    have h1 : c.send w = { c with tx := c.tx ++ [w] } := by
      unfold Client.send; simp [h]
    simp only [List.foldl_cons]
    rw [h1, ih _ (show ({ c with tx := c.tx ++ [w] } : Client).connected = true from h)]
    simp

theorem sendRing_tx (s : Spy) (hc : s.client.connected = true) :
    (sendRing s).client = { s.client with tx := s.client.tx ++ blockWrite s } := by
  unfold sendRing blockWrite
  simp only []
  split
  · simp [Client.send, hc]
  · simp

theorem sendRearm_client (s : Spy) : (sendRearm s).client = s.client := by
  obtain ⟨a, b, h⟩ := sendRearm_eq s
  rw [h]

/-- With a connected client, `sendBlock()` writes the staged keep-alive bytes
first and then at most one block of the ring. -/
theorem sendBlock_tx (s : Spy) (hc : s.client.connected = true) :
    (sendBlock s).client
      = { s.client with tx := s.client.tx ++ oobWrites s ++ blockWrite s } := by
  have h1 := foldl_send_connected (oobWrites s) s.client hc
  have h2 : (sendRing (sendOob s)).client
      = { s.client with tx := s.client.tx ++ oobWrites s ++ blockWrite s } := by
    rw [sendRing_tx (sendOob s) (by show ((oobWrites s).foldl Client.send s.client).connected = true; rw [h1]; exact hc)]
    show { (oobWrites s).foldl Client.send s.client with
        tx := ((oobWrites s).foldl Client.send s.client).tx ++ blockWrite (sendOob s) } = _
    rw [h1]
    rfl
  unfold sendBlock
  simp only []
  split
  · rw [sendRearm_client]; exact h2
  · exact h2

theorem blockBytes_blockWrite (s : Spy) :
    blockBytes (blockWrite s) = readRun s.telnetBuf s.bufRdIdx (blockLen s) := by
  unfold blockWrite
  split
  · simp [blockBytes]
  · next h =>
    have : blockLen s = 0 := by simpa using h
    simp [blockBytes, this, readRun]

theorem blockLen_eq (s : Spy) (n : Nat) (hlen : s.bufLen = n) (hn : n < 65536)
    (hR : s.bufRdIdx < n) :
    blockLen s = min (min s.bufLeftToSend s.maxBlockSize) (n - s.bufRdIdx) := by
  unfold blockLen
  simp only [hlen]
  rw [u16_sub n s.bufRdIdx (by omega) hn]
  split <;> omega

/-- What one `sendRing` does to the send cursor and the unsent count, in
terms of the unsent bytes. -/
theorem sendRing_pending (s : Spy) (n : Nat) (hlen : s.bufLen = n)
    (hn : n < 65536) (hR : s.bufRdIdx < n) (hL : s.bufLeftToSend < 65536) :
    readRun s.telnetBuf s.bufRdIdx (blockLen s) = (pending s).take (blockLen s) ∧
    (sendRing s).bufLeftToSend = s.bufLeftToSend - blockLen s ∧
    (sendRing s).bufRdIdx = (s.bufRdIdx + blockLen s) % n ∧
    pending (sendRing s) = (pending s).drop (blockLen s) := by
  have hb := blockLen_eq s n hlen hn hR
  have hb1 : blockLen s ≤ s.bufLeftToSend := by omega
  have hb2 : s.bufRdIdx + blockLen s ≤ n := by omega
  have hcore := sendRing_core s
  simp only [ringCore, Prod.mk.injEq] at hcore
  obtain ⟨c1, c2, _⟩ := hcore
  have h1 : readRun s.telnetBuf s.bufRdIdx (blockLen s)
      = (pending s).take (blockLen s) := by
    unfold pending
    rw [hlen, ringRead_take _ _ _ _ _ hb1, ringRead_run _ _ _ _ hb2]
  have h2 : (sendRing s).bufLeftToSend = s.bufLeftToSend - blockLen s := by
    unfold sendRing
    simp only []
    split
    · show u16 ((s.bufLeftToSend : Int) - blockLen s) = _
      unfold u16; omega
    · next h0 =>
      have : blockLen s = 0 := by simpa using h0
      omega
  have h3 : (sendRing s).bufRdIdx = (s.bufRdIdx + blockLen s) % n := by
    unfold sendRing
    simp only []
    split
    · show (if u16 ((s.bufRdIdx : Int) + blockLen s) ≥ s.bufLen
          then u16 ((u16 ((s.bufRdIdx : Int) + blockLen s) : Int) - s.bufLen)
          else u16 ((s.bufRdIdx : Int) + blockLen s)) = _
      rw [u16_add _ _ (by omega), hlen]
      by_cases hw : s.bufRdIdx + blockLen s = n
      · rw [hw, Nat.mod_self]
        simp
        unfold u16; omega
      · rw [Nat.mod_eq_of_lt (by omega)]
        simp
        omega
    · next h0 =>
      have : blockLen s = 0 := by simpa using h0
      rw [this, Nat.add_zero, Nat.mod_eq_of_lt hR]
  refine ⟨h1, h2, h3, ?_⟩
  unfold pending
  rw [c1, c2, h2, h3, hlen]
  exact ringRead_drop _ _ _ _ _ hb1

/-- What one `sendBlock()` does with a connected client, in terms of the
unsent bytes: the first `blockLen` of them are written as one block, after
any staged keep-alive bytes, and the others stay unsent. -/
theorem sendBlock_pending (s : Spy) (n : Nat) (hlen : s.bufLen = n)
    (hn : n < 65536) (hR : s.bufRdIdx < n) (hL : s.bufLeftToSend < 65536)
    (hc : s.client.connected = true) :
    blockBytes (sendBlock s).client.tx
      = blockBytes s.client.tx ++ (pending s).take (blockLen s) ∧
    (sendBlock s).bufLeftToSend = s.bufLeftToSend - blockLen s ∧
    (sendBlock s).bufRdIdx = (s.bufRdIdx + blockLen s) % n ∧
    pending (sendBlock s) = (pending s).drop (blockLen s) := by
  obtain ⟨a, b, cl, he, _, _, _⟩ := sendBlock_eq s
  have hp := sendRing_pending { s with NVTidx := 0, client := cl } n hlen hn hR hL
  have hcore := sendBlock_core s
  simp only [ringCore, Prod.mk.injEq] at hcore
  obtain ⟨c1, c2, _⟩ := hcore
  have hl : (sendBlock s).bufLeftToSend = s.bufLeftToSend - blockLen s := by
    rw [he]; exact hp.2.1
  have hr : (sendBlock s).bufRdIdx = (s.bufRdIdx + blockLen s) % n := by
    rw [he]; exact hp.2.2.1
  refine ⟨?_, hl, hr, ?_⟩
  · rw [sendBlock_tx s hc]
    simp only [blockBytes_append]
    have hoob : blockBytes (oobWrites s) = [] := by
      have := oobWrites_noblock s
      generalize oobWrites s = ws at this
      induction ws with
      | nil => rfl
      | cons w ws ih =>
        have hw := this w (List.mem_cons_self _ _)
        have := ih (fun x hx => this x (List.mem_cons_of_mem _ hx))
        rw [show w :: ws = [w] ++ ws from rfl, blockBytes_append, hw, this]
        rfl
    rw [hoob, blockBytes_blockWrite, List.append_nil]
    congr 1
    exact (sendRing_pending s n hlen hn hR hL).1
  · unfold pending
    rw [c1, c2, hl, hr, hlen]
    have hb := blockLen_eq s n hlen hn hR
    exact ringRead_drop _ _ _ _ _ (by omega)

/-! ## flush -/

/-- C16 (amended). `flush()` sends one block of the pending output: with a
connected client and a well-formed send cursor, one call writes the first
`len = min(u, maxBlockSize, bufLen - bufRdIdx)` of the `u` unsent bytes, in
order, and leaves `u - len` unsent; the unsent count is 0 and all `u` bytes
have been written when `u ≤ maxBlockSize` and the unsent bytes do not wrap
past the end of the storage. -/
theorem flush_sends_one_block (s : Spy) (n : Nat) (hlen : s.bufLen = n)
    (hn : n < 65536) (hR : s.bufRdIdx < n) (hL : s.bufLeftToSend ≤ n)
    (hc : s.client.connected = true) :
    blockLen s = min (min s.bufLeftToSend s.maxBlockSize) (n - s.bufRdIdx) ∧
    blockBytes (flush s).client.tx
      = blockBytes s.client.tx ++ (pending s).take (blockLen s) ∧
    (flush s).bufLeftToSend = s.bufLeftToSend - blockLen s ∧
    pending (flush s) = (pending s).drop (blockLen s) ∧
    ringCore (flush s) = ringCore s ∧
    (s.bufLeftToSend ≤ s.maxBlockSize → s.bufRdIdx + s.bufLeftToSend ≤ n →
      (flush s).bufLeftToSend = 0 ∧
      blockBytes (flush s).client.tx = blockBytes s.client.tx ++ pending s) := by
  have hf : flush s = sendBlock s := by unfold flush; simp [hc]
  have hb := blockLen_eq s n hlen hn hR
  obtain ⟨h1, h2, _, h4⟩ := sendBlock_pending s n hlen hn hR (by omega) hc
  rw [hf]
  refine ⟨hb, h1, h2, h4, sendBlock_core s, ?_⟩
  intro hm hw
  have hbl : blockLen s = s.bufLeftToSend := by omega
  refine ⟨by omega, ?_⟩
  rw [h1, hbl, List.take_of_length_le (by unfold pending; rw [ringRead_length])]

/-- One `flush()` at `backlogRing`: the block `A B` is written and one byte
stays unsent. -/
theorem flush_sends_one_block_witness :
    blockBytes (flush backlogRing).client.tx = [65, 66] ∧
    (flush backlogRing).bufLeftToSend = 1 ∧
    pending (flush backlogRing) = [67] :=
  ⟨(flush_sends_one_block backlogRing 4 rfl (by decide) (by decide) (by decide)
      rfl).2.1,
   (flush_sends_one_block backlogRing 4 rfl (by decide) (by decide) (by decide)
      rfl).2.2.1,
   (flush_sends_one_block backlogRing 4 rfl (by decide) (by decide) (by decide)
      rfl).2.2.2.1⟩

/-- C16, as stated, fails when the unsent bytes exceed one block: with three
unsent bytes and `maxBlockSize = 2`, one `flush()` writes two bytes and
leaves `bufLeftToSend = 1`; and with three unsent bytes that wrap past the end
of the storage, one `flush()` writes the two bytes up to the end and leaves
`bufLeftToSend = 1`. -/
theorem flush_leaves_backlog_counterexample :
    (pending backlogRing = [65, 66, 67] ∧
      blockBytes (flush backlogRing).client.tx = [65, 66] ∧
      (flush backlogRing).bufLeftToSend = 1 ∧
      (flush backlogRing).bufLeftToSend ≠ 0) ∧
    (pending wrappedBacklog = [65, 66, 67] ∧
      blockBytes (flush wrappedBacklog).client.tx = [65, 66] ∧
      (flush wrappedBacklog).bufLeftToSend = 1 ∧
      (flush wrappedBacklog).bufLeftToSend ≠ 0) := by
  decide

/-! ## The keep-alive step -/

theorem sendRing_shape (s : Spy) :
    ∃ cl r l, sendRing s = { s with client := cl, bufRdIdx := r, bufLeftToSend := l } := by
  unfold sendRing
  simp only []
  split
  · exact ⟨_, _, _, rfl⟩
  · exact ⟨_, _, _, rfl⟩

/-- `sendBlock()` writes six fields and no other. -/
theorem sendBlock_shape (s : Spy) :
    ∃ cl r l a b, sendBlock s =
      { s with NVTidx := 0, client := cl, bufRdIdx := r, bufLeftToSend := l,
               waitHoldoff := a, pingHoldoff := b } := by
  obtain ⟨a, b, cl, he, _⟩ := sendBlock_eq s
  obtain ⟨cl', r, l, hr⟩ := sendRing_shape { s with NVTidx := 0, client := cl }
  rw [he, hr]
  exact ⟨_, _, _, _, _, rfl⟩

theorem sendBlock_armed (s : Spy) (h : s.NVTidx ≠ 0 ∨ blockLen s ≠ 0) :
    (sendBlock s).waitHoldoff = setHoldoff s.millis s.collectingTime ∧
    (s.pingTime ≠ 0 → isHoldoff s.millis s.pingHoldoff = 0 →
      (sendBlock s).pingHoldoff = setHoldoff s.millis s.pingTime) := by
  obtain ⟨cl, r, l, hr⟩ := sendRing_shape (sendOob s)
  have hact : (decide (s.NVTidx ≠ 0) || decide (blockLen s ≠ 0)) = true := by
    rcases h with h | h <;> simp [h]
  unfold sendBlock
  simp only [hact, if_true]
  rw [hr]
  unfold sendRearm sendOob
  simp only []
  refine ⟨?_, ?_⟩
  · split
    · split <;> rfl
    · rfl
  · intro hp hh
    simp only [hp, ne_eq, not_false_eq_true, if_true, hh]

theorem oobWrites_nop (s : Spy) :
    oobWrites { s with NVT0 := 241, NVT1 := 255, NVTidx := 2 }
      = [Wr.oob 255, Wr.oob 241] := rfl

theorem oobWrites_nul (s : Spy) :
    oobWrites { s with NVT0 := 0, NVTidx := 1 } = [Wr.oob 0] := rfl

/-- C20. Keep-alive is out of band: with a connected client, `pingTime ≠ 0`
and the ping holdoff not held, the keep-alive step of `handle()` writes to
the socket first the two bytes 255, 241 (IAC NOP) when negotiation has been
observed and the single byte 0 otherwise, and after them at most one block of
buffered data; it leaves the stored bytes, the write cursor, the oldest-byte
cursor and the used count of the output ring as they were, and afterwards
the ping holdoff and the collecting holdoff are both armed. -/
theorem keepalive_out_of_band (s : Spy) (hc : s.client.connected = true)
    (hp : s.pingTime ≠ 0) (hh : isHoldoff s.millis s.pingHoldoff = 0) :
    (handlePing s).client.tx
      = s.client.tx
        ++ (if s.nvtDetected then [Wr.oob 255, Wr.oob 241] else [Wr.oob 0])
        ++ blockWrite s ∧
    ringCore (handlePing s) = ringCore s ∧
    (handlePing s).pingHoldoff = setHoldoff s.millis s.pingTime ∧
    (handlePing s).waitHoldoff = setHoldoff s.millis s.collectingTime ∧
    (handlePing s).pingHoldoff ≠ 0 ∧ (handlePing s).waitHoldoff ≠ 0 ∧
    (handlePing s).NVTidx = 0 := by
  have key : ∀ t : Spy, t.client = s.client → ringCore t = ringCore s →
      blockWrite t = blockWrite s → t.NVTidx ≠ 0 → t.millis = s.millis →
      t.pingTime = s.pingTime → t.collectingTime = s.collectingTime →
      t.pingHoldoff = 0 →
      (sendBlock t).client.tx = s.client.tx ++ oobWrites t ++ blockWrite s ∧
      ringCore (sendBlock t) = ringCore s ∧
      (sendBlock t).pingHoldoff = setHoldoff s.millis s.pingTime ∧
      (sendBlock t).waitHoldoff = setHoldoff s.millis s.collectingTime ∧
      (sendBlock t).pingHoldoff ≠ 0 ∧ (sendBlock t).waitHoldoff ≠ 0 ∧
      (sendBlock t).NVTidx = 0 := by
    intro t h1 h2 h3 h4 h5 h6 h7 h8
    have ha := sendBlock_armed t (Or.inl h4)
    have hping := ha.2 (by rw [h6]; exact hp) (by rw [h8]; rfl)
    obtain ⟨cl, r, l, a, b, hs⟩ := sendBlock_shape t
    refine ⟨?_, (sendBlock_core t).trans h2, ?_, ?_, ?_, ?_, ?_⟩
    · rw [sendBlock_tx t (by rw [h1]; exact hc), h1, h3]
    · rw [hping, h5, h6]
    · rw [ha.1, h5, h7]
    · rw [hping]; exact setHoldoff_ne_zero _ _
    · rw [ha.1]; exact setHoldoff_ne_zero _ _
    · rw [hs]
  unfold handlePing
  simp only [hc, hp, ne_eq, not_false_eq_true, and_self, if_true, hh]
  by_cases hd : s.nvtDetected = true
  · simp only [hd, if_true]
    exact key _ rfl rfl rfl (Nat.succ_ne_zero _) rfl rfl rfl rfl
  · simp only [hd, if_false, Bool.false_eq_true]
    exact key _ rfl rfl rfl (Nat.succ_ne_zero _) rfl rfl rfl rfl

/-- The keep-alive at `pingCase`: IAC NOP is written before the block `A B`,
and both holdoffs are armed from the clock value 5000. -/
theorem keepalive_out_of_band_witness :
    (handlePing pingCase).client.tx
      = [Wr.oob 255, Wr.oob 241, Wr.block [65, 66]] ∧
    (handlePing pingCase).pingHoldoff = 6000 ∧
    (handlePing pingCase).waitHoldoff = 5100 :=
  ⟨(keepalive_out_of_band pingCase rfl (by decide) (by decide)).1,
   (keepalive_out_of_band pingCase rfl (by decide) (by decide)).2.2.1,
   (keepalive_out_of_band pingCase rfl (by decide) (by decide)).2.2.2.1⟩

/-! ## The flush scheduler below the minimum block size -/

theorem handle_connected_eq (s : Spy) (ready : Bool) (pend : Option Client)
    (hst : s.started = true) (hl : s.listening = true ∨ ready = true)
    (hc : s.client.connected = true) :
    (handle s ready pend).1 =
      (if (handlePing (handleFlush (handleLifecycle
            { s with listening := true }))).client.connected
        then checkReceive (handlePing (handleFlush (handleLifecycle
            { s with listening := true })))
        else handlePing (handleFlush (handleLifecycle
            { s with listening := true }))) := by
  unfold handle
  have h1 : ¬ ((!s.started) = true) := by rw [hst]; simp
  have h2 : ¬ ((!s.listening) = true ∧ (!ready) = true) := by
    rcases hl with h | h <;> rw [h] <;> simp
  rw [if_neg h1, if_neg h2]
  cases pend with
  | none => rfl
  | some p =>
    have : (handleAccept { s with listening := true } p).1
        = { s with listening := true } := by
      unfold handleAccept
      simp only [hc, if_true]
    simp only [this]

theorem lifecycle_connected_shape (s : Spy) (hc : s.client.connected = true)
    (hp : s.pingTime = 0) :
    ∃ a c, handleLifecycle s = { s with connected := a, events := c } := by
  have hp' : ¬ (s.pingTime ≠ 0) := by simp [hp]
  unfold handleLifecycle
  rw [if_pos hc]
  split
  · simp only []
    rw [if_neg hp']
    split
    · exact ⟨_, _, rfl⟩
    · exact ⟨true, s.events, rfl⟩
  · exact ⟨s.connected, s.events, rfl⟩

theorem isHoldoff_held (now h : Nat) (hh : isHoldoff now h ≠ 0) :
    isHoldoff now h = h := by
  unfold isHoldoff at hh ⊢
  split_ifs at hh ⊢ <;> first | rfl | exact absurd rfl hh

theorem handleFlush_small (s : Spy) (hc : s.client.connected = true)
    (hu0 : 0 < s.bufLeftToSend) (hu : s.bufLeftToSend < s.minBlockSize) :
    (isHoldoff s.millis s.waitHoldoff = 0 →
      (handleFlush s).client.tx = s.client.tx ++ oobWrites s ++ blockWrite s ∧
      (handleFlush s).client.rx = s.client.rx ∧
      (handleFlush s).waitHoldoff = setHoldoff s.millis s.collectingTime ∧
      (handleFlush s).pingTime = s.pingTime) ∧
    (isHoldoff s.millis s.waitHoldoff ≠ 0 → handleFlush s = s) := by
  have hnot : ¬ s.bufLeftToSend ≥ s.minBlockSize := by omega
  constructor
  · intro hh
    obtain ⟨cl, r, l, a, b, hs⟩ := sendBlock_shape { s with waitHoldoff := 0 }
    have htx := sendBlock_tx { s with waitHoldoff := 0 } hc
    have he : handleFlush s = { sendBlock { s with waitHoldoff := 0 } with
        waitHoldoff := setHoldoff s.millis s.collectingTime } := by
      unfold handleFlush
      simp only [hc, hu0, and_self, if_true, if_neg hnot, hh]
      rw [hs]
    rw [he]
    refine ⟨?_, ?_, rfl, ?_⟩
    · show (sendBlock _).client.tx = _
      rw [htx]; rfl
    · show (sendBlock _).client.rx = _
      rw [htx]
    · show (sendBlock _).pingTime = _
      rw [hs]
  · intro hh
    have h1 := isHoldoff_held _ _ hh
    have h2 : s.waitHoldoff ≠ 0 := by rw [← h1]; exact hh
    unfold handleFlush
    simp only [hc, hu0, and_self, if_true, if_neg hnot, h1, if_neg h2]

theorem handlePing_off (s : Spy) (hp : s.pingTime = 0) : handlePing s = s := by
  unfold handlePing
  simp [hp]

theorem blockLen_pos (s : Spy) (hn : s.bufLen < 65536) (hR : s.bufRdIdx < s.bufLen)
    (hm : 1 ≤ s.maxBlockSize) (hu : 0 < s.bufLeftToSend) : 0 < blockLen s := by
  rw [blockLen_eq s s.bufLen rfl hn hR]
  omega

/-- C19 (amended). Sub-threshold output: in a tick of `handle()` with a
connected client, keep-alive disabled, no inbound bytes waiting and an unsent
count `0 < u < minBlockSize`, when no collecting holdoff is running (inactive
or elapsed) the tick writes one block of the buffered output at once and
then starts the collecting-time holdoff; while the holdoff is running the
tick writes nothing and keeps the unsent count and the holdoff, so the bytes
are written in the first later tick at which the holdoff has elapsed. -/
theorem subthreshold_output (s : Spy) (ready : Bool) (pend : Option Client)
    (hst : s.started = true) (hl : s.listening = true ∨ ready = true)
    (hc : s.client.connected = true) (hping : s.pingTime = 0)
    (hu0 : 0 < s.bufLeftToSend) (hu : s.bufLeftToSend < s.minBlockSize)
    (hrx : s.client.rx = []) :
    (isHoldoff s.millis s.waitHoldoff = 0 →
      (handle s ready pend).1.client.tx
        = s.client.tx ++ oobWrites s ++ blockWrite s ∧
      (handle s ready pend).1.waitHoldoff = setHoldoff s.millis s.collectingTime ∧
      (handle s ready pend).1.waitHoldoff ≠ 0 ∧
      (s.bufLen < 65536 → s.bufRdIdx < s.bufLen → 1 ≤ s.maxBlockSize →
        0 < blockLen s ∧ blockWrite s
          = [Wr.block (readRun s.telnetBuf s.bufRdIdx (blockLen s))])) ∧
    (isHoldoff s.millis s.waitHoldoff ≠ 0 →
      (handle s ready pend).1.client.tx = s.client.tx ∧
      (handle s ready pend).1.bufLeftToSend = s.bufLeftToSend ∧
      (handle s ready pend).1.waitHoldoff = s.waitHoldoff) := by
  rw [handle_connected_eq s ready pend hst hl hc]
  obtain ⟨a, c, hL⟩ := lifecycle_connected_shape { s with listening := true } hc hping
  rw [hL]
  have hfl := handleFlush_small
    { s with listening := true, connected := a, events := c } hc hu0 hu
  constructor
  · intro hh
    obtain ⟨h1, h2, h3, h4⟩ := hfl.1 hh
    rw [handlePing_off _ (h4.trans hping), checkReceive_idle _ (h2.trans hrx)]
    simp only [ite_self]
    refine ⟨h1, h3, ?_, ?_⟩
    · rw [h3]; exact setHoldoff_ne_zero _ _
    · intro hn hR hm
      have hpos := blockLen_pos s hn hR hm hu0
      refine ⟨hpos, ?_⟩
      unfold blockWrite
      rw [if_pos (by omega)]
  · intro hh
    rw [hfl.2 hh,
      handlePing_off { s with listening := true, connected := a, events := c } hping,
      checkReceive_idle { s with listening := true, connected := a, events := c } hrx]
    simp

/-- The scheduler at `idleSmall` (no holdoff running: the byte `A` is written
in this tick and the holdoff is armed) and at `heldSmall` (holdoff running:
nothing is written). -/
theorem subthreshold_output_witness :
    ((handle idleSmall true none).1.client.tx = [Wr.block [65]] ∧
      (handle idleSmall true none).1.waitHoldoff = 5100) ∧
    ((handle heldSmall true none).1.client.tx = [] ∧
      (handle heldSmall true none).1.bufLeftToSend = 1) :=
  ⟨⟨((subthreshold_output idleSmall true none rfl (Or.inl rfl) rfl rfl (by decide)
        (by decide) rfl).1 (by decide)).1,
    ((subthreshold_output idleSmall true none rfl (Or.inl rfl) rfl rfl (by decide)
        (by decide) rfl).1 (by decide)).2.1⟩,
   ⟨((subthreshold_output heldSmall true none rfl (Or.inl rfl) rfl rfl (by decide)
        (by decide) rfl).2 (by decide)).1,
    ((subthreshold_output heldSmall true none rfl (Or.inl rfl) rfl rfl (by decide)
        (by decide) rfl).2 (by decide)).2.1⟩⟩

/-- C19, as stated, fails: in a tick with a connected client, `pingTime = 0`,
one unsent byte below `minBlockSize = 4` and no collecting holdoff running,
the byte is written to the socket in that very tick (and the holdoff is
armed afterwards), where the claim says nothing is written until the holdoff
has elapsed. -/
theorem subthreshold_sent_at_once_counterexample :
    idleSmall.client.connected = true ∧ idleSmall.pingTime = 0 ∧
    idleSmall.bufLeftToSend = 1 ∧ idleSmall.minBlockSize = 4 ∧
    idleSmall.waitHoldoff = 0 ∧
    (handle idleSmall true none).1.client.tx = [Wr.block [65]] ∧
    blockBytes (handle idleSmall true none).1.client.tx ≠ [] ∧
    (handle idleSmall true none).1.bufLeftToSend = 0 := by
  decide

/-! ## Subnegotiation and incomplete sequences -/

theorem sbLoop_swallows :
    ∀ (fuel : Nat) (n : Int) (s : Spy), n ≤ fuel →
      ∃ k, sbLoop fuel n s = ((sbLoop fuel n s).1, skipRx s k) ∧
        (sbLoop fuel n s).1 ≤ 0 ∧ n ≤ k := by
  intro fuel
  induction fuel with
  | zero =>
    intro n s h
    refine ⟨0, ?_, by simpa [sbLoop] using h, by simpa using h⟩
    simp [sbLoop, skipRx]
  | succ f ih =>
    intro n s h
    by_cases hn : n > 0
    · by_cases hc : s.client.rx.headD 255 ≠ 255
      · have he : sbLoop (f + 1) n s = sbLoop f (n - 1) (skipRx s 1) := by
          rw [sbLoop]
          simp only [hn, if_true, clientRead_eq, hc, ne_eq, not_false_eq_true]
        obtain ⟨k, h1, h2, h3⟩ := ih (n - 1) (skipRx s 1) (by push_cast at h ⊢; omega)
        refine ⟨1 + k, ?_, by rw [he]; exact h2, by push_cast; omega⟩
        rw [he, ← skipRx_skipRx]
        exact h1
      · have he : sbLoop (f + 1) n s = sbLoop f (n - 1 - 1) (skipRx s 2) := by
          rw [sbLoop]
          simp only [hn, if_true, clientRead_eq, hc, if_false, skipRx_skipRx]
        by_cases hn1 : n - 1 - 1 ≤ (f : Int)
        · obtain ⟨k, h1, h2, h3⟩ := ih (n - 1 - 1) (skipRx s 2) hn1
          refine ⟨2 + k, ?_, by rw [he]; exact h2, by push_cast; omega⟩
          rw [he, ← skipRx_skipRx]
          exact h1
        · exfalso; push_cast at h; omega
    · refine ⟨0, ?_, ?_, by omega⟩
      · rw [sbLoop]
        simp [hn, skipRx]
      · rw [sbLoop]
        simp only [hn, if_false]
        omega

/-- Whatever follows IAC SB in the batch, `checkReceive()` consumes the whole
batch, forwards nothing and invokes no callback. -/
theorem subneg_swallows_batch (s : Spy) (rest : List Nat)
    (hrx : s.client.rx = 255 :: 250 :: rest)
    (hf : ¬ (s.filterChar ≠ 0 ∧ s.filterChar = 255)) :
    ∃ k, checkReceive s = skipRx s k ∧ (checkReceive s).client.rx = [] := by
  have hlen : s.client.rx.length = rest.length + 1 + 1 := by rw [hrx]; rfl
  obtain ⟨k, h1, h2, h3⟩ := sbLoop_swallows (rest.length + 1)
    ((rest.length : Int)) (skipRx s 2) (by push_cast; omega)
  have he : checkReceive s = skipRx s (2 + k) := by
    unfold checkReceive
    rw [hlen, rxLoop_iac (rest.length + 1) _ s 250 rest hrx (by push_cast; omega) hf]
    have hcmd : nvtCommand (rest.length + 1) 250
        (((rest.length + 1 + 1 : Nat) : Int) - 2) (skipRx s 2)
        = some (sbLoop (rest.length + 1) (rest.length : Int) (skipRx s 2)) := by
      have : (((rest.length + 1 + 1 : Nat) : Int) - 2) = (rest.length : Int) := by
        push_cast; omega
      rw [this]
      simp [nvtCommand]
    rw [hcmd, h1]
    simp only []
    rw [rxLoop_done _ _ _ h2, skipRx_skipRx]
  refine ⟨2 + k, he, ?_⟩
  rw [he]
  show s.client.rx.drop (2 + k) = []
  apply List.drop_eq_nil_of_le
  rw [hlen]
  have : (rest.length : Int) ≤ k := h3
  omega

/-- C11, failing input. On `IAC SB 1 2 3 IAC SE A B` the loop of `case 250`
does not stop at IAC SE: the whole batch is consumed and nothing is forwarded,
where the claim says `A B` is forwarded. Only when nothing follows the
terminator does the outcome agree with the claim. -/
theorem subneg_discards_following_data :
    (checkReceive (arrive listenerCase [255, 250, 1, 2, 3, 255, 240, 65, 66])).client.rx
      = [] ∧
    recContent (checkReceive (arrive listenerCase
      [255, 250, 1, 2, 3, 255, 240, 65, 66])) = [] ∧
    recContent (checkReceive (arrive listenerCase
      [255, 250, 1, 2, 3, 255, 240, 65, 66])) ≠ [65, 66] ∧
    (checkReceive (arrive listenerCase [255, 250, 1, 2, 3, 255, 240, 65, 66])).events
      = [] ∧
    recContent (checkReceive (arrive listenerCase [255, 250, 1, 2, 3, 255, 240]))
      = [] := by
  decide

/-- C13, failing inputs. A lone IAC at the end of a batch is held
(`A IAC` forwards `A` and leaves IAC), but the two other incomplete sequences
are consumed. On `IAC WILL` with no option byte, both bytes are consumed,
`client.read()` is called a third time on the empty socket, and the
WILL/WON'T/DO/DON'T callback is invoked with the option `(char)-1 = 255`;
the option byte 3 that arrives later is forwarded as data. On `IAC SB 1 2`
with no terminator, all four bytes are consumed, and the terminator and the
data that arrive later are parsed on their own: IAC SE is dropped as an
unknown command and `A` is forwarded. -/
theorem incomplete_sequences_consumed :
    ((checkReceive (arrive listenerCase [65, 255])).client.rx = [255] ∧
      recContent (checkReceive (arrive listenerCase [65, 255])) = [65]) ∧
    ((checkReceive (arrive listenerCase [255, 251])).client.rx = [] ∧
      (checkReceive (arrive listenerCase [255, 251])).events = [Ev.wwdd 251 255] ∧
      recContent (checkReceive (arrive (checkReceive (arrive listenerCase
        [255, 251])) [3])) = [3]) ∧
    ((checkReceive (arrive listenerCase [255, 250, 1, 2])).client.rx = [] ∧
      recContent (checkReceive (arrive (checkReceive (arrive listenerCase
        [255, 250, 1, 2])) [255, 240, 65])) = [65]) := by
  decide

/-! ## Connect and disconnect callbacks -/

/-- C15, failing input. Client `A` is accepted (one connect event), its peer
closes, and client `B` is pending at the next tick: the accept step replaces
`A` by `B` and writes the welcome message, but the `connected` flag is still
set, so the tick invokes neither the disconnect callback for `A` nor the
connect callback for `B`. When no client is pending at that tick the
disconnect callback is invoked, and `B` accepted one tick later gets its
connect callback. -/
theorem replaced_client_fires_no_callbacks :
    (handle lobbyCase true (some freshClient)).1.events = [Ev.onConnect] ∧
    (handle (peerCloses (handle lobbyCase true (some freshClient)).1) true
      (some freshClient)).1.client
        = { connected := true, rx := [], tx := [Wr.welcome [72, 105]] } ∧
    (handle (peerCloses (handle lobbyCase true (some freshClient)).1) true
      (some freshClient)).1.events = [Ev.onConnect] ∧
    (handle (peerCloses (handle lobbyCase true (some freshClient)).1) true
      none).1.events = [Ev.onConnect, Ev.onDisconnect] ∧
    (handle (handle (peerCloses (handle lobbyCase true (some freshClient)).1) true
      none).1 true (some freshClient)).1.events
        = [Ev.onConnect, Ev.onDisconnect, Ev.onConnect] := by
  decide

/-! ## The input ring as a bounded queue -/

theorem recContent_length (s : Spy) : (recContent s).length = s.recUsed := by
  unfold recContent; exact ringRead_length _ _ _ _

theorem writeRecBuf_full (s : Spy) (c : Nat) (h : s.recUsed = s.recLen) :
    writeRecBuf s c = s := by
  unfold writeRecBuf
  rw [if_pos h.symm]

theorem foldl_writeRecBuf (cap : Nat) :
    ∀ (ys : List Nat) (s : Spy), RecOK s cap →
      RecOK (ys.foldl writeRecBuf s) cap ∧
      recContent (ys.foldl writeRecBuf s) = (recContent s ++ ys).take cap ∧
      (ys.foldl writeRecBuf s).client = s.client ∧
      (ys.foldl writeRecBuf s).recRdIdx = s.recRdIdx := by
  intro ys
  induction ys with
  | nil =>
    intro s h
    refine ⟨h, ?_, rfl, rfl⟩
    simp only [List.foldl_nil, List.append_nil]
    rw [List.take_of_length_le (by rw [recContent_length]; exact h.2.2.2.2.1)]
  | cons y ys ih =>
    intro s h
    simp only [List.foldl_cons]
    by_cases hroom : s.recUsed < cap
    · have he := writeRecBuf_eq s cap y h hroom
      have hp := recPush_ok s cap y h hroom
      obtain ⟨h1, h2, h3, h4⟩ := ih (writeRecBuf s y) (by rw [he]; exact hp.1)
      refine ⟨h1, ?_, ?_, ?_⟩
      · rw [h2, he, hp.2]
        simp
      · rw [h3, he]; rfl
      · rw [h4, he]; rfl
    · have hfull : s.recUsed = s.recLen := by
        have := h.2.2.2.2.1
        rw [h.2.1]; omega
      rw [writeRecBuf_full s y hfull]
      obtain ⟨h1, h2, h3, h4⟩ := ih s h
      refine ⟨h1, ?_, h3, h4⟩
      rw [h2]
      have hl : (recContent s).length = cap := by
        rw [recContent_length, hfull, h.2.1]
      rw [List.take_append_of_le_length (by omega),
        List.take_append_of_le_length (by omega)]

/-- One `read()` from a well-formed input ring that holds a byte, with a
connected client, nothing from the serial port and no inbound bytes waiting:
the oldest byte is returned and removed. -/
theorem read_oldest (s : Spy) (cap : Nat) (h : RecOK s cap) (hU : s.recUsed ≠ 0)
    (hc : s.client.connected = true) (hrx : s.client.rx = []) :
    ∃ x rest, recContent s = x :: rest ∧ (read s none).1 = some x ∧
      recContent (read s none).2 = rest ∧ RecOK (read s none).2 cap ∧
      (read s none).2.client = s.client ∧
      (read s none).2.recUsed = s.recUsed - 1 := by
  obtain ⟨m, hbuf, hm⟩ := recOK_buf s cap h
  have hsome : s.recBuf.isSome = true := by rw [hbuf]; rfl
  obtain ⟨h1, hlen, hcap, hR, hUle, hW⟩ := h
  have hidle := checkReceive_idle s hrx
  have h2 : (if u16 ((s.recRdIdx : Int) + 1) ≥ s.recLen then 0
      else u16 ((s.recRdIdx : Int) + 1)) = (s.recRdIdx + 1) % cap := by
    rw [u16_succ _ (by omega), hlen]
    have := mod_wrap s.recRdIdx 1 cap hR (by omega)
    rw [this]
    split <;> split <;> omega
  have h3 : u16 ((s.recUsed : Int) - 1) = s.recUsed - 1 := by unfold u16; omega
  have he : read s none = (some (peekByte s.recBuf s.recRdIdx),
      { s with recRdIdx := (s.recRdIdx + 1) % cap, recUsed := s.recUsed - 1 }) := by
    unfold read telnetAvailable
    simp only [hc, if_true, hidle, hsome, hU, ne_eq, not_false_eq_true, if_false,
      h2, h3]
  obtain ⟨u, hu⟩ : ∃ u, s.recUsed = u + 1 := ⟨s.recUsed - 1, by omega⟩
  have hcont : recContent s = peekByte s.recBuf s.recRdIdx ::
      ringRead s.recBuf cap ((s.recRdIdx + 1) % cap) u := by
    unfold recContent
    rw [hu, hlen, ringRead_cons, Nat.mod_eq_of_lt hR]
  refine ⟨_, _, hcont, by rw [he], ?_, ?_, by rw [he], by rw [he]⟩
  · rw [he]
    unfold recContent
    simp only [hlen, hu, Nat.add_sub_cancel]
  · rw [he]
    refine ⟨h1, hlen, hcap, Nat.mod_lt _ (by omega), ?_, ?_⟩
    · show s.recUsed - 1 ≤ cap
      omega
    · show s.recWrIdx = ((s.recRdIdx + 1) % cap + (s.recUsed - 1)) % cap
      rw [hW, mod_succ_shift, hu]
      congr 1

theorem readN_all (cap : Nat) :
    ∀ (k : Nat) (s : Spy), RecOK s cap → s.recUsed = k →
      s.client.connected = true → s.client.rx = [] →
      (readN k s).1 = (recContent s).map some ∧ (readN k s).2.recUsed = 0 := by
  intro k
  induction k with
  | zero =>
    intro s h hU _ _
    have : recContent s = [] := by
      apply List.eq_nil_of_length_eq_zero
      rw [recContent_length, hU]
    rw [this]
    exact ⟨rfl, hU⟩
  | succ k ih =>
    intro s h hU hc hrx
    obtain ⟨x, rest, h1, h2, h3, h4, h5, h6⟩ := read_oldest s cap h (by omega) hc hrx
    obtain ⟨i1, i2⟩ := ih (read s none).2 h4 (by rw [h6]; omega)
      (by rw [h5]; exact hc) (by rw [h5]; exact hrx)
    refine ⟨?_, i2⟩
    show (read s none).1 :: (readN k (read s none).2).1 = _
    rw [i1, h2, h3, h1]
    rfl

/-- C17. The input ring is a bounded FIFO with drop on full: from an empty
input ring of capacity `cap ≥ 1`, after the bytes `ys` have been passed one
by one to `writeRecBuf`, the ring holds exactly the first `min(|ys|, cap)`
bytes of `ys` and `recUsed ≤ cap`; `read()` (client connected, nothing from
the serial port, no inbound bytes waiting) then returns exactly those bytes
in that order and empties the ring; and `writeRecBuf` on a full ring leaves
the whole state as it was. -/
theorem input_ring_bounded_fifo (s : Spy) (cap : Nat) (ys : List Nat)
    (hok : RecOK s cap) (hU : s.recUsed = 0) :
    recContent (ys.foldl writeRecBuf s) = ys.take cap ∧
    (ys.foldl writeRecBuf s).recUsed = min ys.length cap ∧
    (ys.foldl writeRecBuf s).recUsed ≤ cap ∧
    (∀ (t : Spy) (c : Nat), t.recUsed = t.recLen → writeRecBuf t c = t) ∧
    (s.client.connected = true → s.client.rx = [] →
      (readN (min ys.length cap) (ys.foldl writeRecBuf s)).1
        = (ys.take cap).map some ∧
      (readN (min ys.length cap) (ys.foldl writeRecBuf s)).2.recUsed = 0) := by
  obtain ⟨h1, h2, h3, h4⟩ := foldl_writeRecBuf cap ys s hok
  have h0 : recContent s = [] := by
    apply List.eq_nil_of_length_eq_zero
    rw [recContent_length, hU]
  rw [h0, List.nil_append] at h2
  have hu : (ys.foldl writeRecBuf s).recUsed = min ys.length cap := by
    rw [← recContent_length, h2, List.length_take]
    omega
  refine ⟨h2, hu, h1.2.2.2.2.1, fun t c h => writeRecBuf_full t c h, ?_⟩
  intro hc hrx
  have := readN_all cap (min ys.length cap) (ys.foldl writeRecBuf s) h1 hu
    (by rw [h3]; exact hc) (by rw [h3]; exact hrx)
  rw [h2] at this
  exact this

/-- The queue at capacity 2 with the bytes 1, 2, 3: the ring holds 1, 2, the
third byte is dropped, and two reads return 1 and 2. -/
theorem input_ring_bounded_fifo_witness :
    recContent ([1, 2, 3].foldl writeRecBuf emptyRec) = [1, 2] ∧
    ([1, 2, 3].foldl writeRecBuf emptyRec).recUsed = 2 ∧
    (readN 2 ([1, 2, 3].foldl writeRecBuf emptyRec)).1 = [some 1, some 2] :=
  ⟨(input_ring_bounded_fifo emptyRec 2 [1, 2, 3] (by decide) rfl).1,
   (input_ring_bounded_fifo emptyRec 2 [1, 2, 3] (by decide) rfl).2.1,
   ((input_ring_bounded_fifo emptyRec 2 [1, 2, 3] (by decide) rfl).2.2.2.2
      rfl rfl).1⟩

/-! ## The filter byte -/

theorem sendBlock_recCore (s : Spy) : recCore (sendBlock s) = recCore s := by
  obtain ⟨cl, r, l, a, b, hs⟩ := sendBlock_shape s
  rw [hs]
  rfl

theorem disconnectClient_recCore (s : Spy) :
    recCore (disconnectClient s) = recCore s := by
  unfold disconnectClient
  simp only []
  have h1 : recCore (if s.client.connected = true then
      { sendBlock s with client := (sendBlock s).client.stop } else s) = recCore s := by
    split
    · exact sendBlock_recCore s
    · rfl
  generalize (if s.client.connected = true then
      { sendBlock s with client := (sendBlock s).client.stop } else s) = t at h1
  split
  · exact h1
  · exact h1

theorem sbLoop_recCore :
    ∀ (fuel : Nat) (n : Int) (s : Spy), recCore (sbLoop fuel n s).2 = recCore s := by
  intro fuel
  induction fuel with
  | zero => intro n s; rfl
  | succ f ih =>
    intro n s
    rw [sbLoop]
    split
    · simp only []
      split
      · exact ih _ _
      · exact ih _ _
    · rfl

/-- The command switch leaves the input ring and the filter byte alone,
except for the escaped `0xFF`, which it stores. -/
theorem some_pair_inj {n n2 : Int} {s s2 : Spy} (h : some (n, s) = some (n2, s2)) :
    s2 = s := by
  injection h with h
  injection h with _ h
  exact h.symm

theorem recCore_event (s : Spy) (b : Bool) (e : Ev) :
    recCore (if b = true then { s with events := s.events ++ [e] } else s)
      = recCore s := by
  split <;> rfl

/-- The command switch leaves the input ring and the filter byte alone,
except for the escaped `0xFF`, which it stores. -/
theorem nvtCommand_recCore (fuel : Nat) (c : Nat) (n n2 : Int) (s s2 : Spy)
    (h : nvtCommand fuel c n s = some (n2, s2)) :
    recCore s2 = recCore s ∨
      (c = 255 ∧ s.recBuf.isSome = true ∧ s2 = writeRecBuf s 255) := by
  unfold nvtCommand at h
  by_cases c241 : c = 241
  · rw [if_pos c241] at h
    left
    split at h
    · rw [some_pair_inj h]; rfl
    · rw [some_pair_inj h]
  rw [if_neg c241] at h
  by_cases c242 : c = 242
  · rw [if_pos c242] at h
    left; rw [some_pair_inj h]
  rw [if_neg c242] at h
  by_cases c243 : c = 243
  · rw [if_pos c243] at h
    left; rw [some_pair_inj h]; exact recCore_event s _ _
  rw [if_neg c243] at h
  by_cases c244 : c = 244
  · rw [if_pos c244] at h
    left
    cases hs : s.callbackNvtIP <;> simp only [hs] at h
    · rw [some_pair_inj h]
    · exact absurd h (by simp)
    · rw [some_pair_inj h]; rfl
  rw [if_neg c244] at h
  by_cases c245 : c = 245
  · rw [if_pos c245] at h
    left
    cases hs : s.callbackNvtAO <;> simp only [hs] at h
    · rw [some_pair_inj h]
    · rw [some_pair_inj h]; exact disconnectClient_recCore s
    · rw [some_pair_inj h]; rfl
  rw [if_neg c245] at h
  by_cases c246 : c = 246
  · rw [if_pos c246] at h
    left; rw [some_pair_inj h]; exact recCore_event s _ _
  rw [if_neg c246] at h
  by_cases c247 : c = 247
  · rw [if_pos c247] at h
    left; rw [some_pair_inj h]; exact recCore_event s _ _
  rw [if_neg c247] at h
  by_cases c248 : c = 248
  · rw [if_pos c248] at h
    left; rw [some_pair_inj h]; exact recCore_event s _ _
  rw [if_neg c248] at h
  by_cases c249 : c = 249
  · rw [if_pos c249] at h
    left; rw [some_pair_inj h]; exact recCore_event s _ _
  rw [if_neg c249] at h
  by_cases c250 : c = 250
  · rw [if_pos c250] at h
    left
    have h' : sbLoop fuel n s = (n2, s2) := by injection h
    have := sbLoop_recCore fuel n s
    rw [h'] at this
    exact this
  rw [if_neg c250] at h
  by_cases cw : c = 251 ∨ c = 252 ∨ c = 253 ∨ c = 254
  · rw [if_pos cw] at h
    left
    simp only [] at h
    rw [some_pair_inj h]
    split <;> rfl
  rw [if_neg cw] at h
  by_cases c255 : c = 255
  · rw [if_pos c255] at h
    have h2 := some_pair_inj h
    by_cases hb : s.recBuf.isSome = true
    · right
      rw [if_pos hb] at h2
      exact ⟨c255, hb, by rw [h2, c255]⟩
    · left
      rw [if_neg hb] at h2
      rw [h2]
  rw [if_neg c255] at h
  left; rw [some_pair_inj h]

/-- An invariant of the input ring and the filter byte that every store of a
byte other than the active filter byte keeps is kept by the loop of
`checkReceive()`, whatever the client has made available. -/
theorem rxLoop_rec_inv (P : Spy → Prop)
    (hcong : ∀ s t : Spy, recCore t = recCore s → P s → P t)
    (hw : ∀ (s : Spy) (c : Nat), P s → ¬ (s.filterChar ≠ 0 ∧ s.filterChar = c) →
      s.recBuf.isSome = true → P (writeRecBuf s c)) :
    ∀ (fuel : Nat) (n : Int) (s : Spy), P s → P (rxLoop fuel n s) := by
  intro fuel
  induction fuel with
  | zero => intro n s h; exact h
  | succ f ih =>
    intro n s h
    rw [rxLoop]
    split
    · simp only []
      split
      · apply ih
        refine hcong s _ ?_ h
        simp only [clientRead]
        split <;> split <;> rfl
      · next hflt =>
        split
        · split
          · exact h
          · next hc255 _ =>
            have hsk : P (clientRead (clientRead s).2).2 := hcong s _ rfl h
            cases hcmd : nvtCommand f (clientRead (clientRead s).2).1 (n - 2)
                (clientRead (clientRead s).2).2 with
            | none => exact hcong s _ rfl h
            | some r =>
              obtain ⟨n2, s2⟩ := r
              simp only []
              apply ih
              rcases nvtCommand_recCore _ _ _ _ _ _ hcmd with hc | ⟨_, hb, hc⟩
              · exact hcong _ _ hc hsk
              · rw [hc]
                refine hw _ _ hsk ?_ hb
                rw [hc255] at hflt
                exact hflt
        · split
          · next hb =>
            apply ih
            exact hw _ _ (hcong s _ rfl h) hflt hb
          · exact h
    · exact h

theorem recOK_congr (s t : Spy) (cap : Nat) (h : recCore t = recCore s)
    (hok : RecOK s cap) : RecOK t cap ∧ recContent t = recContent s ∧
      t.filterChar = s.filterChar := by
  simp only [recCore, Prod.mk.injEq] at h
  obtain ⟨h1, h2, h3, h4, h5, h6⟩ := h
  unfold RecOK recContent
  rw [h1, h2, h3, h4, h5]
  exact ⟨hok, rfl, h6⟩

/-- C12. The filter trigger byte never reaches the reader: with a filter
byte `f ≠ 0`, whatever bytes the client has made available, what
`checkReceive()` appends to a well-formed input ring contains no byte equal
to `f`; and without an input ring it stores nothing at all. -/
theorem filter_byte_never_forwarded (s : Spy) (hf0 : s.filterChar ≠ 0) :
    (∀ cap, RecOK s cap →
      ∃ app, recContent (checkReceive s) = recContent s ++ app ∧
        s.filterChar ∉ app ∧ RecOK (checkReceive s) cap) ∧
    (s.recBuf = none → recCore (checkReceive s) = recCore s) := by
  constructor
  · intro cap hok
    have key := rxLoop_rec_inv
      (fun t => t.filterChar = s.filterChar ∧ RecOK t cap ∧
        ∃ app, recContent t = recContent s ++ app ∧ s.filterChar ∉ app)
      (by
        intro u t hc ⟨h1, h2, app, h3, h4⟩
        obtain ⟨c1, c2, c3⟩ := recOK_congr u t cap hc h2
        exact ⟨c3.trans h1, c1, app, c2.trans h3, h4⟩)
      (by
        intro u c ⟨h1, h2, app, h3, h4⟩ hflt _
        have hcf : c ≠ s.filterChar := by
          intro hc
          apply hflt
          rw [h1]
          exact ⟨hf0, hc.symm⟩
        by_cases hroom : u.recUsed < cap
        · rw [writeRecBuf_eq u cap c h2 hroom]
          have hp := recPush_ok u cap c h2 hroom
          refine ⟨h1, hp.1, app ++ [c], ?_, ?_⟩
          · rw [hp.2, h3, List.append_assoc]
          · intro hm
            rcases List.mem_append.mp hm with hm | hm
            · exact h4 hm
            · exact hcf (List.mem_singleton.mp hm).symm
        · have hfull : u.recUsed = u.recLen := by
            have := h2.2.2.2.2.1
            rw [h2.2.1]; omega
          rw [writeRecBuf_full u c hfull]
          exact ⟨h1, h2, app, h3, h4⟩)
      s.client.rx.length s.client.rx.length s
      ⟨rfl, hok, [], by simp, by simp⟩
    obtain ⟨_, k2, app, k3, k4⟩ := key
    exact ⟨app, k3, k4, k2⟩
  · intro hnone
    have key := rxLoop_rec_inv
      (fun t => recCore t = recCore s)
      (fun u t hc h => hc.trans h)
      (by
        intro u c h _ hb
        have : u.recBuf = s.recBuf := by
          simp only [recCore, Prod.mk.injEq] at h
          exact h.1
        rw [this, hnone] at hb
        exact absurd hb (by simp))
      s.client.rx.length s.client.rx.length s rfl
    exact key

/-- The filter at `filterCase` (filter byte `!`): from
`A ! IAC IAC ! B IAC BRK !` the input ring receives `A 0xFF B`. -/
theorem filter_byte_never_forwarded_witness :
    (∃ app, recContent (checkReceive filterCase) = recContent filterCase ++ app ∧
      filterCase.filterChar ∉ app ∧ RecOK (checkReceive filterCase) 8) ∧
    recContent (checkReceive filterCase) = [65, 255, 66] :=
  ⟨(filter_byte_never_forwarded filterCase (by decide)).1 8 (by decide),
   by decide⟩

/-! ## Draining by repeated calls of the block sender -/

theorem sendBlock_stays_connected (s : Spy) (hc : s.client.connected = true) :
    (sendBlock s).client.connected = true := by
  rw [sendBlock_tx s hc]
  exact hc

/-- Repeated `sendBlock()` calls send all unsent bytes, in order, in at most
as many calls as there are unsent bytes. -/
theorem drain_all (n : Nat) (hn : n < 65536) :
    ∀ (u : Nat) (s : Spy), s.bufLeftToSend = u → u < 65536 → s.bufLen = n →
      s.bufRdIdx < n → 1 ≤ s.maxBlockSize → s.client.connected = true →
      ∃ k, k ≤ u ∧ (drain k s).bufLeftToSend = 0 ∧
        blockBytes (drain k s).client.tx = blockBytes s.client.tx ++ pending s := by
  intro u
  induction u using Nat.strong_induction_on with
  | _ u ih =>
    intro s hu hL hlen hR hmb hc
    by_cases h0 : u = 0
    · refine ⟨0, Nat.zero_le _, ?_, ?_⟩
      · show s.bufLeftToSend = 0
        omega
      · show blockBytes s.client.tx = blockBytes s.client.tx ++ pending s
        unfold pending
        rw [hu, h0, ringRead_zero, List.append_nil]
    · have hb := blockLen_eq s n hlen hn hR
      obtain ⟨h1, h2, _, h4⟩ := sendBlock_pending s n hlen hn hR (by omega) hc
      have hcore := sendBlock_core s
      simp only [ringCore, Prod.mk.injEq] at hcore
      obtain ⟨_, c2, _, _, _, c6, _, _⟩ := hcore
      obtain ⟨k, hk, hz, hbytes⟩ := ih (u - blockLen s) (by omega) (sendBlock s)
        (by rw [h2, hu]) (by omega) (c2.trans hlen) (sendBlock_rd s n hlen hn hR)
        (by rw [c6]; exact hmb) (sendBlock_stays_connected s hc)
      refine ⟨k + 1, by omega, hz, ?_⟩
      show blockBytes (drain k (sendBlock s)).client.tx = _
      rw [hbytes, h1, h4, List.append_assoc, List.take_append_drop]

/-- C21. One call of `sendBlock()` sends one contiguous bounded block: with
a well-formed ring, a connected client and no staged keep-alive bytes, the
call writes exactly the bytes `telnetBuf[bufRdIdx .. bufRdIdx + len)` with
`len = min(bufLeftToSend, maxBlockSize, bufLen - bufRdIdx)` (no write when
`len = 0`), moves `bufRdIdx` to `(bufRdIdx + len) mod bufLen`, lowers
`bufLeftToSend` by `len` and leaves the storage, `bufUsed`, `bufWrIdx` and
`bufRdIdxStart` unchanged; `len ≥ 1` whenever `bufLeftToSend > 0` and
`maxBlockSize ≥ 1`, and at most `bufLeftToSend` calls send all unsent bytes in
order. -/
theorem send_block_contiguous_bounded (s : Spy) (n : Nat) (hn : n < 65536)
    (hok : RingOK s n) (hL : s.bufLeftToSend < 65536)
    (hc : s.client.connected = true) (h0 : s.NVTidx = 0) :
    blockLen s = min (min s.bufLeftToSend s.maxBlockSize) (n - s.bufRdIdx) ∧
    (sendBlock s).client.tx = s.client.tx ++
      (if blockLen s ≠ 0 then
        [Wr.block (readRun s.telnetBuf s.bufRdIdx (blockLen s))] else []) ∧
    (sendBlock s).bufRdIdx = (s.bufRdIdx + blockLen s) % n ∧
    (sendBlock s).bufLeftToSend = s.bufLeftToSend - blockLen s ∧
    (sendBlock s).telnetBuf = s.telnetBuf ∧
    (sendBlock s).bufLen = s.bufLen ∧
    (sendBlock s).bufUsed = s.bufUsed ∧
    (sendBlock s).bufWrIdx = s.bufWrIdx ∧
    (sendBlock s).bufRdIdxStart = s.bufRdIdxStart ∧
    (0 < s.bufLeftToSend → 1 ≤ s.maxBlockSize → 1 ≤ blockLen s) ∧
    (1 ≤ s.maxBlockSize →
      ∃ k, k ≤ s.bufLeftToSend ∧ (drain k s).bufLeftToSend = 0 ∧
        blockBytes (drain k s).client.tx = blockBytes s.client.tx ++ pending s) := by
  obtain ⟨hlen, _, hR, _, _⟩ := hok
  have hb := blockLen_eq s n hlen hn hR
  obtain ⟨_, h2, h3, _⟩ := sendBlock_pending s n hlen hn hR hL hc
  have hcore := sendBlock_core s
  simp only [ringCore, Prod.mk.injEq] at hcore
  obtain ⟨c1, c2, c3, c4, c5, _, _, _⟩ := hcore
  have hoob : oobWrites s = [] := by
    unfold oobWrites
    rw [if_pos h0]
  refine ⟨hb, ?_, h3, h2, c1, c2, c3, c4, c5, ?_, ?_⟩
  · rw [sendBlock_tx s hc, hoob]
    show s.client.tx ++ [] ++ blockWrite s = _
    rw [List.append_nil]
    rfl
  · intro hpos hmb
    omega
  · intro hmb
    exact drain_all n hn s.bufLeftToSend s rfl hL hlen hR hmb hc

/-- One `sendBlock()` at `wrappedBacklog` (three unsent bytes `A B C` from
index 2 of a ring of capacity 4): the block `A B` up to the physical end is
written, the send cursor wraps to 0 and one byte stays unsent. -/
theorem send_block_contiguous_bounded_witness :
    (sendBlock wrappedBacklog).client.tx = [Wr.block [65, 66]] ∧
    (sendBlock wrappedBacklog).bufRdIdx = 0 ∧
    (sendBlock wrappedBacklog).bufLeftToSend = 1 ∧
    (∃ k, k ≤ 3 ∧ (drain k wrappedBacklog).bufLeftToSend = 0 ∧
      blockBytes (drain k wrappedBacklog).client.tx = [65, 66, 67]) :=
  ⟨(send_block_contiguous_bounded wrappedBacklog 4 (by decide) (by decide)
      (by decide) rfl rfl).2.1,
   (send_block_contiguous_bounded wrappedBacklog 4 (by decide) (by decide)
      (by decide) rfl rfl).2.2.1,
   (send_block_contiguous_bounded wrappedBacklog 4 (by decide) (by decide)
      (by decide) rfl rfl).2.2.2.1,
   (send_block_contiguous_bounded wrappedBacklog 4 (by decide) (by decide)
      (by decide) rfl rfl).2.2.2.2.2.2.2.2.2.2 (by decide)⟩

/-! ## The unsent count under eviction -/

/-- C23, failing input. Ring of capacity 4, blocks of one byte, client
connected, the burst `A LF B C D` written without a tick in between. The fifth
`write` finds the ring full, sends one block (`A`) and evicts the line `A LF`;
`addTelnetBuf` then raises `bufLeftToSend` to 4 while `bufUsed` is 3, and the
send cursor (index 1) is outside the region still held (indices 2, 3, 0).
The next `sendBlock()` transmits the evicted `LF`; after one more `write(E)`,
which overwrites that slot, six calls of `sendBlock()` have transmitted
`A E B C D E`. Offline, `1 LF 3` written to a ring of capacity 2 leaves
`bufLeftToSend = 3` with `bufUsed = 1`. -/
theorem unsent_count_exceeds_used :
    (RingOK (run (emptyRing 4 1) burstOps) 4 ∧
      content (run (emptyRing 4 1) burstOps) = [66, 67, 68] ∧
      (run (emptyRing 4 1) burstOps).bufUsed = 3 ∧
      (run (emptyRing 4 1) burstOps).bufLeftToSend = 4 ∧
      ¬ ((run (emptyRing 4 1) burstOps).bufLeftToSend
          ≤ (run (emptyRing 4 1) burstOps).bufUsed) ∧
      (run (emptyRing 4 1) burstOps).bufRdIdx = 1 ∧
      (∀ k, k < (run (emptyRing 4 1) burstOps).bufUsed →
        ((run (emptyRing 4 1) burstOps).bufRdIdxStart + k) % 4
          ≠ (run (emptyRing 4 1) burstOps).bufRdIdx) ∧
      blockBytes (run (emptyRing 4 1) burstOps).client.tx = [65] ∧
      blockBytes (sendBlock (run (emptyRing 4 1) burstOps)).client.tx
        = [65, 10] ∧
      content (write (run (emptyRing 4 1) burstOps) 69) = [66, 67, 68, 69] ∧
      blockBytes (drain 5 (write (run (emptyRing 4 1) burstOps) 69)).client.tx
        = [65, 69, 66, 67, 68, 69]) ∧
    ((run offlineRing [Op.write 1, Op.write 10, Op.write 3]).bufUsed = 1 ∧
      (run offlineRing [Op.write 1, Op.write 10, Op.write 3]).bufLeftToSend = 3) := by
  decide

/-! ## Cursors after a resize -/

/-- C24, failing inputs. Both states satisfy the premise of the claim, the
allocation succeeds and `setBufferSize(4)` returns true. At `shrinkEdge` the
write cursor equals the new capacity (`bufWrIdx = bufLen = 4`), because the
shrink branch tests `bufWrIdx > bufLen`; the next push stores at index 4,
outside the storage of 4 bytes. At `shrinkTail` the ring cursors are moved
correctly, but `bufRdIdxStart` keeps its old value 6, outside the new
storage; the next eviction reads index 6. -/
theorem resize_leaves_cursor_outside :
    ((1 ≤ shrinkEdge.bufUsed ∧ shrinkEdge.bufUsed ≤ shrinkEdge.bufLen ∧
        shrinkEdge.bufRdIdx < shrinkEdge.bufLen ∧
        shrinkEdge.bufWrIdx < shrinkEdge.bufLen ∧
        shrinkEdge.bufWrIdx
          = (shrinkEdge.bufRdIdx + shrinkEdge.bufUsed) % shrinkEdge.bufLen) ∧
      (setBufferSize shrinkEdge 4 (some (fun _ => 0))).1 = true ∧
      (setBufferSize shrinkEdge 4 (some (fun _ => 0))).2.telnetBuf
        = some [0, 0, 7, 8] ∧
      (setBufferSize shrinkEdge 4 (some (fun _ => 0))).2.bufLen = 4 ∧
      (setBufferSize shrinkEdge 4 (some (fun _ => 0))).2.bufWrIdx = 4 ∧
      ¬ ((setBufferSize shrinkEdge 4 (some (fun _ => 0))).2.bufWrIdx
          < (setBufferSize shrinkEdge 4 (some (fun _ => 0))).2.bufLen) ∧
      (addTelnetBuf (setBufferSize shrinkEdge 4 (some (fun _ => 0))).2 9).telnetBuf
        = some [0, 0, 7, 8]) ∧
    ((1 ≤ shrinkTail.bufUsed ∧ shrinkTail.bufUsed ≤ shrinkTail.bufLen ∧
        shrinkTail.bufRdIdx < shrinkTail.bufLen ∧
        shrinkTail.bufWrIdx < shrinkTail.bufLen ∧
        shrinkTail.bufWrIdx
          = (shrinkTail.bufRdIdx + shrinkTail.bufUsed) % shrinkTail.bufLen) ∧
      (setBufferSize shrinkTail 4 (some (fun _ => 0))).1 = true ∧
      (setBufferSize shrinkTail 4 (some (fun _ => 0))).2.telnetBuf
        = some [0, 0, 7, 8] ∧
      (setBufferSize shrinkTail 4 (some (fun _ => 0))).2.bufLen = 4 ∧
      (setBufferSize shrinkTail 4 (some (fun _ => 0))).2.bufRdIdx = 2 ∧
      (setBufferSize shrinkTail 4 (some (fun _ => 0))).2.bufWrIdx = 0 ∧
      (setBufferSize shrinkTail 4 (some (fun _ => 0))).2.bufUsed = 2 ∧
      (setBufferSize shrinkTail 4 (some (fun _ => 0))).2.bufRdIdxStart = 6 ∧
      ¬ ((setBufferSize shrinkTail 4 (some (fun _ => 0))).2.bufRdIdxStart
          < (setBufferSize shrinkTail 4 (some (fun _ => 0))).2.bufLen) ∧
      (pullTelnetBuf (setBufferSize shrinkTail 4 (some (fun _ => 0))).2).1 = 0) := by
  decide

/-! ## The negotiation-observed flag -/

theorem quiet_refl (s : Spy) : Quiet s s := ⟨rfl, List.suffix_refl _⟩

theorem quiet_trans {s t u : Spy} (h1 : Quiet s t) (h2 : Quiet t u) : Quiet s u :=
  ⟨h2.1.trans h1.1, h2.2.trans h1.2⟩

theorem sendBlock_quiet (s : Spy) : Quiet s (sendBlock s) := by
  refine ⟨?_, ?_⟩
  · obtain ⟨cl, r, l, a, b, hs⟩ := sendBlock_shape s
    rw [hs]
  · rw [sendBlock_rx]

theorem clientRead_quiet (s : Spy) : Quiet s (clientRead s).2 :=
  ⟨rfl, List.tail_suffix _⟩

theorem quiet_event (s : Spy) (b : Bool) (e : Ev) :
    Quiet s (if b = true then { s with events := s.events ++ [e] } else s) := by
  split
  · exact ⟨rfl, List.suffix_refl _⟩
  · exact quiet_refl s

theorem disconnectClient_quiet (s : Spy) : Quiet s (disconnectClient s) := by
  unfold disconnectClient
  simp only []
  have h1 : Quiet s (if s.client.connected = true then
      { sendBlock s with client := (sendBlock s).client.stop } else s) := by
    split
    · exact ⟨(sendBlock_quiet s).1, List.nil_suffix⟩
    · exact quiet_refl s
  generalize (if s.client.connected = true then
      { sendBlock s with client := (sendBlock s).client.stop } else s) = t at h1
  split
  · exact h1
  · exact h1

theorem sbLoop_quiet :
    ∀ (fuel : Nat) (n : Int) (s : Spy), Quiet s (sbLoop fuel n s).2 := by
  intro fuel
  induction fuel with
  | zero => intro n s; exact quiet_refl s
  | succ f ih =>
    intro n s
    rw [sbLoop]
    split
    · simp only []
      split
      · exact quiet_trans (clientRead_quiet s) (ih _ _)
      · exact quiet_trans (quiet_trans (clientRead_quiet s) (clientRead_quiet _)) (ih _ _)
    · exact quiet_refl s

theorem writeRecBuf_quiet (s : Spy) (c : Nat) : Quiet s (writeRecBuf s c) := by
  unfold writeRecBuf
  split
  · exact quiet_refl s
  · exact ⟨rfl, List.suffix_refl _⟩

/-- The command switch changes the negotiation-observed flag only for a
command byte 251..254, and then sets it. -/
theorem nvtCommand_negotiation (fuel : Nat) (c : Nat) (n n2 : Int) (s s2 : Spy)
    (h : nvtCommand fuel c n s = some (n2, s2)) :
    Quiet s s2 ∨
      ((251 ≤ c ∧ c ≤ 254) ∧ s2.nvtDetected = true ∧
        s2.client.rx <:+ s.client.rx) := by
  unfold nvtCommand at h
  by_cases c241 : c = 241
  · rw [if_pos c241] at h
    left
    split at h
    · rw [some_pair_inj h]; exact ⟨rfl, List.suffix_refl _⟩
    · rw [some_pair_inj h]; exact quiet_refl s
  rw [if_neg c241] at h
  by_cases c242 : c = 242
  · rw [if_pos c242] at h
    left; rw [some_pair_inj h]; exact quiet_refl s
  rw [if_neg c242] at h
  by_cases c243 : c = 243
  · rw [if_pos c243] at h
    left; rw [some_pair_inj h]; exact quiet_event s _ _
  rw [if_neg c243] at h
  by_cases c244 : c = 244
  · rw [if_pos c244] at h
    left
    cases hs : s.callbackNvtIP <;> simp only [hs] at h
    · rw [some_pair_inj h]; exact quiet_refl s
    · exact absurd h (by simp)
    · rw [some_pair_inj h]; exact ⟨rfl, List.suffix_refl _⟩
  rw [if_neg c244] at h
  by_cases c245 : c = 245
  · rw [if_pos c245] at h
    left
    cases hs : s.callbackNvtAO <;> simp only [hs] at h
    · rw [some_pair_inj h]; exact quiet_refl s
    · rw [some_pair_inj h]; exact disconnectClient_quiet s
    · rw [some_pair_inj h]; exact ⟨rfl, List.suffix_refl _⟩
  rw [if_neg c245] at h
  by_cases c246 : c = 246
  · rw [if_pos c246] at h
    left; rw [some_pair_inj h]; exact quiet_event s _ _
  rw [if_neg c246] at h
  by_cases c247 : c = 247
  · rw [if_pos c247] at h
    left; rw [some_pair_inj h]; exact quiet_event s _ _
  rw [if_neg c247] at h
  by_cases c248 : c = 248
  · rw [if_pos c248] at h
    left; rw [some_pair_inj h]; exact quiet_event s _ _
  rw [if_neg c248] at h
  by_cases c249 : c = 249
  · rw [if_pos c249] at h
    left; rw [some_pair_inj h]; exact quiet_event s _ _
  rw [if_neg c249] at h
  by_cases c250 : c = 250
  · rw [if_pos c250] at h
    left
    have h' : sbLoop fuel n s = (n2, s2) := by injection h
    have := sbLoop_quiet fuel n s
    rw [h'] at this
    exact this
  rw [if_neg c250] at h
  by_cases cw : c = 251 ∨ c = 252 ∨ c = 253 ∨ c = 254
  · rw [if_pos cw] at h
    right
    simp only [] at h
    rw [some_pair_inj h]
    refine ⟨by omega, ?_, ?_⟩
    · split <;> rfl
    · split
      · exact List.tail_suffix _
      · exact List.tail_suffix _
  rw [if_neg cw] at h
  by_cases c255 : c = 255
  · rw [if_pos c255] at h
    left
    rw [some_pair_inj h]
    split
    · exact writeRecBuf_quiet s c
    · exact quiet_refl s
  rw [if_neg c255] at h
  left; rw [some_pair_inj h]; exact quiet_refl s

theorem negotiates_of_suffix {a b : List Nat} (h : a <:+ b) (hn : Negotiates a) :
    Negotiates b := by
  obtain ⟨c, h1, h2, h3⟩ := hn
  exact ⟨c, h1, h2, h3.trans h.isInfix⟩

theorem negotiates_head (rx : List Nat) (c : Nat) (h1 : rx.headD 255 = 255)
    (h2 : rx.tail.headD 255 = c) (hc : 251 ≤ c ∧ c ≤ 254) : Negotiates rx := by
  match rx, h1, h2 with
  | [], _, h2 =>
    have : (255 : Nat) = c := h2
    omega
  | [x], _, h2 =>
    have : (255 : Nat) = c := h2
    omega
  | x :: y :: r, h1, h2 =>
    have hx : x = 255 := h1
    have hy : y = c := h2
    rw [hx, hy]
    exact ⟨c, hc.1, hc.2, ⟨[], r, rfl⟩⟩

theorem heard_of_quiet {s t : Spy} (h : Quiet s t) : Heard s t :=
  ⟨h.2, fun hs => by rw [h.1]; exact hs, fun ht => Or.inl (by rw [← h.1]; exact ht)⟩

theorem heard_trans {s t u : Spy} (h1 : Heard s t) (h2 : Heard t u) : Heard s u := by
  refine ⟨h2.1.trans h1.1, fun hs => h2.2.1 (h1.2.1 hs), fun hu => ?_⟩
  rcases h2.2.2 hu with ht | hn
  · exact h1.2.2 ht
  · exact Or.inr (negotiates_of_suffix h1.1 hn)

/-- The loop of `checkReceive()` never clears the negotiation-observed flag,
and sets it only if the inbound bytes contain IAC followed by 251..254. -/
theorem rxLoop_heard :
    ∀ (fuel : Nat) (n : Int) (s : Spy), Heard s (rxLoop fuel n s) := by
  intro fuel
  induction fuel with
  | zero => intro n s; exact heard_of_quiet (quiet_refl s)
  | succ f ih =>
    intro n s
    rw [rxLoop]
    split
    · simp only []
      split
      · refine heard_trans (heard_of_quiet ?_) (ih _ _)
        refine ⟨?_, ?_⟩
        · simp only [clientRead]
          split <;> split <;> rfl
        · simp only [clientRead]
          have e : ∀ w, (s.client.send w).rx = s.client.rx := fun w => send_rx _ _
          split <;> split <;> first
            | exact List.tail_suffix _
            | (show (s.client.send _).rx.tail <:+ _; rw [e]; exact List.tail_suffix _)
      · split
        · split
          · exact heard_of_quiet (quiet_refl s)
          · next hc255 _ =>
            have hq : Quiet s (clientRead (clientRead s).2).2 :=
              quiet_trans (clientRead_quiet s) (clientRead_quiet _)
            cases hcmd : nvtCommand f (clientRead (clientRead s).2).1 (n - 2)
                (clientRead (clientRead s).2).2 with
            | none =>
              exact heard_of_quiet ⟨hq.1, hq.2⟩
            | some r =>
              obtain ⟨n2, s2⟩ := r
              simp only []
              rcases nvtCommand_negotiation _ _ _ _ _ _ hcmd with hc | ⟨hc, hset, hsuf⟩
              · exact heard_trans (heard_of_quiet (quiet_trans hq hc)) (ih _ _)
              · have hres := ih n2 s2
                refine ⟨hres.1.trans (hsuf.trans hq.2), fun _ => hres.2.1 hset, fun _ => ?_⟩
                right
                exact negotiates_head s.client.rx _ hc255 rfl hc
        · split
          · refine heard_trans (heard_of_quiet ?_) (ih _ _)
            exact quiet_trans (clientRead_quiet s) (writeRecBuf_quiet _ _)
          · exact heard_of_quiet (quiet_refl s)
    · exact heard_of_quiet (quiet_refl s)

theorem checkReceive_heard (s : Spy) : Heard s (checkReceive s) :=
  rxLoop_heard _ _ _

theorem handleLifecycle_quiet (s : Spy) : Quiet s (handleLifecycle s) := by
  unfold handleLifecycle
  split
  · split
    · simp only []
      split <;> split <;> exact ⟨rfl, List.suffix_refl _⟩
    · exact quiet_refl s
  · split
    · simp only []
      have h := sendBlock_quiet { s with connected := false }
      split
      · exact ⟨h.1, List.nil_suffix⟩
      · exact ⟨h.1, List.nil_suffix⟩
    · exact quiet_refl s

theorem handleFlush_quiet (s : Spy) : Quiet s (handleFlush s) := by
  unfold handleFlush
  split
  · split
    · exact sendBlock_quiet s
    · simp only []
      split
      · have h := sendBlock_quiet { s with waitHoldoff := isHoldoff s.millis s.waitHoldoff }
        exact ⟨h.1, h.2⟩
      · exact ⟨rfl, List.suffix_refl _⟩
  · exact quiet_refl s

theorem handlePing_quiet (s : Spy) : Quiet s (handlePing s) := by
  unfold handlePing
  split
  · simp only []
    split
    · split
      · have h := sendBlock_quiet { s with pingHoldoff := isHoldoff s.millis s.pingHoldoff,
                                           NVT0 := 241, NVT1 := 255, NVTidx := 2 }
        exact ⟨h.1, h.2⟩
      · have h := sendBlock_quiet { s with pingHoldoff := isHoldoff s.millis s.pingHoldoff,
                                           NVT0 := 0, NVTidx := 1 }
        exact ⟨h.1, h.2⟩
    · exact ⟨rfl, List.suffix_refl _⟩
  · exact quiet_refl s

theorem phases_quiet (u : Spy) :
    Quiet u (handlePing (handleFlush (handleLifecycle u))) :=
  quiet_trans (quiet_trans (handleLifecycle_quiet u) (handleFlush_quiet _))
    (handlePing_quiet _)

/-- The accept step leaves the negotiation-observed flag as it was. -/
theorem handleAccept_flag (s : Spy) (p : Client) :
    (handleAccept s p).1.nvtDetected = s.nvtDetected ∧
    ((handleAccept s p).1.client.rx = s.client.rx ∨
      (s.client.connected = false ∧ (handleAccept s p).1.client.rx = p.rx)) := by
  unfold handleAccept
  split
  · exact ⟨rfl, Or.inl rfl⟩
  · next hc =>
    refine ⟨rfl, Or.inr ⟨by simpa using hc, ?_⟩⟩
    simp only []
    split
    · exact send_rx _ _
    · rfl

theorem final_heard (u : Spy) :
    Heard u (if (handlePing (handleFlush (handleLifecycle u))).client.connected = true
      then checkReceive (handlePing (handleFlush (handleLifecycle u)))
      else handlePing (handleFlush (handleLifecycle u))) := by
  refine heard_trans (heard_of_quiet (phases_quiet u)) ?_
  split
  · exact checkReceive_heard _
  · exact heard_of_quiet (quiet_refl _)

/-- One call of `handle()` never clears the negotiation-observed flag, and
sets it only if the bytes waiting from the active client, or from the client
it accepts, contain a negotiation command. -/
theorem handle_negotiation (s : Spy) (ready : Bool) (pend : Option Client) :
    (s.nvtDetected = true → (handle s ready pend).1.nvtDetected = true) ∧
    ((handle s ready pend).1.nvtDetected = true →
      s.nvtDetected = true ∨ Negotiates s.client.rx ∨
        ∃ p, pend = some p ∧ s.client.connected = false ∧ Negotiates p.rx) := by
  unfold handle
  by_cases h1 : (!s.started) = true
  · rw [if_pos h1]; exact ⟨id, Or.inl⟩
  rw [if_neg h1]
  by_cases h2 : (!s.listening) = true ∧ (!ready) = true
  · rw [if_pos h2]; exact ⟨id, Or.inl⟩
  rw [if_neg h2]
  cases pend with
  | none =>
    have k := final_heard { s with listening := true }
    exact ⟨k.2.1, fun h => (k.2.2 h).elim Or.inl (fun hn => Or.inr (Or.inl hn))⟩
  | some p =>
    have k := final_heard (handleAccept { s with listening := true } p).1
    obtain ⟨a1, a2⟩ := handleAccept_flag { s with listening := true } p
    refine ⟨fun h => k.2.1 (a1.trans h), fun h => ?_⟩
    rcases k.2.2 h with hn | hn
    · exact Or.inl (a1.symm.trans hn)
    · rcases a2 with a2 | ⟨a2, a3⟩
      · rw [a2] at hn
        exact Or.inr (Or.inl hn)
      · rw [a3] at hn
        exact Or.inr (Or.inr ⟨p, rfl, a2, hn⟩)

theorem tick_negotiation (s : Spy) (i : Tick) :
    (s.nvtDetected = true → (tick s i).nvtDetected = true) ∧
    ((tick s i).nvtDetected = true →
      s.nvtDetected = true ∨ Negotiates (s.client.rx ++ i.bytes) ∨
        ∃ p, i.waiting = some p ∧
          (s.client.connected = false ∨ i.closes = true) ∧ Negotiates p.rx) := by
  unfold tick
  simp only []
  cases hcl : i.closes with
  | false =>
    have k := handle_negotiation (arrive { s with millis := i.clock } i.bytes)
      i.ready i.waiting
    refine ⟨k.1, fun h => ?_⟩
    rcases k.2 h with h | h | ⟨p, hp, hc, hn⟩
    · exact Or.inl h
    · exact Or.inr (Or.inl h)
    · exact Or.inr (Or.inr ⟨p, hp, Or.inl hc, hn⟩)
  | true =>
    have k := handle_negotiation
      (peerCloses (arrive { s with millis := i.clock } i.bytes)) i.ready i.waiting
    refine ⟨k.1, fun h => ?_⟩
    rcases k.2 h with h | h | ⟨p, hp, _, hn⟩
    · exact Or.inl h
    · exact Or.inr (Or.inl h)
    · exact Or.inr (Or.inr ⟨p, hp, Or.inr rfl, hn⟩)

theorem runTicks_cons (s : Spy) (i : Tick) (is : List Tick) :
    runTicks s (i :: is) = runTicks (tick s i) is := rfl

theorem runTicks_sticky :
    ∀ (is : List Tick) (s : Spy), s.nvtDetected = true →
      (runTicks s is).nvtDetected = true := by
  intro is
  induction is with
  | nil => intro s h; exact h
  | cons i is ih =>
    intro s h
    rw [runTicks_cons]
    exact ih _ ((tick_negotiation s i).1 h)

theorem runTicks_only_if :
    ∀ (is : List Tick) (s : Spy), (runTicks s is).nvtDetected = true →
      s.nvtDetected = true ∨
      ∃ pre i post, is = pre ++ i :: post ∧
        (Negotiates ((runTicks s pre).client.rx ++ i.bytes) ∨
          ∃ p, i.waiting = some p ∧
            ((runTicks s pre).client.connected = false ∨ i.closes = true) ∧
            Negotiates p.rx) := by
  intro is
  induction is with
  | nil => intro s h; exact Or.inl h
  | cons i is ih =>
    intro s h
    rw [runTicks_cons] at h
    rcases ih _ h with h1 | ⟨pre, j, post, he, hc⟩
    · rcases (tick_negotiation s i).2 h1 with h2 | h2
      · exact Or.inl h2
      · exact Or.inr ⟨[], i, is, rfl, h2⟩
    · refine Or.inr ⟨i :: pre, j, post, ?_, hc⟩
      rw [he]; rfl

theorem nvtCommand_wwdd (fuel : Nat) (n : Int) (s : Spy) (cmd : Nat)
    (h1 : 251 ≤ cmd) (h2 : cmd ≤ 254) :
    nvtCommand fuel cmd n s = some (n - 1,
      { skipRx s 1 with
        nvtDetected := true,
        events := if s.callbackNvtWWDD = true
          then s.events ++ [Ev.wwdd cmd (s.client.rx.headD 255)] else s.events }) := by
  have hc : cmd = 251 ∨ cmd = 252 ∨ cmd = 253 ∨ cmd = 254 := by omega
  rcases hc with rfl | rfl | rfl | rfl <;>
    (unfold nvtCommand clientRead skipRx
     simp only [Nat.reduceEqDiff, if_false, true_or, or_true, if_true]
     split <;> simp)

/-- Inbound bytes that start with IAC and a negotiation command set the
flag, when the filter byte is not `0xFF`. -/
theorem checkReceive_sets_flag (s : Spy) (cmd : Nat) (rest : List Nat)
    (h1 : 251 ≤ cmd) (h2 : cmd ≤ 254) (hf : s.filterChar ≠ 255)
    (hrx : s.client.rx = 255 :: cmd :: rest) :
    (checkReceive s).nvtDetected = true := by
  unfold checkReceive
  rw [hrx]
  show (rxLoop (rest.length + 1 + 1) ((rest.length + 1 + 1 : Nat) : Int) s).nvtDetected = true
  rw [rxLoop_iac _ _ s cmd rest hrx (by omega) (fun h => hf h.2),
    nvtCommand_wwdd _ _ _ cmd h1 h2]
  exact (rxLoop_heard _ _ _).2.1 rfl

/-- Processing exactly `[0xFF, cmd, opt]`. -/
theorem checkReceive_triple (s : Spy) (cmd opt : Nat)
    (h1 : 251 ≤ cmd) (h2 : cmd ≤ 254) (hf : s.filterChar ≠ 255)
    (hrx : s.client.rx = [255, cmd, opt]) :
    checkReceive s =
      { skipRx s 3 with
        nvtDetected := true,
        events := if s.callbackNvtWWDD = true
          then s.events ++ [Ev.wwdd cmd opt] else s.events } := by
  unfold checkReceive
  rw [hrx]
  show rxLoop (2 + 1) 3 s = _
  rw [rxLoop_iac 2 3 s cmd [opt] hrx (by decide) (fun h => hf h.2),
    nvtCommand_wwdd _ _ _ cmd h1 h2]
  simp only []
  rw [rxLoop_done _ _ _ (by decide)]
  have e : (skipRx s 2).client.rx.headD 255 = opt := by
    show (s.client.rx.drop 2).headD 255 = opt
    rw [hrx]; rfl
  rw [e, skipRx_skipRx]
  rfl

/-- The probe written by the keep-alive step is selected by the flag. -/
theorem handlePing_probe (s : Spy) (hc : s.client.connected = true)
    (hp : s.pingTime ≠ 0) (hh : isHoldoff s.millis s.pingHoldoff = 0) :
    (handlePing s).client.tx
      = s.client.tx
        ++ (if s.nvtDetected then [Wr.oob 255, Wr.oob 241] else [Wr.oob 0])
        ++ blockWrite s := by
  have key : ∀ t : Spy, t.client = s.client → blockWrite t = blockWrite s →
      (sendBlock t).client.tx = s.client.tx ++ oobWrites t ++ blockWrite s := by
    intro t h1 h3
    rw [sendBlock_tx t (by rw [h1]; exact hc), h1, h3]
  unfold handlePing
  simp only [hc, hp, ne_eq, not_false_eq_true, and_self, if_true, hh]
  by_cases hd : s.nvtDetected = true
  · simp only [hd, if_true]
    exact key _ rfl rfl
  · simp only [hd, if_false, Bool.false_eq_true]
    exact key _ rfl rfl

/-- C22 (amended). The negotiation-observed flag belongs to the engine
object, not to the connection: no tick ever clears it. For every state and
every sequence of ticks (with any arriving bytes, closing peers and waiting
clients), the flag stays true once it is true, and when it was false it
becomes true only if at one of the ticks the inbound bytes of the active
client, or of the client accepted in that tick, contain IAC immediately
followed by 251..254. With a filter byte other than `0xFF`, inbound bytes that
start with IAC and such a command set the flag, and processing exactly
`[0xFF, cmd, opt]` consumes the three bytes, forwards nothing, writes nothing
and invokes the registered WILL/WON'T/DO/DON'T callback once with
`(cmd, opt)`. The accept step leaves the flag as it was, and so does a whole
tick that accepts a client when no negotiation command is waiting; the
keep-alive step probes with IAC NOP when the flag is set and with NUL
otherwise. -/
theorem negotiation_flag_never_cleared (s : Spy) :
    (∀ is : List Tick, s.nvtDetected = true →
      (runTicks s is).nvtDetected = true) ∧
    (∀ is : List Tick, s.nvtDetected = false →
      (runTicks s is).nvtDetected = true →
      ∃ pre i post, is = pre ++ i :: post ∧
        (Negotiates ((runTicks s pre).client.rx ++ i.bytes) ∨
          ∃ p, i.waiting = some p ∧
            ((runTicks s pre).client.connected = false ∨ i.closes = true) ∧
            Negotiates p.rx)) ∧
    (∀ cmd rest, 251 ≤ cmd → cmd ≤ 254 → s.filterChar ≠ 255 →
      s.client.rx = 255 :: cmd :: rest →
      (checkReceive s).nvtDetected = true) ∧
    (∀ cmd opt, 251 ≤ cmd → cmd ≤ 254 → s.filterChar ≠ 255 →
      s.client.rx = [255, cmd, opt] →
      (checkReceive s).nvtDetected = true ∧
      (checkReceive s).client.rx = [] ∧
      (checkReceive s).events
        = (if s.callbackNvtWWDD = true then s.events ++ [Ev.wwdd cmd opt]
           else s.events) ∧
      (checkReceive s).client.tx = s.client.tx ∧
      recCore (checkReceive s) = recCore s) ∧
    (∀ p, (handleAccept s p).1.nvtDetected = s.nvtDetected) ∧
    (∀ i p, i.waiting = some p → ¬ Negotiates (s.client.rx ++ i.bytes) →
      ¬ Negotiates p.rx → (tick s i).nvtDetected = s.nvtDetected) ∧
    (s.client.connected = true → s.pingTime ≠ 0 →
      isHoldoff s.millis s.pingHoldoff = 0 →
      (handlePing s).client.tx
        = s.client.tx
          ++ (if s.nvtDetected then [Wr.oob 255, Wr.oob 241] else [Wr.oob 0])
          ++ blockWrite s) := by
  refine ⟨fun is h => runTicks_sticky is s h, ?_, ?_, ?_,
    fun p => (handleAccept_flag s p).1, ?_, handlePing_probe s⟩
  · intro is h0 h
    rcases runTicks_only_if is s h with h1 | h1
    · rw [h0] at h1
      exact absurd h1 (by simp)
    · exact h1
  · intro cmd rest h1 h2 hf hrx
    exact checkReceive_sets_flag s cmd rest h1 h2 hf hrx
  · intro cmd opt h1 h2 hf hrx
    rw [checkReceive_triple s cmd opt h1 h2 hf hrx]
    refine ⟨rfl, ?_, rfl, rfl, rfl⟩
    show s.client.rx.drop 3 = []
    rw [hrx]; rfl
  · intro i p hp hn1 hn2
    have k := tick_negotiation s i
    cases hs : s.nvtDetected with
    | true => exact k.1 hs
    | false =>
      cases ht : (tick s i).nvtDetected with
      | false => rfl
      | true =>
        rcases k.2 ht with h | h | ⟨q, hq, _, hn⟩
        · rw [hs] at h
          exact absurd h (by simp)
        · exact absurd h hn1
        · rw [hp] at hq
          injection hq with hq
          rw [hq] at hn2
          exact absurd hn hn2

/-- The flag at `willCase`: `IAC WILL 1` is consumed, the callback is invoked
once with `(251, 1)`, nothing is forwarded; and the flag, once set, is still
set after the ticks of `twoClients`, in which that client is lost and a new
one is accepted. -/
theorem negotiation_flag_never_cleared_witness :
    ((checkReceive willCase).nvtDetected = true ∧
      (checkReceive willCase).client.rx = [] ∧
      (checkReceive willCase).events = [Ev.wwdd 251 1] ∧
      (checkReceive willCase).client.tx = [] ∧
      recCore (checkReceive willCase) = recCore willCase) ∧
    (runTicks (checkReceive willCase) twoClients).nvtDetected = true :=
  ⟨(negotiation_flag_never_cleared willCase).2.2.2.1 251 1 (by decide) (by decide)
      (by decide) rfl,
   (negotiation_flag_never_cleared (checkReceive willCase)).1 twoClients
      (by decide)⟩

/-- C22, as stated, fails. Client `A` negotiates (`IAC WILL 1`), its peer
closes, and client `B`, which never sends a byte, is accepted: immediately
after the accept the flag is still true, and when the ping holdoff of `B` has
elapsed `B` is probed with IAC NOP (255, 241), where the claim says the flag
is false and the probe is NUL. With the filter byte `0xFF` the sequence
`IAC WILL 1` does not set the flag: the IAC is taken as the filter byte and
`WILL 1` is forwarded as data. And `IAC WILL 1` that follows a complete
subnegotiation in the same batch is swallowed by the subnegotiation loop and
does not set the flag. -/
theorem negotiation_flag_survives_reconnect_counterexample :
    (probeCase.nvtDetected = false ∧
      (runTicks probeCase twoClients).nvtDetected = true ∧
      (runTicks probeCase twoClients).client.connected = true ∧
      (runTicks probeCase twoClients).client.tx = [] ∧
      (runTicks probeCase twoClients).events = [Ev.wwdd 251 1] ∧
      (tick (runTicks probeCase twoClients) probeTick).client.tx
        = [Wr.oob 255, Wr.oob 241] ∧
      (tick (runTicks probeCase twoClients) probeTick).client.tx ≠ [Wr.oob 0]) ∧
    ((checkReceive { willCase with filterChar := 255 }).nvtDetected = false ∧
      (checkReceive { willCase with filterChar := 255 }).client.rx = [] ∧
      (checkReceive { willCase with filterChar := 255 }).events = [] ∧
      recContent (checkReceive { willCase with filterChar := 255 }) = [251, 1]) ∧
    (swallowCase.client.rx = [255, 250, 1, 255, 240] ++ [255, 251, 1] ∧
      (checkReceive swallowCase).nvtDetected = false ∧
      (checkReceive swallowCase).client.rx = [] ∧
      (checkReceive swallowCase).events = []) := by
  decide

end TelnetSpy
